import Mathlib

/-!
# massdns `net.h`: endpoint codec and reverse names

A shallow embedding of `src/net.h`: `str_to_addr`, `sockaddr2str`, `ip2ptr`
and the C library routines they call.

Conventions of the embedding.

* A C string is the `List Char` of its characters before the terminating NUL.
  A `char *` that may be `NULL` is an `Option (List Char)`.
* Machine integers are `Nat`, reduced modulo `2 ^ w` where the C type matters.
* A 16-bit port in network byte order is kept as the two bytes that lie in
  memory (high byte first), so nothing depends on the endianness of the host.
* The C library routines (`strtoul`, `inet_pton`, `inet_ntop`, `snprintf`)
  are not part of the repository; they are embedded after the GNU C library
  (`stdlib/strtol_l.c`, `resolv/inet_pton.c`, `resolv/inet_ntop.c`) on an LP64
  Linux host, the platform `net.h` is written for (`epoll`).
-/

namespace Massdns

/-! ## Constants of the platform -/

/-- Address family of IPv4 (`AF_INET` in `<sys/socket.h>` on Linux). -/
def AF_INET : Nat := 2

/-- Address family of IPv6 (`AF_INET6` in `<sys/socket.h>` on Linux). -/
def AF_INET6 : Nat := 10

/-- Largest `uint16_t`. -/
def UINT16_MAX : Nat := 65535

/-- Largest `unsigned long` (LP64). -/
def ULONG_MAX : Nat := 18446744073709551615

/-- Size of the buffer `inet_ntop` needs for any IPv6 text, terminator included. -/
def INET6_ADDRSTRLEN : Nat := 46

/-! ## The C library: formatted output -/

/-- Conversion `%u` of `printf` (also `PRIu8`, `PRIu16`): decimal, no padding. -/
def fmt_u (n : Nat) : List Char := Nat.toDigits 10 n

/-- Conversion `%x` of `printf`: lowercase hexadecimal, no padding. -/
def fmt_x (n : Nat) : List Char := Nat.toDigits 16 n

/-- The characters `snprintf (buf, size, ...)` stores before the terminator:
at most `size - 1` of the formatted text. -/
def snprintf (size : Nat) (formatted : List Char) : List Char :=
  formatted.take (size - 1)

/-! ## The C library: `strtoul` -/

/-- Locale "C" `isspace`. -/
def isspace (c : Char) : Bool :=
  c = ' ' || c = '\t' || c = '\n' || c = '\x0b' || c = '\x0c' || c = '\r'

/-- Digit loop of `strtoul` in base 10: the value of the longest run of
decimal digits (not yet clamped) and the text after it. -/
def strtoul_digits : List Char → Nat → Nat × List Char
  | [], acc => (acc, [])
  | c :: cs, acc =>
    if c.isDigit then strtoul_digits cs (acc * 10 + (c.toNat - 48))
    else (acc, c :: cs)

/-- What `strtoul` passes over before the digits: white space, then at most
one sign. -/
def strtoul_skip (nptr : List Char) : List Char :=
  let t := nptr.dropWhile isspace
  if t.head? = some '-' ∨ t.head? = some '+' then t.tail else t

/-- Function `strtoul (nptr, &endptr, 10)`: the value returned and the text
`endptr` points at. White space is skipped, one sign is accepted, a value
that does not fit is clamped to `ULONG_MAX`, a negative value is negated
modulo `2 ^ 64`, and without any digit the result is `0` with
`endptr = nptr`. -/
def strtoul (nptr : List Char) : Nat × List Char :=
  let neg : Bool := (nptr.dropWhile isspace).head? = some '-'
  match strtoul_skip nptr with
  | [] => (0, nptr)
  | c :: cs =>
    if c.isDigit then
      let r := strtoul_digits (c :: cs) 0
      if r.1 > ULONG_MAX then (ULONG_MAX, r.2)
      else if neg then ((ULONG_MAX + 1 - r.1) % (ULONG_MAX + 1), r.2)
      else (r.1, r.2)
    else (0, nptr)

/-! ## The C library: `inet_pton` -/

/-- Loop of `inet_pton4`. `done` are the bytes of `tmp` before `tp`, `cur`
is `*tp`, `saw` is `saw_digit`. -/
def inet_pton4_loop : List Char → List Nat → Nat → Bool → Nat → Option (List Nat)
  | [], done, cur, _, octets => if octets < 4 then none else some (done ++ [cur])
  | ch :: src, done, cur, saw, octets =>
    if ch.isDigit then
      let new := cur * 10 + (ch.toNat - 48)
      if saw ∧ cur = 0 then none
      else if new > 255 then none
      else if saw then inet_pton4_loop src done new saw octets
      else if octets + 1 > 4 then none
      else inet_pton4_loop src done new true (octets + 1)
    else if ch = '.' ∧ saw then
      if octets = 4 then none
      else inet_pton4_loop src (done ++ [cur]) 0 false octets
    else none

/-- Function `inet_pton (AF_INET, src, dst)`: the four address bytes stored in
`dst`, or `none` when it returns `0` and leaves `dst` alone. -/
def inet_pton4 (src : List Char) : Option (List Nat) :=
  inet_pton4_loop src [] 0 false 0

/-- Value of a hexadecimal digit, as `hex_digit_value` of `inet_pton.c`. -/
def hex_digit_value (ch : Char) : Option Nat :=
  if '0' ≤ ch ∧ ch ≤ '9' then some (ch.toNat - 48)
  else if 'a' ≤ ch ∧ ch ≤ 'f' then some (ch.toNat - 97 + 10)
  else if 'A' ≤ ch ∧ ch ≤ 'F' then some (ch.toNat - 65 + 10)
  else none

/-- What `inet_pton6` does after its loop, with the bytes `out` written so
far (`tp = tmp + out.length`): store a pending group, expand `::` at
`colonp`, demand sixteen bytes. -/
def inet_pton6_finish (out : List Nat) (colonp : Option Nat) (xdigits_seen val : Nat) :
    Option (List Nat) :=
  let stored : Option (List Nat) :=
    if xdigits_seen > 0 then
      if out.length + 2 > 16 then none
      else some (out ++ [(val >>> 8) &&& 0xff, val &&& 0xff])
    else some out
  match stored with
  | none => none
  | some out =>
    match colonp with
    | some cp =>
      if out.length = 16 then none
      else some (out.take cp ++ List.replicate (16 - out.length) 0 ++ out.drop cp)
    | none => if out.length ≠ 16 then none else some out

/-- Loop of `inet_pton6`. `curtok` is the text from the start of the current
group, `out` the bytes written, `colonp` the offset of `::` in `tmp`. -/
def inet_pton6_loop :
    List Char → List Char → List Nat → Option Nat → Nat → Nat → Option (List Nat)
  | [], _, out, colonp, xdigits_seen, val => inet_pton6_finish out colonp xdigits_seen val
  | ch :: src, curtok, out, colonp, xdigits_seen, val =>
    match hex_digit_value ch with
    | some digit =>
      if xdigits_seen = 4 then none
      else if ((val <<< 4) ||| digit) > 0xffff then none
      else inet_pton6_loop src curtok out colonp (xdigits_seen + 1) ((val <<< 4) ||| digit)
    | none =>
      if ch = ':' then
        if xdigits_seen = 0 then
          if colonp.isSome then none
          else inet_pton6_loop src src out (some out.length) xdigits_seen val
        else if src = [] then none
        else if out.length + 2 > 16 then none
        else inet_pton6_loop src src (out ++ [(val >>> 8) &&& 0xff, val &&& 0xff]) colonp 0 0
      else if ch = '.' ∧ out.length + 4 ≤ 16 then
        match inet_pton4 curtok with
        | some quad => inet_pton6_finish (out ++ quad) colonp 0 val
        | none => none
      else none

/-- Function `inet_pton (AF_INET6, src, dst)`: the sixteen address bytes stored
in `dst`, or `none` when it returns `0` and leaves `dst` alone. -/
def inet_pton6 (src : List Char) : Option (List Nat) :=
  match src with
  | [] => none
  | ':' :: rest =>
    match rest with
    | ':' :: _ => inet_pton6_loop rest rest [] none 0 0
    | _ => none
  | _ => inet_pton6_loop src src [] none 0 0

/-! ## The C library: `inet_ntop` -/

/-- Function `inet_ntop4`: `"%u.%u.%u.%u"` of the four bytes; `none` (`ENOSPC`)
when the text and its terminator do not fit `size`. -/
def inet_ntop4 (src : List Nat) (size : Nat) : Option (List Char) :=
  let tmp := fmt_u (src.getD 0 0) ++ '.' :: fmt_u (src.getD 1 0) ++ '.' ::
    fmt_u (src.getD 2 0) ++ '.' :: fmt_u (src.getD 3 0)
  if tmp.length ≥ size then none else some tmp

/-- The eight 16-bit groups of an IPv6 address. -/
def words16 (src : List Nat) : List Nat :=
  (List.range 8).map fun i => (src.getD (2 * i) 0 <<< 8) ||| src.getD (2 * i + 1) 0

/-- First loop of `inet_ntop6`: the longest run of zero groups, the first of
several of one length. A run is `(base, len)`; `none` is `base = -1`. -/
def best_run : List Nat → Nat → Option (Nat × Nat) → Option (Nat × Nat) → Option (Nat × Nat)
  | [], _, best, cur =>
    match cur with
    | some c =>
      match best with
      | none => some c
      | some b => if c.2 > b.2 then some c else some b
    | none => best
  | w :: ws, i, best, cur =>
    if w = 0 then
      match cur with
      | none => best_run ws (i + 1) best (some (i, 1))
      | some c => best_run ws (i + 1) best (some (c.1, c.2 + 1))
    else
      match cur with
      | some c =>
        match best with
        | none => best_run ws (i + 1) (some c) none
        | some b => best_run ws (i + 1) (if c.2 > b.2 then some c else some b) none
      | none => best_run ws (i + 1) best none

/-- The run `inet_ntop6` abbreviates: the best run, dropped when shorter than
two groups. -/
def best_of (words : List Nat) : Option (Nat × Nat) :=
  match best_run words 0 none none with
  | some b => if b.2 < 2 then none else some b
  | none => none

/-- Second loop of `inet_ntop6`, from group `i` on, with `fuel` groups left;
`tp` is the text written to `tmp` so far. `none` when `inet_ntop4` fails. -/
def inet_ntop6_loop (src words : List Nat) (best : Option (Nat × Nat)) :
    Nat → Nat → List Char → Option (List Char)
  | 0, _, tp => some tp
  | fuel + 1, i, tp =>
    if best.isSome ∧ i ≥ (best.getD (0, 0)).1 ∧
        i < (best.getD (0, 0)).1 + (best.getD (0, 0)).2 then
      inet_ntop6_loop src words best fuel (i + 1)
        (if i = (best.getD (0, 0)).1 then tp ++ [':'] else tp)
    else
      let tp1 := if i ≠ 0 then tp ++ [':'] else tp
      if i = 6 ∧ best.isSome ∧ (best.getD (0, 0)).1 = 0 ∧
          ((best.getD (0, 0)).2 = 6 ∨
            ((best.getD (0, 0)).2 = 5 ∧ words.getD 5 0 = 0xffff)) then
        match inet_ntop4 (src.drop 12) (INET6_ADDRSTRLEN - tp1.length) with
        | some quad => some (tp1 ++ quad)
        | none => none
      else
        inet_ntop6_loop src words best fuel (i + 1) (tp1 ++ fmt_x (words.getD i 0))

/-- Function `inet_ntop6`: the text of the sixteen bytes; `none` (`ENOSPC`)
when the text and its terminator do not fit `size`. -/
def inet_ntop6 (src : List Nat) (size : Nat) : Option (List Char) :=
  let words := words16 src
  let best := best_of words
  match inet_ntop6_loop src words best 8 0 [] with
  | none => none
  | some tp =>
    let tmp := if best.isSome ∧ (best.getD (0, 0)).1 + (best.getD (0, 0)).2 = 8
      then tp ++ [':'] else tp
    if tmp.length ≥ size then none else some tmp

/-! ## The C library: byte order -/

/-- Function `htons`: the two bytes of a 16-bit value as they lie in memory
in network order, high byte first. -/
def htons (x : Nat) : Nat × Nat := ((x / 256) % 256, x % 256)

/-- Function `ntohs`: the host value of two bytes in network order. -/
def ntohs (b : Nat × Nat) : Nat := (b.1 % 256) * 256 + b.2 % 256

/-! ## The data model of `net.h` -/

/-- The fields of `struct sockaddr_storage` that `net.h` reads and writes,
through `struct sockaddr_in` and `struct sockaddr_in6`. On Linux the port
of both lies at offset 2, `sin_addr` at offsets 4..7 and `sin6_addr` at
offsets 8..23, so the two addresses do not overlap. -/
structure sockaddr_storage where
  ss_family : Nat
  sin_port : Nat × Nat
  sin_addr : List Nat
  sin6_addr : List Nat
deriving DecidableEq, Repr

/-- What a call of `str_to_addr` leaves behind: the value returned, the
caller's record `addr` and the caller's text buffer `str`. -/
structure Outcome where
  ret : Bool
  addr : sockaddr_storage
  str : List Char
deriving DecidableEq, Repr

/-! ## `str_to_addr` -/

/-- Function `strstr (str, "]")`: the text before the first `]` and the text
after it, `none` for a null result. -/
def strstr_bracket : List Char → Option (List Char × List Char)
  | [] => none
  | c :: cs =>
    if c = ']' then some ([], cs)
    else
      match strstr_bracket cs with
      | some r => some (c :: r.1, r.2)
      | none => none

/-- The `for` loop of `str_to_addr` over the unbracketed text: `v4` and the
offset of `colon` (`none` for `NULL`); `i` is the offset of `c`. -/
def scan_loop : List Char → Nat → Bool → Option Nat → Bool × Option Nat
  | [], _, v4, colon => (v4, colon)
  | c :: cs, i, v4, colon =>
    scan_loop cs (i + 1) (if c = '.' ∧ colon = none then true else v4)
      (if c = ':' then some i else colon)

/-- Lines 137-149 of `net.h`: the two `inet_pton` attempts on `str`, with
the port decided before. `buf` is the caller's buffer as it is by then. -/
def str_to_addr_tail (str : List Char) (port : Nat) (addr : sockaddr_storage)
    (buf : List Char) : Outcome :=
  match inet_pton4 str with
  | some a =>
    ⟨true, { addr with sin_addr := a, sin_port := htons (port % 65536),
                       ss_family := AF_INET }, buf⟩
  | none =>
    match inet_pton6 str with
    | some a =>
      ⟨true, { addr with sin6_addr := a, sin_port := htons (port % 65536),
                         ss_family := AF_INET6 }, buf⟩
    | none => ⟨false, addr, buf⟩

/-- Function `str_to_addr (str, default_port, addr)` of `net.h`. -/
def str_to_addr (str : Option (List Char)) (default_port : Nat)
    (addr : sockaddr_storage) : Outcome :=
  match str with
  | none => ⟨false, addr, []⟩
  | some buf =>
    if buf = [] then ⟨false, addr, buf⟩
    else
      let ws := buf.takeWhile fun c => c = ' ' || c = '\t'
      let str0 := buf.dropWhile fun c => c = ' ' || c = '\t'
      let port := default_port % 65536
      if str0.head? = some '[' then
        let str1 := str0.tail
        match strstr_bracket str1 with
        | none => ⟨false, addr, buf⟩
        | some cb =>
          if cb.2.head? = some ':' then
            let buf1 := ws ++ '[' :: cb.1 ++ '\x00' :: cb.2
            let r := strtoul cb.2.tail
            if r.2 ≠ [] ∨ r.1 ≥ UINT16_MAX then ⟨false, addr, buf1⟩
            else str_to_addr_tail cb.1 r.1 addr buf1
          else str_to_addr_tail str1 port addr buf
      else
        match scan_loop str0 0 false none with
        | (true, some colon) =>
          let buf1 := ws ++ str0.take colon ++ '\x00' :: str0.drop (colon + 1)
          let r := strtoul (str0.drop (colon + 1))
          if r.2 ≠ [] ∨ r.1 ≥ UINT16_MAX then ⟨false, addr, buf1⟩
          else str_to_addr_tail (str0.take colon) r.1 addr buf1
        | _ => str_to_addr_tail str0 port addr buf

/-! ## `ip2ptr` -/

/-- The thirty-two arguments of the IPv6 `snprintf` of `ip2ptr`, in order. -/
def ptr_nibbles (addr : List Nat) : List Nat :=
  [addr.getD 15 0 &&& 0xF, (addr.getD 15 0 >>> 4) &&& 0xF,
   addr.getD 14 0 &&& 0xF, (addr.getD 14 0 >>> 4) &&& 0xF,
   addr.getD 13 0 &&& 0xF, (addr.getD 13 0 >>> 4) &&& 0xF,
   addr.getD 12 0 &&& 0xF, (addr.getD 12 0 >>> 4) &&& 0xF,
   addr.getD 11 0 &&& 0xF, (addr.getD 11 0 >>> 4) &&& 0xF,
   addr.getD 10 0 &&& 0xF, (addr.getD 10 0 >>> 4) &&& 0xF,
   addr.getD 9 0 &&& 0xF, (addr.getD 9 0 >>> 4) &&& 0xF,
   addr.getD 8 0 &&& 0xF, (addr.getD 8 0 >>> 4) &&& 0xF,
   addr.getD 7 0 &&& 0xF, (addr.getD 7 0 >>> 4) &&& 0xF,
   addr.getD 6 0 &&& 0xF, (addr.getD 6 0 >>> 4) &&& 0xF,
   addr.getD 5 0 &&& 0xF, (addr.getD 5 0 >>> 4) &&& 0xF,
   addr.getD 4 0 &&& 0xF, (addr.getD 4 0 >>> 4) &&& 0xF,
   addr.getD 3 0 &&& 0xF, (addr.getD 3 0 >>> 4) &&& 0xF,
   addr.getD 2 0 &&& 0xF, (addr.getD 2 0 >>> 4) &&& 0xF,
   addr.getD 1 0 &&& 0xF, (addr.getD 1 0 >>> 4) &&& 0xF,
   addr.getD 0 0 &&& 0xF, (addr.getD 0 0 >>> 4) &&& 0xF]

/-- Function `ip2ptr (qname)` of `net.h`: the text left in `ptr_query`, or
`none` for `NULL`. -/
def ip2ptr (qname : List Char) : Option (List Char) :=
  match inet_pton4 qname with
  | some addr =>
    some (snprintf 1023
      (fmt_u (addr.getD 3 0) ++ '.' :: fmt_u (addr.getD 2 0) ++ '.' ::
        fmt_u (addr.getD 1 0) ++ '.' :: fmt_u (addr.getD 0 0) ++
        ".in-addr.arpa.".toList))
  | none =>
    match inet_pton6 qname with
    | some addr =>
      some (snprintf 1023
        ((ptr_nibbles addr).flatMap (fun n => fmt_x n ++ ['.']) ++ "ip6.arpa.".toList))
    | none => none

/-! ## `sockaddr2str` -/

/-- Function `sockaddr2str (addr)` of `net.h`: the text left in the static
buffer `str`. `none` when `inet_ntop` fails (a family that is neither
`AF_INET` nor `AF_INET6`, or no room), where the C code goes on with
whatever the buffer held before. -/
def sockaddr2str (addr : sockaddr_storage) : Option (List Char) :=
  let size := INET6_ADDRSTRLEN + 7 + 2
  if addr.ss_family = AF_INET then
    let port := ntohs addr.sin_port
    match inet_ntop4 addr.sin_addr size with
    | none => none
    | some str =>
      let len := str.length
      some (str ++ snprintf (size - len) (':' :: fmt_u port))
  else
    let port := ntohs addr.sin_port
    match (if addr.ss_family = AF_INET6 then inet_ntop6 addr.sin6_addr (size - 1) else none) with
    | none => none
    | some text =>
      let str := '[' :: text
      let len := str.length
      let str := str ++ [']']
      let len := len + 1
      some (str ++ snprintf (size - len) (':' :: fmt_u port))

/-- Size of the static buffer `str` of `sockaddr2str`:
`INET6_ADDRSTRLEN + sizeof(":65535") + 2`. -/
def sizeof_str : Nat := INET6_ADDRSTRLEN + 7 + 2

/-- Where `sockaddr2str` stores into `str`: the offset of `str[0] = '['`, the
offset and size handed to `inet_ntop`, the offsets of `str[len++] = ']'` and
of `str[len] = 0`, the offset and size (a `size_t`) handed to `snprintf`, and
the text `snprintf` is asked to format. -/
structure Stores where
  open_bracket : Option Nat
  ntop_at : Nat
  ntop_size : Nat
  close_bracket : Option Nat
  terminator : Option Nat
  suffix_at : Nat
  suffix_size : Nat
  suffix : List Char
deriving DecidableEq, Repr

/-- The stores of `sockaddr2str (addr)`, branch by branch as in `net.h`;
`none` when `inet_ntop` fails. -/
def sockaddr2str_stores (addr : sockaddr_storage) : Option Stores :=
  if addr.ss_family = AF_INET then
    let port := ntohs addr.sin_port
    match inet_ntop4 addr.sin_addr sizeof_str with
    | none => none
    | some str =>
      let len := str.length
      some ⟨none, 0, sizeof_str, none, none, len,
        (sizeof_str + 18446744073709551616 - len) % 18446744073709551616, ':' :: fmt_u port⟩
  else
    let port := ntohs addr.sin_port
    match (if addr.ss_family = AF_INET6 then inet_ntop6 addr.sin6_addr (sizeof_str - 1)
      else none) with
    | none => none
    | some text =>
      let len := ('[' :: text).length
      some ⟨some 0, 1, sizeof_str - 1, some len, some (len + 1), len + 1,
        (sizeof_str + 18446744073709551616 - (len + 1)) % 18446744073709551616,
        ':' :: fmt_u port⟩

/-! ## `sockaddr_storage_size` -/

/-- Value of `sizeof (struct sockaddr_in)` on Linux. -/
def sizeof_sockaddr_in : Nat := 16

/-- Value of `sizeof (struct sockaddr_in6)` on Linux. -/
def sizeof_sockaddr_in6 : Nat := 28

/-- Function `sockaddr_storage_size (storage)` of `net.h`. -/
def sockaddr_storage_size (storage : sockaddr_storage) : Nat :=
  if storage.ss_family = AF_INET then sizeof_sockaddr_in
  else if storage.ss_family = AF_INET6 then sizeof_sockaddr_in6
  else 0

/-! ## `add_sockets` -/

/-- The dotted-decimal text of four octets. -/
def dotted (a b c d : Nat) : List Char :=
  fmt_u a ++ '.' :: fmt_u b ++ '.' :: fmt_u c ++ '.' :: fmt_u d

/-- Characters that a text accepted by `inet_pton6` can hold. -/
def v6char (c : Char) : Prop := (hex_digit_value c).isSome = true ∨ c = ':' ∨ c = '.'

/-- Decimal value of a run of digits, as `strtoul` accumulates it. -/
def dec_value (p : List Char) : Nat := p.foldl (fun acc c => acc * 10 + (c.toNat - 48)) 0

/-- The white space `str_to_addr` trims: spaces and tabs. -/
def is_blank (c : Char) : Bool := c = ' ' || c = '\t'

/-- The reverse name of sixteen address bytes in the words of the
specification: for the bytes from the last (index 15) down to the first, the
low nibble and then the high nibble, each as one lowercase hexadecimal digit
followed by a dot; then `ip6.arpa.`. -/
def ip6_arpa_labels (a : List Nat) : List Char :=
  ((List.range 16).flatMap fun k =>
    [Nat.digitChar (a.getD (15 - k) 0 % 16), '.',
     Nat.digitChar (a.getD (15 - k) 0 / 16), '.']) ++ "ip6.arpa.".toList

/-- Groups in lowercase hexadecimal, separated by colons, as `inet_ntop6`
writes them. -/
def groups : List Nat → List Char
  | [] => []
  | [w] => fmt_x w
  | w :: w2 :: ws => fmt_x w ++ ':' :: groups (w2 :: ws)

/-- The bytes of a list of 16-bit groups, high byte first. -/
def word_bytes (ws : List Nat) : List Nat :=
  ws.flatMap fun w => [(w >>> 8) &&& 0xff, w &&& 0xff]

/-- A run `(base, len)` of zero groups inside `ws`. -/
def zero_run (ws : List Nat) (r : Nat × Nat) : Prop :=
  r.1 + r.2 ≤ ws.length ∧ ∀ j, r.1 ≤ j → j < r.1 + r.2 → ws.getD j 0 = 0

/-- The text before the last colon, `none` without a colon. -/
def before_last_colon : List Char → Option (List Char)
  | [] => none
  | c :: cs =>
    match before_last_colon cs with
    | some r => some (c :: r)
    | none => if c = ':' then some [] else none

/-- Whether a dot comes before any colon. -/
def dot_before_colon : List Char → Bool
  | [] => false
  | c :: cs => if c = '.' then true else if c = ':' then false else dot_before_colon cs

/-- The address part of a text in the words of the specification: the text
is trimmed on the left; in the bracket form the address is what stands
between `[` and the first `]`; in an unbracketed text with a dot before any
colon the last colon, if any, is the port separator and the address is what
stands before it; any other text is the address as a whole. -/
def address_part (text : List Char) : List Char :=
  let t := text.dropWhile is_blank
  if t.head? = some '[' then t.tail.takeWhile (fun c => c ≠ ']')
  else if dot_before_colon t then (before_last_colon t).getD t
  else t

/-- The place of the port separator in a text, in the words of the
specification, as an offset into the text; `none` when the text has no port
separator. The text is trimmed on the left. In the bracket form the separator
is the first `]`, when a `:` follows it directly. In an unbracketed text with
a dot before any colon it is the last colon. No other text has one. -/
def port_separator (text : List Char) : Option Nat :=
  let w := text.takeWhile is_blank
  let t := text.dropWhile is_blank
  if t.head? = some '[' then
    let x := t.tail.takeWhile (fun c => c ≠ ']')
    if (t.tail.drop x.length).take 2 = [']', ':'] then some (w.length + 1 + x.length)
    else none
  else if dot_before_colon t then
    match before_last_colon t with
    | some a => some (w.length + a.length)
    | none => none
  else none

/-- One label of a name: the text before the first dot, and the text after
that dot. -/
def read_label : List Char → List Char × List Char
  | [] => ([], [])
  | c :: cs => if c = '.' then ([], cs) else (c :: (read_label cs).1, (read_label cs).2)

/-- The first `n` labels of a name. -/
def read_labels : Nat → List Char → List (List Char)
  | 0, _ => []
  | n + 1, t => (read_label t).1 :: read_labels n (read_label t).2

/-- The IPv4 address of a reverse name: its first four labels read as decimal
numbers, from the last to the first. -/
def in_addr_arpa_decode (t : List Char) : List Nat :=
  ((read_labels 4 t).map dec_value).reverse

/-- The IPv6 address of a reverse name: its first thirty-two labels read as
hexadecimal digits, from the last to the first, paired high nibble then low
nibble. -/
def ip6_arpa_decode (t : List Char) : List Nat :=
  let nibbles := ((read_labels 32 t).map fun l =>
    ((l.head?.bind hex_digit_value).getD 0)).reverse
  (List.range 16).map fun i => nibbles.getD (2 * i) 0 * 16 + nibbles.getD (2 * i + 1) 0

/-! # Lemmas -/

theorem toDigitsCore_succ (b fuel n : Nat) (acc : List Char) :
    Nat.toDigitsCore b (fuel + 1) n acc =
      if n / b = 0 then Nat.digitChar (n % b) :: acc
      else Nat.toDigitsCore b fuel (n / b) (Nat.digitChar (n % b) :: acc) := by
  simp [Nat.toDigitsCore]

theorem toDigitsCore_fuel (b : Nat) (hb : 2 ≤ b) :
    ∀ (fuel n : Nat) (acc : List Char), n < fuel →
      Nat.toDigitsCore b fuel n acc = Nat.toDigitsCore b (n + 1) n [] ++ acc := by
  intro fuel
  induction fuel using Nat.strong_induction_on with
  | _ fuel ih =>
    intro n acc hn
    cases fuel with
    | zero => omega
    | succ fuel =>
      rw [toDigitsCore_succ, toDigitsCore_succ]
      by_cases h0 : n / b = 0
      · simp [h0]
      · have hlt : n / b < n := by
          have hnpos : 0 < n := by
            rcases Nat.eq_zero_or_pos n with h | h
            · subst h; simp at h0
            · exact h
          exact Nat.div_lt_self hnpos (by omega)
        rw [if_neg h0, if_neg h0]
        rw [ih fuel (by omega) (n / b) _ (by omega)]
        rw [ih n (by omega) (n / b) [Nat.digitChar (n % b)] hlt]
        simp

/-- The recursion that `Nat.toDigits` obeys. -/
theorem toDigits_rec (b : Nat) (hb : 2 ≤ b) (n : Nat) :
    Nat.toDigits b n =
      if n < b then [Nat.digitChar n]
      else Nat.toDigits b (n / b) ++ [Nat.digitChar (n % b)] := by
  unfold Nat.toDigits
  rw [toDigitsCore_succ]
  by_cases h : n < b
  · have h0 : n / b = 0 := Nat.div_eq_of_lt h
    simp [h, h0, Nat.mod_eq_of_lt h]
  · have h0 : n / b ≠ 0 := by
      intro hz
      have := (Nat.div_eq_zero_iff (by omega : 0 < b)).1 hz
      omega
    have hlt : n / b < n := Nat.div_lt_self (by omega) (by omega)
    rw [if_neg h0, if_neg h]
    rw [toDigitsCore_fuel b hb n (n / b) _ hlt]

theorem toDigits_length_le (b : Nat) (hb : 2 ≤ b) :
    ∀ (k n : Nat), n < b ^ (k + 1) → (Nat.toDigits b n).length ≤ k + 1 := by
  intro k
  induction k with
  | zero =>
    intro n hn
    rw [toDigits_rec b hb, if_pos (by simpa using hn)]
    simp
  | succ k ih =>
    intro n hn
    rw [toDigits_rec b hb]
    by_cases h : n < b
    · simp [h]
    · rw [if_neg h]
      have : n / b < b ^ (k + 1) := by
        apply Nat.div_lt_of_lt_mul
        rw [pow_succ] at hn
        rw [Nat.mul_comm]; exact hn
      have := ih (n / b) this
      simp; omega

theorem toDigits_ne_nil (b : Nat) (hb : 2 ≤ b) (n : Nat) : Nat.toDigits b n ≠ [] := by
  rw [toDigits_rec b hb]
  split <;> simp

theorem digitChar_isDigit : ∀ d : Nat, d < 10 →
    (Nat.digitChar d).isDigit = true ∧ (Nat.digitChar d).toNat - 48 = d := by
  decide

theorem digitChar_hex : ∀ d : Nat, d < 16 → hex_digit_value (Nat.digitChar d) = some d := by
  decide

theorem fmt_u_rec (n : Nat) :
    fmt_u n = if n < 10 then [Nat.digitChar n] else fmt_u (n / 10) ++ [Nat.digitChar (n % 10)] :=
  toDigits_rec 10 (by omega) n

theorem fmt_x_rec (n : Nat) :
    fmt_x n = if n < 16 then [Nat.digitChar n] else fmt_x (n / 16) ++ [Nat.digitChar (n % 16)] :=
  toDigits_rec 16 (by omega) n

theorem fmt_u_isDigit (n : Nat) : ∀ c ∈ fmt_u n, c.isDigit = true := by
  induction n using Nat.strong_induction_on with
  | _ n ih =>
    intro c hc
    rw [fmt_u_rec] at hc
    by_cases h : n < 10
    · rw [if_pos h] at hc
      simp at hc
      rw [hc]; exact (digitChar_isDigit n h).1
    · rw [if_neg h] at hc
      simp at hc
      rcases hc with hc | hc
      · exact ih (n / 10) (by omega) c hc
      · rw [hc]; exact (digitChar_isDigit (n % 10) (Nat.mod_lt _ (by omega))).1

theorem fmt_u_ne_nil (n : Nat) : fmt_u n ≠ [] := toDigits_ne_nil 10 (by omega) n

theorem fmt_x_ne_nil (n : Nat) : fmt_x n ≠ [] := toDigits_ne_nil 16 (by omega) n

theorem fmt_u_length_byte (n : Nat) (h : n < 256) : (fmt_u n).length ≤ 3 :=
  toDigits_length_le 10 (by omega) 2 n (by omega)

theorem fmt_u_length_u16 (n : Nat) (h : n < 65536) : (fmt_u n).length ≤ 5 :=
  toDigits_length_le 10 (by omega) 4 n (by omega)

theorem strtoul_digits_fmt_u (n : Nat) : ∀ rest : List Char,
    strtoul_digits (fmt_u n ++ rest) 0 = strtoul_digits rest n := by
  induction n using Nat.strong_induction_on with
  | _ n ih =>
    intro rest
    rw [fmt_u_rec]
    by_cases h : n < 10
    · rw [if_pos h]
      obtain ⟨h1, h2⟩ := digitChar_isDigit n h
      simp [strtoul_digits, h1, h2]
    · rw [if_neg h, List.append_assoc, ih (n / 10) (by omega)]
      obtain ⟨h1, h2⟩ := digitChar_isDigit (n % 10) (Nat.mod_lt _ (by omega))
      simp only [List.singleton_append, strtoul_digits, h1, h2, if_true]
      congr 1
      omega

theorem strtoul_fmt_u (n : Nat) (h : n ≤ ULONG_MAX) : strtoul (fmt_u n) = (n, []) := by
  obtain ⟨c, cs, hcs⟩ := List.exists_cons_of_ne_nil (fmt_u_ne_nil n)
  have hc : c.isDigit = true := fmt_u_isDigit n c (by rw [hcs]; simp)
  have hsp : isspace c = false := by
    cases hs : isspace c with
    | false => rfl
    | true =>
      exfalso
      simp only [isspace, Bool.or_eq_true, decide_eq_true_eq] at hs
      rcases hs with (((((h | h) | h) | h) | h) | h) <;> (subst h; revert hc; decide)
  have hm : c ≠ '-' := by rintro rfl; revert hc; decide
  have hp : c ≠ '+' := by rintro rfl; revert hc; decide
  have hd := strtoul_digits_fmt_u n []
  rw [List.append_nil, hcs] at hd
  have hskip : strtoul_skip (c :: cs) = c :: cs := by
    simp [strtoul_skip, List.dropWhile, hsp, hm, hp]
  unfold strtoul
  rw [hcs, hskip]
  have hle : ¬ n > ULONG_MAX := by omega
  have hd2 : strtoul_digits (c :: cs) 0 = (n, []) := by rw [hd]; rfl
  simp only [hc, if_true, hd2, hle, if_false]
  simp [List.dropWhile, hsp, hm]

theorem inet_pton4_loop_fmt_u (n : Nat) : n ≤ 255 →
    ∀ (rest : List Char) (done : List Nat) (octets : Nat), octets < 4 →
      inet_pton4_loop (fmt_u n ++ rest) done 0 false octets =
        inet_pton4_loop rest done n true (octets + 1) := by
  induction n using Nat.strong_induction_on with
  | _ n ih =>
    intro hn rest done octets ho
    rw [fmt_u_rec]
    by_cases h : n < 10
    · rw [if_pos h]
      obtain ⟨h1, h2⟩ := digitChar_isDigit n h
      have h3 : ¬ n > 255 := by omega
      have h4 : ¬ octets + 1 > 4 := by omega
      simp [inet_pton4_loop, h1, h2, h3, h4]
    · rw [if_neg h, List.append_assoc, ih (n / 10) (by omega) (by omega) _ done octets ho]
      obtain ⟨h1, h2⟩ := digitChar_isDigit (n % 10) (Nat.mod_lt _ (by omega))
      have h3 : n / 10 ≠ 0 := by omega
      have h4 : n / 10 * 10 + n % 10 = n := by omega
      have h5 : ¬ n > 255 := by omega
      simp [inet_pton4_loop, h1, h2, h3, h4, h5]

theorem inet_pton4_loop_dot (rest : List Char) (done : List Nat) (cur octets : Nat)
    (ho : octets ≠ 4) :
    inet_pton4_loop ('.' :: rest) done cur true octets =
      inet_pton4_loop rest (done ++ [cur]) 0 false octets := by
  have h : ('.' : Char).isDigit = false := by decide
  simp [inet_pton4_loop, h, ho]

theorem inet_pton4_dotted (a b c d : Nat) (ha : a ≤ 255) (hb : b ≤ 255) (hc : c ≤ 255)
    (hd : d ≤ 255) : inet_pton4 (dotted a b c d) = some [a, b, c, d] := by
  unfold inet_pton4 dotted
  simp only [List.append_assoc, List.cons_append]
  rw [inet_pton4_loop_fmt_u a ha _ _ 0 (by omega), inet_pton4_loop_dot _ _ _ _ (by omega)]
  rw [inet_pton4_loop_fmt_u b hb _ _ 1 (by omega), inet_pton4_loop_dot _ _ _ _ (by omega)]
  rw [inet_pton4_loop_fmt_u c hc _ _ 2 (by omega), inet_pton4_loop_dot _ _ _ _ (by omega)]
  have := inet_pton4_loop_fmt_u d hd [] ([] ++ [a] ++ [b] ++ [c]) 3 (by omega)
  rw [List.append_nil] at this
  rw [this]
  simp [inet_pton4_loop]

theorem inet_pton4_loop_chars : ∀ (s : List Char) (done : List Nat) (cur : Nat) (saw : Bool)
    (octets : Nat) (l : List Nat), inet_pton4_loop s done cur saw octets = some l →
      ∀ c ∈ s, c.isDigit = true ∨ c = '.' := by
  intro s
  induction s with
  | nil => intro _ _ _ _ _ _ c hc; simp at hc
  | cons ch src ih =>
    intro done cur saw octets l h c hc
    rw [inet_pton4_loop] at h
    by_cases hdig : ch.isDigit = true
    · rw [if_pos hdig] at h
      rcases List.mem_cons.1 hc with rfl | hc
      · exact Or.inl hdig
      · simp only at h
        split_ifs at h
        · exact ih _ _ _ _ _ h c hc
        · exact ih _ _ _ _ _ h c hc
    · rw [if_neg hdig] at h
      split_ifs at h with h1 h2
      rcases List.mem_cons.1 hc with rfl | hc
      · exact Or.inr h1.1
      · exact ih _ _ _ _ _ h c hc

theorem inet_pton4_chars (s : List Char) (l : List Nat) (h : inet_pton4 s = some l) :
    ∀ c ∈ s, c.isDigit = true ∨ c = '.' :=
  inet_pton4_loop_chars s _ _ _ _ l h

theorem inet_pton4_loop_bytes : ∀ (s : List Char) (done : List Nat) (cur : Nat) (saw : Bool)
    (octets : Nat) (l : List Nat),
    octets = done.length + (if saw then 1 else 0) → done.length ≤ 3 →
    (∀ b ∈ done, b ≤ 255) → cur ≤ 255 →
    inet_pton4_loop s done cur saw octets = some l →
      l.length = 4 ∧ ∀ b ∈ l, b ≤ 255 := by
  intro s
  induction s with
  | nil =>
    intro done cur saw octets l ho h4 hdone hcur h
    rw [inet_pton4_loop] at h
    split_ifs at h with h1
    simp only [Option.some.injEq] at h
    subst h
    constructor
    · cases saw <;> simp at ho ⊢ <;> omega
    · intro b hb
      rcases List.mem_append.1 hb with hb | hb
      · exact hdone b hb
      · simp at hb; omega
  | cons ch src ih =>
    intro done cur saw octets l ho h4 hdone hcur h
    rw [inet_pton4_loop] at h
    by_cases hdig : ch.isDigit = true
    · rw [if_pos hdig] at h
      simp only at h
      split_ifs at h with h1 h2 h3 h5
      · exact ih _ _ _ _ l ho h4 hdone (by omega) h
      · have hs : saw = false := by simpa using h3
        subst hs
        exact ih _ _ _ _ l (by simp at ho ⊢; omega) h4 hdone (by omega) h
    · rw [if_neg hdig] at h
      split_ifs at h with h1 h2
      have hs : saw = true := h1.2
      subst hs
      refine ih _ _ _ _ l (by simp at ho ⊢; omega) (by simp at ho ⊢; omega) ?_ (by omega) h
      intro b hb
      rcases List.mem_append.1 hb with hb | hb
      · exact hdone b hb
      · simp at hb; omega

theorem inet_pton4_bytes (s : List Char) (l : List Nat) (h : inet_pton4 s = some l) :
    l.length = 4 ∧ ∀ b ∈ l, b ≤ 255 :=
  inet_pton4_loop_bytes s [] 0 false 0 l (by simp) (by simp) (by simp) (by omega) h

theorem isDigit_hex (c : Char) (h : c.isDigit = true) : (hex_digit_value c).isSome = true := by
  unfold Char.isDigit at h
  simp only [Bool.and_eq_true, decide_eq_true_eq] at h
  have h1 : '0' ≤ c := by
    show ('0' : Char).val ≤ c.val
    exact h.1
  have h2 : c ≤ '9' := by
    show c.val ≤ ('9' : Char).val
    exact h.2
  simp [hex_digit_value, h1, h2]

theorem inet_pton6_finish_bytes (out : List Nat) (colonp : Option Nat) (seen val : Nat)
    (l : List Nat) (hlen : out.length ≤ 16) (hb : ∀ b ∈ out, b < 256)
    (h : inet_pton6_finish out colonp seen val = some l) :
    l.length = 16 ∧ ∀ b ∈ l, b < 256 := by
  unfold inet_pton6_finish at h
  have key : ∀ (colonp : Option Nat) (out2 : List Nat), out2.length ≤ 16 →
      (∀ b ∈ out2, b < 256) →
      (match colonp with
        | some cp =>
          if out2.length = 16 then none
          else some (out2.take cp ++ List.replicate (16 - out2.length) 0 ++ out2.drop cp)
        | none => if out2.length ≠ 16 then none else some out2) = some l →
      l.length = 16 ∧ ∀ b ∈ l, b < 256 := by
    intro colonp out2 h2 hb2 hm
    cases colonp with
    | none =>
      simp only at hm
      split_ifs at hm with h3
      simp only [Option.some.injEq] at hm
      subst hm
      exact ⟨by omega, hb2⟩
    | some cp =>
      simp only at hm
      split_ifs at hm with h3
      simp only [Option.some.injEq] at hm
      subst hm
      constructor
      · simp only [List.length_append, List.length_take, List.length_replicate,
          List.length_drop]
        omega
      · intro b hbm
        simp only [List.mem_append, List.mem_replicate] at hbm
        rcases hbm with (hbm | hbm) | hbm
        · exact hb2 b (List.mem_of_mem_take hbm)
        · omega
        · exact hb2 b (List.mem_of_mem_drop hbm)
  by_cases hs : seen > 0
  · simp only [hs, if_true] at h
    by_cases h16 : out.length + 2 > 16
    · simp [h16] at h
    · simp only [h16, if_false] at h
      refine key colonp _ ?_ ?_ h
      · simp; omega
      · intro b hbm
        simp only [List.mem_append, List.mem_cons, List.mem_singleton, List.not_mem_nil,
          or_false] at hbm
        rcases hbm with hbm | hbm | hbm
        · exact hb b hbm
        · subst hbm
          exact Nat.lt_of_le_of_lt Nat.and_le_right (by omega)
        · subst hbm
          exact Nat.lt_of_le_of_lt Nat.and_le_right (by omega)
  · simp only [hs, if_false] at h
    exact key colonp _ hlen hb h

theorem inet_pton6_loop_bytes : ∀ (s curtok : List Char) (out : List Nat) (colonp : Option Nat)
    (seen val : Nat) (l : List Nat), out.length ≤ 16 → (∀ b ∈ out, b < 256) →
    inet_pton6_loop s curtok out colonp seen val = some l →
      l.length = 16 ∧ ∀ b ∈ l, b < 256 := by
  intro s
  induction s with
  | nil =>
    intro curtok out colonp seen val l hlen hb h
    rw [inet_pton6_loop] at h
    exact inet_pton6_finish_bytes out colonp seen val l hlen hb h
  | cons ch src ih =>
    intro curtok out colonp seen val l hlen hb h
    rw [inet_pton6_loop] at h
    cases hh : hex_digit_value ch with
    | some digit =>
      simp only [hh] at h
      split_ifs at h
      exact ih _ _ _ _ _ l hlen hb h
    | none =>
      simp only [hh] at h
      split_ifs at h with h1 h2 h3 h4 h5 h6
      · exact ih _ _ _ _ _ l hlen hb h
      · refine ih _ _ _ _ _ l (by simp; omega) ?_ h
        intro b hbm
        simp only [List.mem_append, List.mem_cons, List.mem_singleton, List.not_mem_nil,
          or_false] at hbm
        rcases hbm with hbm | hbm | hbm
        · exact hb b hbm
        · subst hbm
          exact Nat.lt_of_le_of_lt Nat.and_le_right (by omega)
        · subst hbm
          exact Nat.lt_of_le_of_lt Nat.and_le_right (by omega)
      · cases hq : inet_pton4 curtok with
        | none => simp [hq] at h
        | some quad =>
          simp only [hq] at h
          obtain ⟨hq1, hq2⟩ := inet_pton4_bytes curtok quad hq
          refine inet_pton6_finish_bytes _ colonp 0 val l (by simp; omega) ?_ h
          intro b hbm
          rcases List.mem_append.1 hbm with hbm | hbm
          · exact hb b hbm
          · have := hq2 b hbm; omega

theorem inet_pton6_bytes (s : List Char) (l : List Nat) (h : inet_pton6 s = some l) :
    l.length = 16 ∧ ∀ b ∈ l, b < 256 := by
  unfold inet_pton6 at h
  split at h
  · simp at h
  · split at h
    · exact inet_pton6_loop_bytes _ _ _ _ _ _ l (by simp) (by simp) h
    · simp at h
  · exact inet_pton6_loop_bytes _ _ _ _ _ _ l (by simp) (by simp) h

theorem inet_pton6_loop_chars : ∀ (s curtok : List Char) (out : List Nat)
    (colonp : Option Nat) (seen val : Nat) (l : List Nat), s <:+ curtok →
    inet_pton6_loop s curtok out colonp seen val = some l → ∀ c ∈ s, v6char c := by
  intro s
  induction s with
  | nil => intro _ _ _ _ _ _ _ _ c hc; simp at hc
  | cons ch src ih =>
    intro curtok out colonp seen val l hsuf h c hc
    rw [inet_pton6_loop] at h
    have hsuf2 : src <:+ curtok := List.IsSuffix.trans (List.suffix_cons ch src) hsuf
    cases hh : hex_digit_value ch with
    | some digit =>
      simp only [hh] at h
      split_ifs at h
      rcases List.mem_cons.1 hc with rfl | hc
      · exact Or.inl (by simp [hh])
      · exact ih _ _ _ _ _ l hsuf2 h c hc
    | none =>
      simp only [hh] at h
      split_ifs at h with h1 h2 h3 h4 h5 h6
      · rcases List.mem_cons.1 hc with rfl | hc
        · exact Or.inr (Or.inl h1)
        · exact ih _ _ _ _ _ l (List.suffix_refl src) h c hc
      · rcases List.mem_cons.1 hc with rfl | hc
        · exact Or.inr (Or.inl h1)
        · exact ih _ _ _ _ _ l (List.suffix_refl src) h c hc
      · cases hq : inet_pton4 curtok with
        | none => simp [hq] at h
        | some quad =>
          have hch := inet_pton4_chars curtok quad hq c (hsuf.subset hc)
          rcases hch with hch | hch
          · exact Or.inl (isDigit_hex c hch)
          · exact Or.inr (Or.inr hch)

theorem inet_pton6_chars (s : List Char) (l : List Nat) (h : inet_pton6 s = some l) :
    ∀ c ∈ s, v6char c := by
  unfold inet_pton6 at h
  split at h
  · simp at h
  · split at h
    · intro c hc
      rcases List.mem_cons.1 hc with rfl | hc
      · exact Or.inr (Or.inl rfl)
      · exact inet_pton6_loop_chars _ _ _ _ _ _ l (List.suffix_refl _) h c hc
    · simp at h
  · exact inet_pton6_loop_chars _ _ _ _ _ _ l (List.suffix_refl _) h

theorem hex_ne (c : Char) (h : (hex_digit_value c).isSome = true) :
    c ≠ ':' ∧ c ≠ '.' ∧ c ≠ ']' ∧ c ≠ '[' ∧ c ≠ ' ' ∧ c ≠ '\t' := by
  refine ⟨?_, ?_, ?_, ?_, ?_, ?_⟩ <;> (rintro rfl; revert h; decide)

theorem v6char_ne (c : Char) (h : v6char c) :
    c ≠ ']' ∧ c ≠ '[' ∧ c ≠ ' ' ∧ c ≠ '\t' := by
  rcases h with h | h | h
  · obtain ⟨_, _, h3, h4, h5, h6⟩ := hex_ne c h
    exact ⟨h3, h4, h5, h6⟩
  · subst h; decide
  · subst h; decide

theorem isDigit_ne (c : Char) (h : c.isDigit = true) :
    c ≠ ':' ∧ c ≠ '.' ∧ c ≠ ']' ∧ c ≠ '[' ∧ c ≠ ' ' ∧ c ≠ '\t' :=
  hex_ne c (isDigit_hex c h)

/-- A text accepted by `inet_pton4` holds no colon. -/
theorem inet_pton4_colon (s : List Char) (h : ':' ∈ s) : inet_pton4 s = none := by
  cases hp : inet_pton4 s with
  | none => rfl
  | some l =>
    exfalso
    rcases inet_pton4_chars s l hp ':' h with h1 | h1
    · revert h1; decide
    · revert h1; decide

theorem inet_pton4_v6char (s : List Char) (l : List Nat) (h : inet_pton4 s = some l) :
    ∀ c ∈ s, v6char c := by
  intro c hc
  rcases inet_pton4_chars s l h c hc with h1 | h1
  · exact Or.inl (isDigit_hex c h1)
  · exact Or.inr (Or.inr h1)

/-! ### The scan of `str_to_addr` -/

theorem scan_loop_after_colon : ∀ (s : List Char) (i : Nat) (v4 : Bool) (j : Nat),
    ∃ k, scan_loop s i v4 (some j) = (v4, some k) ∧
      (':' ∉ s → k = j) := by
  intro s
  induction s with
  | nil => intro i v4 j; exact ⟨j, rfl, fun _ => rfl⟩
  | cons c cs ih =>
    intro i v4 j
    rw [scan_loop]
    by_cases hc : c = ':'
    · obtain ⟨k, hk, _⟩ := ih (i + 1) v4 i
      refine ⟨k, by simpa [hc] using hk, ?_⟩
      intro hn; exact absurd (by simp [hc]) hn
    · obtain ⟨k, hk, hk2⟩ := ih (i + 1) v4 j
      refine ⟨k, by simpa [hc] using hk, ?_⟩
      intro hn
      exact hk2 (fun hm => hn (List.mem_cons_of_mem _ hm))

theorem scan_loop_append : ∀ (a b : List Char) (i : Nat) (v4 : Bool) (colon : Option Nat),
    scan_loop (a ++ b) i v4 colon =
      scan_loop b (i + a.length) (scan_loop a i v4 colon).1 (scan_loop a i v4 colon).2 := by
  intro a
  induction a with
  | nil => intro b i v4 colon; simp [scan_loop]
  | cons c cs ih =>
    intro b i v4 colon
    rw [List.cons_append, scan_loop, scan_loop, ih, List.length_cons]
    congr 1
    omega

theorem scan_loop_true : ∀ (s : List Char) (i : Nat) (colon : Option Nat),
    (scan_loop s i true colon).1 = true := by
  intro s
  induction s with
  | nil => intro i colon; rfl
  | cons c cs ih =>
    intro i colon
    rw [scan_loop]
    simp only [ite_self]
    exact ih _ _

theorem scan_loop_no_colon : ∀ (s : List Char) (i : Nat) (v4 : Bool) (colon : Option Nat),
    ':' ∉ s → (scan_loop s i v4 colon).2 = colon := by
  intro s
  induction s with
  | nil => intro i v4 colon _; rfl
  | cons c cs ih =>
    intro i v4 colon hn
    rw [scan_loop]
    have hc : c ≠ ':' := fun h => hn (by simp [h])
    rw [if_neg hc]
    exact ih _ _ _ (fun hm => hn (List.mem_cons_of_mem _ hm))

/-- A text without a colon and with a dot: `v4` is set, `colon` stays null. -/
theorem scan_loop_dotted (s : List Char) (hn : ':' ∉ s) (hd : '.' ∈ s) :
    scan_loop s 0 false none = (true, none) := by
  obtain ⟨a, b, rfl⟩ := List.append_of_mem hd
  have hna : ':' ∉ a := fun h => hn (by simp [h])
  have hnb : ':' ∉ b := fun h => hn (by simp [h])
  rw [scan_loop_append, scan_loop, scan_loop_no_colon a 0 false none hna]
  apply Prod.ext
  · simp only [and_self, if_true]
    exact scan_loop_true _ _ _
  · simp only
    rw [scan_loop_no_colon _ _ _ _ hnb]
    have : ('.' : Char) ≠ ':' := by decide
    simp [this]

/-- A text whose first colon comes after a dot, split at its last colon:
`v4` is set and `colon` is the offset of the last colon. -/
theorem scan_loop_port (a1 a2 p : List Char) (h1 : ':' ∉ a1) (hp : ':' ∉ p) :
    scan_loop (a1 ++ '.' :: a2 ++ ':' :: p) 0 false none =
      (true, some (a1 ++ '.' :: a2).length) := by
  rw [scan_loop_append]
  have hv : (scan_loop (a1 ++ '.' :: a2) 0 false none).1 = true := by
    rw [scan_loop_append, scan_loop, scan_loop_no_colon a1 0 false none h1]
    simp only [and_self, if_true]
    exact scan_loop_true _ _ _
  rw [hv, scan_loop]
  simp only [if_true, Nat.zero_add]
  obtain ⟨k, hk, hk2⟩ := scan_loop_after_colon p ((a1 ++ '.' :: a2).length + 1)
    (if (':' : Char) = '.' ∧ (scan_loop (a1 ++ '.' :: a2) 0 false none).2 = none
      then true else true) (a1 ++ '.' :: a2).length
  rw [hk, hk2 hp]
  simp

theorem strtoul_digits_spec : ∀ (s : List Char) (acc : Nat),
    strtoul_digits s acc =
      ((s.takeWhile Char.isDigit).foldl (fun a c => a * 10 + (c.toNat - 48)) acc,
        s.dropWhile Char.isDigit) := by
  intro s
  induction s with
  | nil => intro acc; rfl
  | cons c cs ih =>
    intro acc
    rw [strtoul_digits]
    by_cases h : c.isDigit = true
    · rw [if_pos h, ih]
      simp [List.takeWhile, List.dropWhile, h]
    · rw [if_neg h]
      simp [List.takeWhile, List.dropWhile, h]

theorem strtoul_skip_nil (p : List Char) (h : strtoul_skip p ≠ []) : p ≠ [] := by
  rintro rfl
  exact h (by simp [strtoul_skip])

/-- When a character that is not a digit is left after the white space and the
sign, `strtoul` stops before the end of the text. -/
theorem strtoul_rest_ne (p : List Char) (h : ∃ c ∈ strtoul_skip p, c.isDigit = false) :
    (strtoul p).2 ≠ [] := by
  obtain ⟨c, hc, hcd⟩ := h
  have hne : strtoul_skip p ≠ [] := List.ne_nil_of_mem hc
  have hp : p ≠ [] := strtoul_skip_nil p hne
  unfold strtoul
  cases hu : strtoul_skip p with
  | nil => exact absurd hu hne
  | cons c0 cs =>
    simp only
    by_cases h0 : c0.isDigit = true
    · rw [if_pos h0, strtoul_digits_spec]
      have hdrop : (c0 :: cs).dropWhile Char.isDigit ≠ [] := by
        intro hnil
        rw [List.dropWhile_eq_nil_iff] at hnil
        rw [hu] at hc
        have := hnil c hc
        rw [hcd] at this
        exact Bool.false_ne_true this
      split_ifs <;> exact hdrop
    · rw [if_neg h0]
      exact hp

/-- On a non-empty run of digits `strtoul` returns its value, clamped to
`ULONG_MAX`, and stops at the end. -/
theorem strtoul_all_digits (p : List Char) (hp : p ≠ []) (hd : ∀ c ∈ p, c.isDigit = true) :
    strtoul p = (min (dec_value p) ULONG_MAX, []) := by
  obtain ⟨c, cs, rfl⟩ := List.exists_cons_of_ne_nil hp
  have hc : c.isDigit = true := hd c (by simp)
  have hsp : isspace c = false := by
    cases hs : isspace c with
    | false => rfl
    | true =>
      exfalso
      simp only [isspace, Bool.or_eq_true, decide_eq_true_eq] at hs
      rcases hs with (((((h | h) | h) | h) | h) | h) <;> (subst h; revert hc; decide)
  have hm : c ≠ '-' := by rintro rfl; revert hc; decide
  have hpl : c ≠ '+' := by rintro rfl; revert hc; decide
  have hskip : strtoul_skip (c :: cs) = c :: cs := by
    simp [strtoul_skip, List.dropWhile, hsp, hm, hpl]
  have htw : (c :: cs).takeWhile Char.isDigit = c :: cs :=
    List.takeWhile_eq_self_iff.2 hd
  have hdw : (c :: cs).dropWhile Char.isDigit = [] :=
    List.dropWhile_eq_nil_iff.2 hd
  have hval : strtoul_digits (c :: cs) 0 = (dec_value (c :: cs), []) := by
    rw [strtoul_digits_spec, htw, hdw]; rfl
  unfold strtoul
  rw [hskip]
  simp only [hc, if_true, hval]
  have hneg : ((c :: cs).dropWhile isspace).head? ≠ some '-' := by
    simp [List.dropWhile, hsp, hm]
  by_cases hbig : dec_value (c :: cs) > ULONG_MAX
  · rw [if_pos hbig, Nat.min_eq_right (by omega)]
  · rw [if_neg hbig, Nat.min_eq_left (by omega)]
    simp [hneg]

/-- Before any colon `inet_pton6` cannot succeed: a text it accepts from the
initial state holds a colon, and no dot before its first colon. -/
theorem inet_pton6_loop_first_colon : ∀ (s curtok : List Char) (seen val : Nat) (l : List Nat)
    (i : Nat), inet_pton6_loop s curtok [] none seen val = some l →
      ':' ∈ s ∧ (scan_loop s i false none).1 = false := by
  intro s
  induction s with
  | nil =>
    intro curtok seen val l i h
    exfalso
    rw [inet_pton6_loop] at h
    unfold inet_pton6_finish at h
    by_cases hs : seen > 0
    · simp [hs] at h
    · simp [hs] at h
  | cons ch src ih =>
    intro curtok seen val l i h
    rw [inet_pton6_loop] at h
    cases hh : hex_digit_value ch with
    | some digit =>
      simp only [hh] at h
      split_ifs at h
      obtain ⟨h1, h2⟩ := ih _ _ _ l (i + 1) h
      obtain ⟨n1, n2, _⟩ := hex_ne ch (by simp [hh])
      refine ⟨List.mem_cons_of_mem _ h1, ?_⟩
      rw [scan_loop]
      simpa [n1, n2] using h2
    | none =>
      simp only [hh] at h
      split_ifs at h with h1 h2 h3 h4 h5 h6
      · subst h1
        refine ⟨by simp, ?_⟩
        rw [scan_loop]
        obtain ⟨k, hk, _⟩ := scan_loop_after_colon src (i + 1) false i
        have hne : (':' : Char) ≠ '.' := by decide
        simp [hne, hk]
      · subst h1
        refine ⟨by simp, ?_⟩
        rw [scan_loop]
        obtain ⟨k, hk, _⟩ := scan_loop_after_colon src (i + 1) false i
        have hne : (':' : Char) ≠ '.' := by decide
        simp [hne, hk]
      · exfalso
        cases hq : inet_pton4 curtok with
        | none => simp [hq] at h
        | some quad =>
          simp only [hq] at h
          obtain ⟨hq1, _⟩ := inet_pton4_bytes curtok quad hq
          unfold inet_pton6_finish at h
          simp [hq1] at h

theorem inet_pton6_first_colon (s : List Char) (l : List Nat) (h : inet_pton6 s = some l) :
    ':' ∈ s ∧ (scan_loop s 0 false none).1 = false := by
  unfold inet_pton6 at h
  split at h
  · simp at h
  · refine ⟨by simp, ?_⟩
    rw [scan_loop]
    obtain ⟨k, hk, _⟩ := scan_loop_after_colon (by assumption) (0 + 1) false 0
    have hne : (':' : Char) ≠ '.' := by decide
    simp [hne, hk]
  · exact inet_pton6_loop_first_colon _ _ _ _ l 0 h

/-- A text accepted by `inet_pton6` is refused by `inet_pton4`. -/
theorem inet_pton6_not_pton4 (s : List Char) (l : List Nat) (h : inet_pton6 s = some l) :
    inet_pton4 s = none :=
  inet_pton4_colon s (inet_pton6_first_colon s l h).1

/-- Neither `inet_pton` accepts a text with a character outside the hexadecimal
digits, the colon and the dot. -/
theorem inet_pton_bad_char (s : List Char) (c : Char) (hc : c ∈ s) (hbad : ¬ v6char c) :
    inet_pton4 s = none ∧ inet_pton6 s = none := by
  constructor
  · cases h : inet_pton4 s with
    | none => rfl
    | some l => exact absurd (inet_pton4_v6char s l h c hc) hbad
  · cases h : inet_pton6 s with
    | none => rfl
    | some l => exact absurd (inet_pton6_chars s l h c hc) hbad

theorem strstr_bracket_split : ∀ (x rest : List Char), ']' ∉ x →
    strstr_bracket (x ++ ']' :: rest) = some (x, rest) := by
  intro x
  induction x with
  | nil => intro rest _; simp [strstr_bracket]
  | cons c cs ih =>
    intro rest h
    have hc : c ≠ ']' := fun e => h (by simp [e])
    have hcs : ']' ∉ cs := fun e => h (List.mem_cons_of_mem _ e)
    simp [strstr_bracket, hc, ih rest hcs]

theorem trim_takeWhile (w s : List Char) (hw : ∀ c ∈ w, is_blank c = true)
    (hs : ∀ c, s.head? = some c → is_blank c = false) :
    (w ++ s).takeWhile (fun c => c = ' ' || c = '\t') = w ∧
    (w ++ s).dropWhile (fun c => c = ' ' || c = '\t') = s := by
  induction w with
  | nil =>
    cases s with
    | nil => simp
    | cons c cs =>
      have := hs c rfl
      unfold is_blank at this
      simp [List.takeWhile, List.dropWhile, this]
  | cons c cs ih =>
    have hc := hw c (by simp)
    unfold is_blank at hc
    obtain ⟨h1, h2⟩ := ih (fun c hc => hw c (List.mem_cons_of_mem _ hc))
    simp [List.takeWhile, List.dropWhile, hc, h1, h2]

/-- Unbracketed text in which the scan finds no port separator. -/
theorem str_to_addr_no_port (w s : List Char) (d : Nat) (addr : sockaddr_storage)
    (hw : ∀ c ∈ w, is_blank c = true) (hne : s ≠ [])
    (hs : ∀ c, s.head? = some c → is_blank c = false ∧ c ≠ '[')
    (hscan : (scan_loop s 0 false none).1 = false ∨ (scan_loop s 0 false none).2 = none) :
    str_to_addr (some (w ++ s)) d addr = str_to_addr_tail s (d % 65536) addr (w ++ s) := by
  obtain ⟨h1, h2⟩ := trim_takeWhile w s hw (fun c hc => (hs c hc).1)
  have hbuf : w ++ s ≠ [] := by simp [hne]
  have hhead : s.head? ≠ some '[' := fun e => (hs _ e).2 rfl
  unfold str_to_addr
  simp only [hbuf, if_false, h1, h2, hhead]
  rcases hsc : scan_loop s 0 false none with ⟨v4, colon⟩
  rw [hsc] at hscan
  rcases hscan with hv | hv
  · simp only at hv; subst hv; rfl
  · simp only at hv; subst hv; cases v4 <;> rfl

/-- Unbracketed text in which the scan finds a port separator at the end of `a`. -/
theorem str_to_addr_port (w a p : List Char) (d : Nat) (addr : sockaddr_storage)
    (hw : ∀ c ∈ w, is_blank c = true)
    (hs : ∀ c, (a ++ ':' :: p).head? = some c → is_blank c = false ∧ c ≠ '[')
    (hscan : scan_loop (a ++ ':' :: p) 0 false none = (true, some a.length)) :
    str_to_addr (some (w ++ (a ++ ':' :: p))) d addr =
      if (strtoul p).2 ≠ [] ∨ (strtoul p).1 ≥ UINT16_MAX then
        ⟨false, addr, w ++ a ++ '\x00' :: p⟩
      else str_to_addr_tail a (strtoul p).1 addr (w ++ a ++ '\x00' :: p) := by
  obtain ⟨h1, h2⟩ := trim_takeWhile w (a ++ ':' :: p) hw (fun c hc => (hs c hc).1)
  have hbuf : w ++ (a ++ ':' :: p) ≠ [] := by simp
  have hhead : (a ++ ':' :: p).head? ≠ some '[' := fun e => (hs _ e).2 rfl
  unfold str_to_addr
  simp only [hbuf, if_false, h1, h2, hhead, hscan]
  simp

/-- Bracketed text with `:` right after the first `]`. -/
theorem str_to_addr_bracket_port (w x p : List Char) (d : Nat) (addr : sockaddr_storage)
    (hw : ∀ c ∈ w, is_blank c = true) (hx : ']' ∉ x) :
    str_to_addr (some (w ++ '[' :: (x ++ ']' :: ':' :: p))) d addr =
      if (strtoul p).2 ≠ [] ∨ (strtoul p).1 ≥ UINT16_MAX then
        ⟨false, addr, w ++ '[' :: x ++ '\x00' :: ':' :: p⟩
      else str_to_addr_tail x (strtoul p).1 addr (w ++ '[' :: x ++ '\x00' :: ':' :: p) := by
  obtain ⟨h1, h2⟩ := trim_takeWhile w ('[' :: (x ++ ']' :: ':' :: p)) hw
    (fun c hc => by simp at hc; subst hc; decide)
  have hbuf : w ++ '[' :: (x ++ ']' :: ':' :: p) ≠ [] := by simp
  unfold str_to_addr
  simp only [hbuf, if_false, h1, h2, List.head?_cons, if_true, List.tail_cons,
    strstr_bracket_split x _ hx]

/-- Bracketed text without `:` right after the first `]`: the bracket stays in
the text handed to `inet_pton`. -/
theorem str_to_addr_bracket_no_port (w x rest : List Char) (d : Nat) (addr : sockaddr_storage)
    (hw : ∀ c ∈ w, is_blank c = true) (hx : ']' ∉ x) (hrest : rest.head? ≠ some ':') :
    str_to_addr (some (w ++ '[' :: (x ++ ']' :: rest))) d addr =
      str_to_addr_tail (x ++ ']' :: rest) (d % 65536) addr (w ++ '[' :: (x ++ ']' :: rest)) := by
  obtain ⟨h1, h2⟩ := trim_takeWhile w ('[' :: (x ++ ']' :: rest)) hw
    (fun c hc => by simp at hc; subst hc; decide)
  have hbuf : w ++ '[' :: (x ++ ']' :: rest) ≠ [] := by simp
  unfold str_to_addr
  simp only [hbuf, if_false, h1, h2, List.head?_cons, if_true, List.tail_cons,
    strstr_bracket_split x _ hx, hrest]

/-! ### Bit operations as arithmetic -/

theorem and_0xF (x : Nat) : x &&& 0xF = x % 16 := Nat.and_pow_two_sub_one_eq_mod x 4

theorem and_0xff (x : Nat) : x &&& 0xff = x % 256 := Nat.and_pow_two_sub_one_eq_mod x 8

theorem shr_4 (x : Nat) : x >>> 4 = x / 16 := Nat.shiftRight_eq_div_pow x 4

theorem shr_8 (x : Nat) : x >>> 8 = x / 256 := Nat.shiftRight_eq_div_pow x 8

theorem shl_4_or (v d : Nat) (h : d < 16) : (v <<< 4) ||| d = v * 16 + d := by
  rw [Nat.shiftLeft_eq, Nat.mul_comm v]
  exact (Nat.mul_add_lt_is_or (show d < 2 ^ 4 by omega) v).symm

theorem shl_8_or (v d : Nat) (h : d < 256) : (v <<< 8) ||| d = v * 256 + d := by
  rw [Nat.shiftLeft_eq, Nat.mul_comm v]
  exact (Nat.mul_add_lt_is_or (show d < 2 ^ 8 by omega) v).symm

theorem ntohs_htons (p : Nat) (h : p < 65536) : ntohs (htons p) = p := by
  unfold ntohs htons
  simp only
  omega

/-! ### Lengths of rendered addresses -/

theorem dotted_length (a b c d : Nat) (ha : a ≤ 255) (hb : b ≤ 255) (hc : c ≤ 255)
    (hd : d ≤ 255) : (dotted a b c d).length ≤ 15 := by
  have h1 := fmt_u_length_byte a (by omega)
  have h2 := fmt_u_length_byte b (by omega)
  have h3 := fmt_u_length_byte c (by omega)
  have h4 := fmt_u_length_byte d (by omega)
  simp only [dotted, List.length_append, List.length_cons]
  omega

theorem inet_ntop4_dotted (a b c d size : Nat) (ha : a ≤ 255) (hb : b ≤ 255) (hc : c ≤ 255)
    (hd : d ≤ 255) (hsize : 16 ≤ size) :
    inet_ntop4 [a, b, c, d] size = some (dotted a b c d) := by
  have hl := dotted_length a b c d ha hb hc hd
  unfold inet_ntop4
  simp only [List.getD_cons_zero, List.getD_cons_succ]
  have : ¬ (dotted a b c d).length ≥ size := by omega
  unfold dotted at this ⊢
  rw [if_neg this]

theorem dotted_chars (a b c d : Nat) : ∀ ch ∈ dotted a b c d, ch.isDigit = true ∨ ch = '.' := by
  intro ch hch
  simp only [dotted, List.mem_append, List.mem_cons] at hch
  rcases hch with ((h | h | h) | h | h) | h | h
  · exact Or.inl (fmt_u_isDigit a ch h)
  · exact Or.inr h
  · exact Or.inl (fmt_u_isDigit b ch h)
  · exact Or.inr h
  · exact Or.inl (fmt_u_isDigit c ch h)
  · exact Or.inr h
  · exact Or.inl (fmt_u_isDigit d ch h)

theorem dotted_head (a b c d : Nat) :
    ∃ ch cs, dotted a b c d = ch :: cs ∧ ch.isDigit = true := by
  obtain ⟨ch, cs, h⟩ := List.exists_cons_of_ne_nil (fmt_u_ne_nil a)
  refine ⟨ch, cs ++ '.' :: fmt_u b ++ '.' :: fmt_u c ++ '.' :: fmt_u d, ?_, ?_⟩
  · simp [dotted, h]
  · exact fmt_u_isDigit a ch (by rw [h]; simp)

theorem dotted_no_colon (a b c d : Nat) : ':' ∉ dotted a b c d := by
  intro h
  rcases dotted_chars a b c d ':' h with h1 | h1
  · revert h1; decide
  · revert h1; decide

theorem dotted_has_dot (a b c d : Nat) : '.' ∈ dotted a b c d := by
  simp [dotted]

theorem dotted_split (a b c d : Nat) :
    ∃ a1 a2, dotted a b c d = a1 ++ '.' :: a2 ∧ ':' ∉ a1 := by
  refine ⟨fmt_u a, fmt_u b ++ '.' :: fmt_u c ++ '.' :: fmt_u d, by simp [dotted], ?_⟩
  intro h
  have := fmt_u_isDigit a ':' h
  revert this; decide

theorem snprintf_fits (size : Nat) (t : List Char) (h : t.length < size) :
    snprintf size t = t := by
  unfold snprintf
  exact List.take_of_length_le (by omega)

/-! ### The tail of `str_to_addr` on valid literals -/

theorem str_to_addr_tail_v4 (s : List Char) (q : List Nat) (port : Nat)
    (addr : sockaddr_storage) (buf : List Char) (h : inet_pton4 s = some q) :
    str_to_addr_tail s port addr buf =
      ⟨true, { addr with sin_addr := q, sin_port := htons (port % 65536),
                         ss_family := AF_INET }, buf⟩ := by
  unfold str_to_addr_tail
  rw [h]

theorem str_to_addr_tail_v6 (s : List Char) (q : List Nat) (port : Nat)
    (addr : sockaddr_storage) (buf : List Char) (h : inet_pton6 s = some q) :
    str_to_addr_tail s port addr buf =
      ⟨true, { addr with sin6_addr := q, sin_port := htons (port % 65536),
                         ss_family := AF_INET6 }, buf⟩ := by
  unfold str_to_addr_tail
  rw [inet_pton6_not_pton4 s q h, h]

theorem str_to_addr_tail_bad (s : List Char) (c : Char) (port : Nat)
    (addr : sockaddr_storage) (buf : List Char) (hc : c ∈ s) (hbad : ¬ v6char c) :
    str_to_addr_tail s port addr buf = ⟨false, addr, buf⟩ := by
  obtain ⟨h4, h6⟩ := inet_pton_bad_char s c hc hbad
  unfold str_to_addr_tail
  rw [h4, h6]

theorem not_v6char_bracket : ¬ v6char ']' := by
  intro h
  exact (v6char_ne _ h).1 rfl

theorem v6_no_bracket (x : List Char) (a : List Nat) (h : inet_pton6 x = some a) :
    ']' ∉ x := fun hm => (v6char_ne _ (inet_pton6_chars x a h _ hm)).1 rfl

theorem v4_no_bracket (x : List Char) (a : List Nat) (h : inet_pton4 x = some a) :
    ']' ∉ x := fun hm => (v6char_ne _ (inet_pton4_v6char x a h _ hm)).1 rfl

theorem v6char_head (x : List Char) (hx : ∀ c ∈ x, v6char c) :
    ∀ c, x.head? = some c → is_blank c = false ∧ c ≠ '[' := by
  intro c hc
  have hm : c ∈ x := List.mem_of_mem_head? hc
  obtain ⟨_, h2, h3, h4⟩ := v6char_ne c (hx c hm)
  exact ⟨by simp [is_blank, h3, h4], h2⟩

/-! ### Explicit ports -/

/-- An explicit port below 65535 after a dotted IPv4 text is accepted and
stored. -/
theorem str_to_addr_explicit_port_v4 (w p : List Char) (a b c d dp : Nat)
    (addr : sockaddr_storage) (hw : ∀ ch ∈ w, is_blank ch = true)
    (ha : a ≤ 255) (hb : b ≤ 255) (hc : c ≤ 255) (hd : d ≤ 255)
    (hp : p ≠ []) (hpd : ∀ ch ∈ p, ch.isDigit = true) (hv : dec_value p < 65535) :
    str_to_addr (some (w ++ (dotted a b c d ++ ':' :: p))) dp addr =
      ⟨true, { addr with sin_addr := [a, b, c, d], sin_port := htons (dec_value p),
                         ss_family := AF_INET },
        w ++ dotted a b c d ++ '\x00' :: p⟩ := by
  obtain ⟨a1, a2, hsplit, hnc⟩ := dotted_split a b c d
  have hpc : ':' ∉ p := by
    intro h
    have := hpd ':' h
    revert this; decide
  have hscan := scan_loop_port a1 a2 p hnc hpc
  rw [← hsplit] at hscan
  obtain ⟨ch, cs, hhead, hdig⟩ := dotted_head a b c d
  have hs : ∀ c0, (dotted a b c d ++ ':' :: p).head? = some c0 →
      is_blank c0 = false ∧ c0 ≠ '[' := by
    intro c0 hc0
    rw [hhead] at hc0
    simp at hc0
    subst hc0
    obtain ⟨_, _, _, h4, h5, h6⟩ := isDigit_ne ch hdig
    exact ⟨by simp [is_blank, h5, h6], h4⟩
  rw [str_to_addr_port w _ p dp addr hw hs hscan, strtoul_all_digits p hp hpd]
  have hmin : min (dec_value p) ULONG_MAX = dec_value p := by
    apply Nat.min_eq_left; unfold ULONG_MAX; omega
  rw [hmin]
  have hcond : ¬ (([] : List Char) ≠ [] ∨ dec_value p ≥ UINT16_MAX) := by
    unfold UINT16_MAX; simp; omega
  simp only [hcond, if_false]
  rw [str_to_addr_tail_v4 _ _ _ _ _ (inet_pton4_dotted a b c d ha hb hc hd)]
  rw [Nat.mod_eq_of_lt (by omega)]

/-- An explicit port below 65535 after a bracketed IPv6 literal is accepted
and stored. -/
theorem str_to_addr_explicit_port_v6 (w x p : List Char) (q : List Nat) (dp : Nat)
    (addr : sockaddr_storage) (hw : ∀ ch ∈ w, is_blank ch = true)
    (hx : inet_pton6 x = some q)
    (hp : p ≠ []) (hpd : ∀ ch ∈ p, ch.isDigit = true) (hv : dec_value p < 65535) :
    str_to_addr (some (w ++ '[' :: (x ++ ']' :: ':' :: p))) dp addr =
      ⟨true, { addr with sin6_addr := q, sin_port := htons (dec_value p),
                         ss_family := AF_INET6 },
        w ++ '[' :: x ++ '\x00' :: ':' :: p⟩ := by
  rw [str_to_addr_bracket_port w x p dp addr hw (v6_no_bracket x q hx),
    strtoul_all_digits p hp hpd]
  have hmin : min (dec_value p) ULONG_MAX = dec_value p := by
    apply Nat.min_eq_left; unfold ULONG_MAX; omega
  rw [hmin]
  have hcond : ¬ (([] : List Char) ≠ [] ∨ dec_value p ≥ UINT16_MAX) := by
    unfold UINT16_MAX; simp; omega
  simp only [hcond, if_false]
  rw [str_to_addr_tail_v6 _ _ _ _ _ hx, Nat.mod_eq_of_lt (by omega)]

/-- A text that `inet_pton` accepts as IPv4 gets the default port. -/
theorem str_to_addr_v4_default (s : List Char) (q : List Nat) (dp : Nat)
    (addr : sockaddr_storage) (hs : inet_pton4 s = some q) :
    str_to_addr (some s) dp addr =
      ⟨true, { addr with sin_addr := q, sin_port := htons (dp % 65536),
                         ss_family := AF_INET }, s⟩ := by
  have hne : s ≠ [] := by
    rintro rfl
    exact Option.noConfusion hs
  have hnc : ':' ∉ s := by
    intro hc
    rw [inet_pton4_colon s hc] at hs
    exact Option.noConfusion hs
  have h := str_to_addr_no_port [] s dp addr (by simp) hne
    (v6char_head s (inet_pton4_v6char s q hs))
    (Or.inr (scan_loop_no_colon s 0 false none hnc))
  simp only [List.nil_append] at h
  rw [h, str_to_addr_tail_v4 _ _ _ _ _ hs, Nat.mod_mod]

theorem fmt_x_nibble (n : Nat) (h : n < 16) : fmt_x n = [Nat.digitChar n] := by
  rw [fmt_x_rec, if_pos h]

theorem fmt_x_low (b : Nat) : fmt_x (b &&& 0xF) = [Nat.digitChar (b % 16)] := by
  rw [and_0xF, fmt_x_nibble _ (Nat.mod_lt _ (by omega))]

theorem fmt_x_high (b : Nat) (h : b < 256) :
    fmt_x ((b >>> 4) &&& 0xF) = [Nat.digitChar (b / 16)] := by
  rw [and_0xF, shr_4, Nat.mod_eq_of_lt (by omega), fmt_x_nibble _ (by omega)]

theorem list_length_16 (a : List Nat) (h : a.length = 16) :
    ∃ a0 a1 a2 a3 a4 a5 a6 a7 a8 a9 a10 a11 a12 a13 a14 a15,
      a = [a0, a1, a2, a3, a4, a5, a6, a7, a8, a9, a10, a11, a12, a13, a14, a15] := by
  match a, h with
  | [a0, a1, a2, a3, a4, a5, a6, a7, a8, a9, a10, a11, a12, a13, a14, a15], _ =>
    exact ⟨a0, a1, a2, a3, a4, a5, a6, a7, a8, a9, a10, a11, a12, a13, a14, a15, rfl⟩

theorem list_length_4 (a : List Nat) (h : a.length = 4) :
    ∃ a0 a1 a2 a3, a = [a0, a1, a2, a3] := by
  match a, h with
  | [a0, a1, a2, a3], _ => exact ⟨a0, a1, a2, a3, rfl⟩

/-- The text `ip2ptr` formats from sixteen bytes is the one the specification
describes. -/
theorem ptr_nibbles_labels (a : List Nat) (hl : a.length = 16) (hb : ∀ b ∈ a, b < 256) :
    (ptr_nibbles a).flatMap (fun n => fmt_x n ++ ['.']) ++ "ip6.arpa.".toList =
      ip6_arpa_labels a := by
  obtain ⟨a0, a1, a2, a3, a4, a5, a6, a7, a8, a9, a10, a11, a12, a13, a14, a15, rfl⟩ :=
    list_length_16 a hl
  have h0 := hb a0 (by simp)
  have h1 := hb a1 (by simp)
  have h2 := hb a2 (by simp)
  have h3 := hb a3 (by simp)
  have h4 := hb a4 (by simp)
  have h5 := hb a5 (by simp)
  have h6 := hb a6 (by simp)
  have h7 := hb a7 (by simp)
  have h8 := hb a8 (by simp)
  have h9 := hb a9 (by simp)
  have h10 := hb a10 (by simp)
  have h11 := hb a11 (by simp)
  have h12 := hb a12 (by simp)
  have h13 := hb a13 (by simp)
  have h14 := hb a14 (by simp)
  have h15 := hb a15 (by simp)
  simp only [ptr_nibbles, ip6_arpa_labels, List.getD_cons_zero, List.getD_cons_succ,
    List.flatMap_cons, List.flatMap_nil, fmt_x_low,
    fmt_x_high _ h0, fmt_x_high _ h1, fmt_x_high _ h2, fmt_x_high _ h3, fmt_x_high _ h4,
    fmt_x_high _ h5, fmt_x_high _ h6, fmt_x_high _ h7, fmt_x_high _ h8, fmt_x_high _ h9,
    fmt_x_high _ h10, fmt_x_high _ h11, fmt_x_high _ h12, fmt_x_high _ h13,
    fmt_x_high _ h14, fmt_x_high _ h15]
  rfl

theorem ip6_arpa_labels_length (a : List Nat) : (ip6_arpa_labels a).length = 73 := by
  simp [ip6_arpa_labels, List.length_flatMap, Function.comp_def]

theorem inet_pton4_loop_no_dot : ∀ (s : List Char) (done : List Nat) (cur : Nat) (saw : Bool)
    (octets : Nat) (l : List Nat), (∀ c ∈ s, c.isDigit = true) →
    octets ≤ (if saw then 1 else 0) →
    inet_pton4_loop s done cur saw octets = some l → False := by
  intro s
  induction s with
  | nil =>
    intro done cur saw octets l _ ho h
    rw [inet_pton4_loop] at h
    have : octets < 4 := by cases saw <;> simp at ho <;> omega
    simp [this] at h
  | cons ch src ih =>
    intro done cur saw octets l hd ho h
    rw [inet_pton4_loop] at h
    have hdig : ch.isDigit = true := hd ch (by simp)
    have hsrc : ∀ c ∈ src, c.isDigit = true := fun c hc => hd c (List.mem_cons_of_mem _ hc)
    rw [if_pos hdig] at h
    simp only at h
    split_ifs at h with h1 h2 h3 h5
    · exact ih _ _ _ _ l hsrc ho h
    · have hs : saw = false := by simpa using h3
      subst hs
      exact ih _ _ _ _ l hsrc (by simp at ho ⊢; omega) h

/-- A text accepted by `inet_pton4` holds a dot. -/
theorem inet_pton4_no_dot (s : List Char) (q : List Nat) (hd : ∀ c ∈ s, c.isDigit = true)
    (h : inet_pton4 s = some q) : False :=
  inet_pton4_loop_no_dot s [] 0 false 0 q hd (by simp) h

/-! ### `inet_pton6` on the groups that `inet_ntop6` writes -/

theorem fmt_x_length_le (k w : Nat) (h : w < 16 ^ (k + 1)) : (fmt_x w).length ≤ k + 1 :=
  toDigits_length_le 16 (by omega) k w h

theorem fmt_x_length_pos (w : Nat) : 0 < (fmt_x w).length :=
  List.length_pos.2 (fmt_x_ne_nil w)

theorem inet_pton6_loop_hex (w : Nat) : w < 65536 →
    ∀ (rest curtok : List Char) (out : List Nat) (colonp : Option Nat),
      inet_pton6_loop (fmt_x w ++ rest) curtok out colonp 0 0 =
        inet_pton6_loop rest curtok out colonp (fmt_x w).length w := by
  induction w using Nat.strong_induction_on with
  | _ w ih =>
    intro hw rest curtok out colonp
    rw [fmt_x_rec]
    by_cases h : w < 16
    · rw [if_pos h]
      have hv : ((0 : Nat) <<< 4) ||| w = w := by rw [shl_4_or 0 w h]; omega
      have h2 : ¬ w > 65535 := by omega
      simp [inet_pton6_loop, digitChar_hex w h, hv, h2]
    · rw [if_neg h, List.append_assoc, ih (w / 16) (by omega) (by omega)]
      have hlen : (fmt_x (w / 16)).length ≤ 3 := fmt_x_length_le 2 (w / 16) (by omega)
      have hd := digitChar_hex (w % 16) (Nat.mod_lt _ (by omega))
      have hv : ((w / 16) <<< 4) ||| (w % 16) = w := by
        rw [shl_4_or _ _ (Nat.mod_lt _ (by omega))]; omega
      have h2 : ¬ w > 65535 := by omega
      have h3 : (fmt_x (w / 16)).length ≠ 4 := by omega
      simp [inet_pton6_loop, hd, hv, h2, h3]

/-- The two bytes `inet_pton6` stores for a group. -/
theorem inet_pton6_finish_push (out : List Nat) (colonp : Option Nat) (k w : Nat)
    (hk : 0 < k) (hlen : out.length + 2 ≤ 16) :
    inet_pton6_finish out colonp k w =
      inet_pton6_finish (out ++ [(w >>> 8) &&& 0xff, w &&& 0xff]) colonp 0 0 := by
  unfold inet_pton6_finish
  have h1 : ¬ out.length + 2 > 16 := by omega
  simp [hk, h1]

theorem inet_pton6_finish_val (out : List Nat) (colonp : Option Nat) (v : Nat) :
    inet_pton6_finish out colonp 0 v = inet_pton6_finish out colonp 0 0 := by
  unfold inet_pton6_finish
  simp

theorem inet_pton6_finish_expand (out : List Nat) (cp : Nat) (hlen : out.length < 16) :
    inet_pton6_finish out (some cp) 0 0 =
      some (out.take cp ++ List.replicate (16 - out.length) 0 ++ out.drop cp) := by
  unfold inet_pton6_finish
  have h1 : out.length ≠ 16 := by omega
  simp [h1]

theorem inet_pton6_finish_full (out : List Nat) (hlen : out.length = 16) :
    inet_pton6_finish out none 0 0 = some out := by
  unfold inet_pton6_finish
  simp [hlen]

/-- A group followed by a colon and more text. -/
theorem inet_pton6_loop_group (w : Nat) (hw : w < 65536) (rest curtok : List Char)
    (out : List Nat) (colonp : Option Nat) (hrest : rest ≠ []) (hlen : out.length + 2 ≤ 16) :
    inet_pton6_loop (fmt_x w ++ ':' :: rest) curtok out colonp 0 0 =
      inet_pton6_loop rest rest (out ++ [(w >>> 8) &&& 0xff, w &&& 0xff]) colonp 0 0 := by
  rw [inet_pton6_loop_hex w hw, inet_pton6_loop]
  have h0 : hex_digit_value ':' = none := by decide
  have h1 : (fmt_x w).length ≠ 0 := by have := fmt_x_length_pos w; omega
  have h2 : ¬ out.length + 2 > 16 := by omega
  simp [h0, h1, hrest, h2]

/-- A group at the end of the text. -/
theorem inet_pton6_loop_last (w : Nat) (hw : w < 65536) (curtok : List Char)
    (out : List Nat) (colonp : Option Nat) (hlen : out.length + 2 ≤ 16) :
    inet_pton6_loop (fmt_x w) curtok out colonp 0 0 =
      inet_pton6_finish (out ++ [(w >>> 8) &&& 0xff, w &&& 0xff]) colonp 0 0 := by
  have h := inet_pton6_loop_hex w hw [] curtok out colonp
  rw [List.append_nil] at h
  rw [h, inet_pton6_loop, inet_pton6_finish_push out colonp _ w (fmt_x_length_pos w) hlen]

/-- The second colon of `::`. -/
theorem inet_pton6_loop_gap (rest curtok : List Char) (out : List Nat) (v : Nat) :
    inet_pton6_loop (':' :: rest) curtok out none 0 v =
      inet_pton6_loop rest rest out (some out.length) 0 v := by
  rw [inet_pton6_loop]
  have h0 : hex_digit_value ':' = none := by decide
  simp [h0]

theorem inet_pton6_loop_decimal : ∀ (ds rest curtok : List Char) (out : List Nat)
    (colonp : Option Nat) (seen val : Nat), (∀ c ∈ ds, c.isDigit = true) →
    seen + ds.length ≤ 4 → val < 16 ^ seen →
    ∃ v, inet_pton6_loop (ds ++ rest) curtok out colonp seen val =
      inet_pton6_loop rest curtok out colonp (seen + ds.length) v := by
  intro ds
  induction ds with
  | nil => intro rest curtok out colonp seen val _ _ _; exact ⟨val, by simp⟩
  | cons c cs ih =>
    intro rest curtok out colonp seen val hd hlen hval
    have hc : c.isDigit = true := hd c (by simp)
    have hcs : ∀ c ∈ cs, c.isDigit = true := fun c h => hd c (List.mem_cons_of_mem _ h)
    simp only [List.length_cons] at hlen
    have hhex : hex_digit_value c = some (c.toNat - 48) := by
      unfold Char.isDigit at hc
      simp only [Bool.and_eq_true, decide_eq_true_eq] at hc
      have h1 : '0' ≤ c := hc.1
      have h2 : c ≤ '9' := hc.2
      simp [hex_digit_value, h1, h2]
    have hdv : c.toNat - 48 < 16 := by
      unfold Char.isDigit at hc
      simp only [Bool.and_eq_true, decide_eq_true_eq] at hc
      have h2 : c.val ≤ 57 := hc.2
      have : c.toNat ≤ 57 := h2
      omega
    have hv : (val <<< 4) ||| (c.toNat - 48) = val * 16 + (c.toNat - 48) :=
      shl_4_or _ _ hdv
    have hnew : val * 16 + (c.toNat - 48) < 16 ^ (seen + 1) := by
      rw [pow_succ]; omega
    have hpow : 16 ^ (seen + 1) ≤ 16 ^ 4 := Nat.pow_le_pow_right (by omega) (by omega)
    obtain ⟨v, hv2⟩ := ih rest curtok out colonp (seen + 1) (val * 16 + (c.toNat - 48)) hcs
      (by omega) hnew
    refine ⟨v, ?_⟩
    rw [List.cons_append, inet_pton6_loop]
    have h4 : seen ≠ 4 := by omega
    have h5 : ¬ val * 16 + (c.toNat - 48) > 65535 := by omega
    simp only [hhex, hv, h4, h5, if_false]
    rw [hv2]
    congr 1
    simp only [List.length_cons]
    omega

/-- A dotted quad at the end of the text, the current group starting at it. -/
theorem inet_pton6_loop_quad (a b c d : Nat) (ha : a ≤ 255) (hb : b ≤ 255) (hc : c ≤ 255)
    (hd : d ≤ 255) (out : List Nat) (colonp : Option Nat) (hlen : out.length + 4 ≤ 16) :
    inet_pton6_loop (dotted a b c d) (dotted a b c d) out colonp 0 0 =
      inet_pton6_finish (out ++ [a, b, c, d]) colonp 0 0 := by
  have hsplit : dotted a b c d =
      fmt_u a ++ ('.' :: (fmt_u b ++ '.' :: fmt_u c ++ '.' :: fmt_u d)) := by
    simp [dotted]
  obtain ⟨v, hv⟩ := inet_pton6_loop_decimal (fmt_u a)
    ('.' :: (fmt_u b ++ '.' :: fmt_u c ++ '.' :: fmt_u d)) (dotted a b c d) out colonp 0 0
    (fmt_u_isDigit a) (by have := fmt_u_length_byte a (by omega); omega) (by omega)
  rw [← hsplit] at hv
  rw [hv, inet_pton6_loop]
  have h0 : hex_digit_value '.' = none := by decide
  have h1 : ('.' : Char) ≠ ':' := by decide
  simp only [h0, h1, if_false, true_and, hlen, if_true,
    inet_pton4_dotted a b c d ha hb hc hd]
  exact inet_pton6_finish_val _ _ _

theorem fmt_x_hex (w : Nat) : ∀ c ∈ fmt_x w, (hex_digit_value c).isSome = true := by
  induction w using Nat.strong_induction_on with
  | _ w ih =>
    intro c hc
    rw [fmt_x_rec] at hc
    by_cases h : w < 16
    · rw [if_pos h] at hc
      simp at hc
      rw [hc, digitChar_hex w h]; rfl
    · rw [if_neg h] at hc
      simp at hc
      rcases hc with hc | hc
      · exact ih (w / 16) (by omega) c hc
      · rw [hc, digitChar_hex (w % 16) (Nat.mod_lt _ (by omega))]; rfl

theorem groups_ne_nil : ∀ ws : List Nat, ws ≠ [] → groups ws ≠ [] := by
  intro ws h
  match ws, h with
  | [w], _ => exact fmt_x_ne_nil w
  | w :: w2 :: ws, _ =>
    rw [groups]
    simp

theorem groups_hex_head (ws : List Nat) (h : ws ≠ []) :
    ∃ c cs, groups ws = c :: cs ∧ c ≠ ':' := by
  match ws, h with
  | [w], _ =>
    obtain ⟨c, cs, hcs⟩ := List.exists_cons_of_ne_nil (fmt_x_ne_nil w)
    exact ⟨c, cs, hcs, (hex_ne c (fmt_x_hex w c (by rw [hcs]; simp))).1⟩
  | w :: w2 :: ws, _ =>
    obtain ⟨c, cs, hcs⟩ := List.exists_cons_of_ne_nil (fmt_x_ne_nil w)
    refine ⟨c, cs ++ ':' :: groups (w2 :: ws), ?_,
      (hex_ne c (fmt_x_hex w c (by rw [hcs]; simp))).1⟩
    rw [groups, hcs]
    simp

theorem inet_pton6_of_head (s rest : List Char) (h : ∃ c cs, s = c :: cs ∧ c ≠ ':') :
    inet_pton6 (s ++ rest) = inet_pton6_loop (s ++ rest) (s ++ rest) [] none 0 0 := by
  obtain ⟨c, cs, rfl, hc⟩ := h
  unfold inet_pton6
  split
  · rename_i heq; simp at heq
  · rename_i heq
    simp only [List.cons_append, List.cons.injEq] at heq
    exact absurd heq.1 hc
  · rfl

theorem word_bytes_length (ws : List Nat) : (word_bytes ws).length = 2 * ws.length := by
  induction ws with
  | nil => rfl
  | cons w ws ih =>
    simp only [word_bytes, List.flatMap_cons, List.length_append, List.length_cons,
      List.length_nil] at ih ⊢
    omega

theorem word_bytes_cons (w : Nat) (ws : List Nat) :
    word_bytes (w :: ws) = [(w >>> 8) &&& 0xff, w &&& 0xff] ++ word_bytes ws := by
  simp [word_bytes]

/-- Groups up to the end of the text. -/
theorem inet_pton6_loop_groups : ∀ (ws : List Nat), ws ≠ [] → (∀ w ∈ ws, w < 65536) →
    ∀ (curtok : List Char) (out : List Nat) (colonp : Option Nat),
      out.length + 2 * ws.length ≤ 16 →
      inet_pton6_loop (groups ws) curtok out colonp 0 0 =
        inet_pton6_finish (out ++ word_bytes ws) colonp 0 0 := by
  intro ws
  induction ws with
  | nil => intro h; exact absurd rfl h
  | cons w ws ih =>
    intro _ hw curtok out colonp hlen
    have hw0 : w < 65536 := hw w (by simp)
    simp only [List.length_cons] at hlen
    cases ws with
    | nil =>
      rw [groups, inet_pton6_loop_last w hw0 curtok out colonp (by omega)]
      simp [word_bytes]
    | cons w2 ws =>
      rw [groups, inet_pton6_loop_group w hw0 _ curtok out colonp
        (groups_ne_nil _ (by simp)) (by omega)]
      rw [ih (by simp) (fun x hx => hw x (List.mem_cons_of_mem _ hx)) _ _ colonp
        (by simp only [List.length_append, List.length_cons, List.length_nil] at hlen ⊢; omega)]
      rw [word_bytes_cons w, List.append_assoc]

/-- Groups up to a `::`. -/
theorem inet_pton6_loop_groups_gap : ∀ (ws : List Nat), ws ≠ [] → (∀ w ∈ ws, w < 65536) →
    ∀ (rest curtok : List Char) (out : List Nat),
      out.length + 2 * ws.length ≤ 16 →
      inet_pton6_loop (groups ws ++ ':' :: ':' :: rest) curtok out none 0 0 =
        inet_pton6_loop rest rest (out ++ word_bytes ws)
          (some (out ++ word_bytes ws).length) 0 0 := by
  intro ws
  induction ws with
  | nil => intro h; exact absurd rfl h
  | cons w ws ih =>
    intro _ hw rest curtok out hlen
    have hw0 : w < 65536 := hw w (by simp)
    simp only [List.length_cons] at hlen
    cases ws with
    | nil =>
      rw [groups, inet_pton6_loop_group w hw0 _ curtok out none (by simp) (by omega),
        inet_pton6_loop_gap]
      simp [word_bytes]
    | cons w2 ws =>
      rw [groups, List.append_assoc, List.cons_append,
        inet_pton6_loop_group w hw0 _ curtok out none (by simp) (by omega)]
      rw [ih (by simp) (fun x hx => hw x (List.mem_cons_of_mem _ hx)) _ _ _
        (by simp only [List.length_append, List.length_cons, List.length_nil] at hlen ⊢; omega)]
      rw [word_bytes_cons w, List.append_assoc]

/-- The groups after a `::` that stands at the end of what was written. -/
theorem inet_pton6_loop_post (post : List Nat) (hpost : ∀ w ∈ post, w < 65536)
    (curtok : List Char) (out : List Nat) (hlen : out.length + 2 * post.length < 16) :
    inet_pton6_loop (groups post) curtok out (some out.length) 0 0 =
      some (out ++ List.replicate (16 - out.length - 2 * post.length) 0 ++
        word_bytes post) := by
  cases post with
  | nil =>
    rw [groups, inet_pton6_loop, inet_pton6_finish_expand out _ (by simpa using hlen)]
    simp [word_bytes]
  | cons w ws =>
    rw [inet_pton6_loop_groups _ (by simp) hpost _ _ _ (by omega)]
    have hl := word_bytes_length (w :: ws)
    rw [inet_pton6_finish_expand _ _ (by rw [List.length_append]; omega)]
    rw [List.take_left', List.drop_left', List.length_append, hl]
    · have e : 16 - (out.length + 2 * (w :: ws).length) =
          16 - out.length - 2 * (w :: ws).length := by omega
      rw [e]
    · rfl
    · rfl

/-- What `inet_pton6` reads from groups, `::`, groups. -/
theorem inet_pton6_groups_gap (pre post : List Nat) (hpre : ∀ w ∈ pre, w < 65536)
    (hpost : ∀ w ∈ post, w < 65536) (hlen : pre.length + post.length < 8) :
    inet_pton6 (groups pre ++ ':' :: ':' :: groups post) =
      some (word_bytes pre ++ List.replicate (16 - 2 * pre.length - 2 * post.length) 0 ++
        word_bytes post) := by
  cases pre with
  | nil =>
    have h := inet_pton6_loop_post post hpost (groups post) []
      (by simp only [List.length_nil] at hlen ⊢; omega)
    simp only [List.length_nil, List.nil_append, Nat.sub_zero] at h
    simp only [groups, List.nil_append, inet_pton6, inet_pton6_loop_gap, List.length_nil,
      word_bytes, List.flatMap_nil, Nat.mul_zero, Nat.sub_zero]
    exact h
  | cons w ws =>
    have hl := word_bytes_length (w :: ws)
    rw [inet_pton6_of_head _ _ (groups_hex_head _ (by simp))]
    rw [inet_pton6_loop_groups_gap _ (by simp) hpre _ _ _ (by simp at hlen ⊢; omega)]
    simp only [List.nil_append]
    rw [inet_pton6_loop_post post hpost _ _ (by rw [hl]; omega), hl]

/-- What `inet_pton6` reads from eight groups. -/
theorem inet_pton6_groups_full (ws : List Nat) (hws : ∀ w ∈ ws, w < 65536)
    (hlen : ws.length = 8) : inet_pton6 (groups ws) = some (word_bytes ws) := by
  have hne : ws ≠ [] := by rintro rfl; simp at hlen
  have h := inet_pton6_of_head (groups ws) [] (groups_hex_head ws hne)
  rw [List.append_nil] at h
  rw [h, inet_pton6_loop_groups ws hne hws _ _ _ (by simp; omega)]
  simp only [List.nil_append]
  exact inet_pton6_finish_full _ (by rw [word_bytes_length]; omega)

/-- What `inet_pton6` reads from `::` and a dotted quad. -/
theorem inet_pton6_compat (a b c d : Nat) (ha : a ≤ 255) (hb : b ≤ 255) (hc : c ≤ 255)
    (hd : d ≤ 255) :
    inet_pton6 (':' :: ':' :: dotted a b c d) =
      some (List.replicate 12 0 ++ [a, b, c, d]) := by
  simp only [inet_pton6, inet_pton6_loop_gap, List.length_nil]
  rw [inet_pton6_loop_quad a b c d ha hb hc hd [] _ (by simp)]
  rw [inet_pton6_finish_expand _ _ (by simp)]
  rfl

/-- What `inet_pton6` reads from `::ffff:` and a dotted quad. -/
theorem inet_pton6_mapped (a b c d : Nat) (ha : a ≤ 255) (hb : b ≤ 255) (hc : c ≤ 255)
    (hd : d ≤ 255) :
    inet_pton6 (':' :: ':' :: (fmt_x 0xffff ++ ':' :: dotted a b c d)) =
      some (List.replicate 10 0 ++ [255, 255, a, b, c, d]) := by
  obtain ⟨ch, cs, hhead, _⟩ := dotted_head a b c d
  simp only [inet_pton6, inet_pton6_loop_gap, List.length_nil]
  rw [inet_pton6_loop_group 0xffff (by omega) _ _ [] _ (by rw [hhead]; simp) (by simp)]
  rw [inet_pton6_loop_quad a b c d ha hb hc hd _ _ (by simp)]
  rw [inet_pton6_finish_expand _ _ (by simp)]
  rfl

/-! ### The run of zero groups that `inet_ntop6` abbreviates -/

theorem best_run_zero (ws0 : List Nat) : ∀ (ws : List Nat) (i : Nat)
    (best cur : Option (Nat × Nat)), ws0.drop i = ws → i ≤ ws0.length →
    (∀ b, best = some b → zero_run ws0 b) →
    (∀ c, cur = some c → c.1 + c.2 = i ∧ ∀ j, c.1 ≤ j → j < i → ws0.getD j 0 = 0) →
    ∀ r, best_run ws i best cur = some r → zero_run ws0 r := by
  intro ws
  induction ws with
  | nil =>
    intro i best cur _ hi hbest hcur r hr
    rw [best_run.eq_def] at hr
    simp only at hr
    cases cur with
    | none => exact hbest r hr
    | some c =>
      obtain ⟨hc1, hc2⟩ := hcur c rfl
      have hzc : zero_run ws0 c := ⟨by omega, fun j h1 h2 => hc2 j h1 (by omega)⟩
      cases best with
      | none =>
        simp only [Option.some.injEq] at hr
        subst hr; exact hzc
      | some b =>
        simp only at hr
        split_ifs at hr
        · simp only [Option.some.injEq] at hr
          subst hr; exact hzc
        · simp only [Option.some.injEq] at hr
          subst hr; exact hbest b rfl
  | cons w ws ih =>
    intro i best cur hdrop hi hbest hcur r hr
    have hlt : i < ws0.length := by
      by_contra hge
      rw [List.drop_eq_nil_of_le (by omega)] at hdrop
      exact List.noConfusion hdrop
    rw [List.drop_eq_getElem_cons hlt] at hdrop
    have hw : ws0.getD i 0 = w := by
      rw [List.getD_eq_getElem _ _ hlt]
      exact (List.cons.inj hdrop).1
    have hdrop2 : ws0.drop (i + 1) = ws := (List.cons.inj hdrop).2
    rw [best_run.eq_def] at hr
    simp only at hr
    by_cases hz : w = 0
    · rw [if_pos hz] at hr
      cases cur with
      | none =>
        refine ih (i + 1) best (some (i, 1)) hdrop2 (by omega) hbest ?_ r hr
        intro c hc
        simp only [Option.some.injEq] at hc
        subst hc
        refine ⟨rfl, fun j h1 h2 => ?_⟩
        have : j = i := by simp only at h1; omega
        rw [this, hw, hz]
      | some c0 =>
        obtain ⟨hc1, hc2⟩ := hcur c0 rfl
        refine ih (i + 1) best (some (c0.1, c0.2 + 1)) hdrop2 (by omega) hbest ?_ r hr
        intro c hc
        simp only [Option.some.injEq] at hc
        subst hc
        refine ⟨by simp only; omega, fun j h1 h2 => ?_⟩
        by_cases hj : j < i
        · exact hc2 j h1 hj
        · have : j = i := by omega
          rw [this, hw, hz]
    · rw [if_neg hz] at hr
      cases cur with
      | none => exact ih (i + 1) best none hdrop2 (by omega) hbest (by simp) r hr
      | some c0 =>
        obtain ⟨hc1, hc2⟩ := hcur c0 rfl
        have hzc : zero_run ws0 c0 := ⟨by omega, fun j h1 h2 => hc2 j h1 (by omega)⟩
        cases best with
        | none =>
          refine ih (i + 1) (some c0) none hdrop2 (by omega) ?_ (by simp) r hr
          intro b hb
          simp only [Option.some.injEq] at hb
          subst hb; exact hzc
        | some b0 =>
          refine ih (i + 1) _ none hdrop2 (by omega) ?_ (by simp) r hr
          intro b hb
          split_ifs at hb
          · simp only [Option.some.injEq] at hb
            subst hb; exact hzc
          · simp only [Option.some.injEq] at hb
            subst hb; exact hbest b0 rfl

theorem best_of_zero (ws : List Nat) (r : Nat × Nat) (h : best_of ws = some r) :
    zero_run ws r ∧ 2 ≤ r.2 := by
  unfold best_of at h
  cases hb : best_run ws 0 none none with
  | none => simp [hb] at h
  | some b =>
    simp only [hb] at h
    split_ifs at h with h2
    simp only [Option.some.injEq] at h
    subst h
    exact ⟨best_run_zero ws ws 0 none none rfl (by omega) (by simp) (by simp) b hb, by omega⟩

theorem zero_run_split (ws : List Nat) (b n : Nat) (h : zero_run ws (b, n)) :
    ws = ws.take b ++ List.replicate n 0 ++ ws.drop (b + n) := by
  obtain ⟨h1, h2⟩ := h
  simp only at h1 h2
  have hmid : (ws.drop b).take n = List.replicate n 0 := by
    apply List.ext_getElem
    · simp only [List.length_take, List.length_drop, List.length_replicate]; omega
    · intro j hj1 hj2
      simp only [List.length_replicate] at hj2
      rw [List.getElem_take, List.getElem_drop, List.getElem_replicate]
      have := h2 (b + j) (by omega) (by omega)
      rw [List.getD_eq_getElem _ _ (by omega)] at this
      exact this
  calc ws = ws.take b ++ ws.drop b := (List.take_append_drop b ws).symm
    _ = ws.take b ++ ((ws.drop b).take n ++ (ws.drop b).drop n) := by
        congr 1
        exact (List.take_append_drop n (ws.drop b)).symm
    _ = ws.take b ++ List.replicate n 0 ++ ws.drop (b + n) := by
        rw [hmid, List.drop_drop, List.append_assoc]

theorem word_bytes_append (xs ys : List Nat) :
    word_bytes (xs ++ ys) = word_bytes xs ++ word_bytes ys := by
  simp [word_bytes]

theorem word_bytes_zeros (n : Nat) : word_bytes (List.replicate n 0) = List.replicate (2 * n) 0 := by
  induction n with
  | zero => rfl
  | succ n ih =>
    rw [List.replicate_succ, word_bytes_cons, ih]
    have : 2 * (n + 1) = (2 * n + 1) + 1 := by omega
    rw [this, List.replicate_succ, List.replicate_succ]
    rfl

theorem hi_lo (hi lo : Nat) (h1 : hi < 256) (h2 : lo < 256) :
    ((hi <<< 8) ||| lo) < 65536 ∧ ((((hi <<< 8) ||| lo) >>> 8) &&& 0xff) = hi ∧
      (((hi <<< 8) ||| lo) &&& 0xff) = lo ∧
      (((hi <<< 8) ||| lo) = 0 → hi = 0 ∧ lo = 0) ∧
      (((hi <<< 8) ||| lo) = 0xffff → hi = 255 ∧ lo = 255) := by
  rw [shl_8_or hi lo h2, and_0xff, and_0xff, shr_8]
  refine ⟨by omega, by omega, by omega, by omega, by omega⟩

/-! ### The text `inet_ntop6` writes -/

/-- Without a run to abbreviate, `inet_ntop6` writes the eight groups. -/
theorem inet_ntop6_loop_plain (src : List Nat) (w0 w1 w2 w3 w4 w5 w6 w7 : Nat) :
    inet_ntop6_loop src [w0, w1, w2, w3, w4, w5, w6, w7] none 8 0 [] =
      some (groups [w0, w1, w2, w3, w4, w5, w6, w7]) := by
  simp [inet_ntop6_loop, groups]

/-- With a run that is not rendered as an embedded IPv4 address, `inet_ntop6`
writes the groups before the run, `::`, and the groups after it. -/
theorem inet_ntop6_loop_gap (src : List Nat) (w0 w1 w2 w3 w4 w5 w6 w7 b n : Nat)
    (hb : b + n ≤ 8) (hn : 2 ≤ n)
    (hnot : ¬ (b = 0 ∧ (n = 6 ∨ (n = 5 ∧ w5 = 0xffff)))) :
    (inet_ntop6_loop src [w0, w1, w2, w3, w4, w5, w6, w7] (some (b, n)) 8 0 []).map
        (fun tp => if b + n = 8 then tp ++ [':'] else tp) =
      some (groups (List.take b [w0, w1, w2, w3, w4, w5, w6, w7]) ++ ':' :: ':' ::
        groups (List.drop (b + n) [w0, w1, w2, w3, w4, w5, w6, w7])) := by
  have hb8 : b ≤ 6 := by omega
  have hn8 : n ≤ 8 := by omega
  interval_cases b <;> interval_cases n <;>
    first
    | omega
    | (simp [inet_ntop6_loop, groups]; done)
    | (simp [inet_ntop6_loop, groups] at hnot ⊢; intro h; exact absurd h hnot)

/-- A run at the start of six groups: `::` and the last four bytes dotted. -/
theorem inet_ntop6_loop_compat (a12 a13 a14 a15 : Nat) (pre : List Nat)
    (w0 w1 w2 w3 w4 w5 w6 w7 : Nat) (hpre : pre.length = 12)
    (h12 : a12 ≤ 255) (h13 : a13 ≤ 255) (h14 : a14 ≤ 255) (h15 : a15 ≤ 255) :
    inet_ntop6_loop (pre ++ [a12, a13, a14, a15]) [w0, w1, w2, w3, w4, w5, w6, w7]
        (some (0, 6)) 8 0 [] =
      some (':' :: ':' :: dotted a12 a13 a14 a15) := by
  have hd : List.drop 12 (pre ++ [a12, a13, a14, a15]) = [a12, a13, a14, a15] := by
    rw [← hpre]; exact List.drop_left _ _
  simp [inet_ntop6_loop, hd, INET6_ADDRSTRLEN,
    inet_ntop4_dotted a12 a13 a14 a15 44 h12 h13 h14 h15 (by omega)]

theorem fmt_x_ffff_length : (fmt_x 0xffff).length = 4 := by
  rw [fmt_x_rec, if_neg (by omega)]
  have e1 : 65535 / 16 = 4095 := by omega
  rw [e1, fmt_x_rec, if_neg (by omega)]
  have e2 : 4095 / 16 = 255 := by omega
  rw [e2, fmt_x_rec, if_neg (by omega)]
  have e3 : 255 / 16 = 15 := by omega
  rw [e3, fmt_x_rec, if_pos (by omega)]
  rfl

/-- A run at the start of five groups before `ffff`: `::ffff:` and the last
four bytes dotted. -/
theorem inet_ntop6_loop_mapped (a12 a13 a14 a15 : Nat) (pre : List Nat)
    (w0 w1 w2 w3 w4 w5 w6 w7 : Nat) (hpre : pre.length = 12) (hw5 : w5 = 0xffff)
    (h12 : a12 ≤ 255) (h13 : a13 ≤ 255) (h14 : a14 ≤ 255) (h15 : a15 ≤ 255) :
    inet_ntop6_loop (pre ++ [a12, a13, a14, a15]) [w0, w1, w2, w3, w4, w5, w6, w7]
        (some (0, 5)) 8 0 [] =
      some (':' :: ':' :: (fmt_x w5 ++ ':' :: dotted a12 a13 a14 a15)) := by
  have hd : List.drop 12 (pre ++ [a12, a13, a14, a15]) = [a12, a13, a14, a15] := by
    rw [← hpre]; exact List.drop_left _ _
  have hf : (fmt_x w5).length = 4 := by rw [hw5]; exact fmt_x_ffff_length
  have hq := inet_ntop4_dotted a12 a13 a14 a15 39 h12 h13 h14 h15 (by omega)
  simp [inet_ntop6_loop, hd, INET6_ADDRSTRLEN, hf, hq]
  intro h
  exact absurd hw5 h

/-- Sixteen bytes are the bytes of their eight groups. -/
theorem word_bytes_words16 (a : List Nat) (hl : a.length = 16) (hb : ∀ b ∈ a, b < 256) :
    word_bytes (words16 a) = a ∧ (words16 a).length = 8 ∧ ∀ w ∈ words16 a, w < 65536 := by
  obtain ⟨a0, a1, a2, a3, a4, a5, a6, a7, a8, a9, a10, a11, a12, a13, a14, a15, rfl⟩ :=
    list_length_16 a hl
  have e : words16 [a0, a1, a2, a3, a4, a5, a6, a7, a8, a9, a10, a11, a12, a13, a14, a15] =
      [(a0 <<< 8) ||| a1, (a2 <<< 8) ||| a3, (a4 <<< 8) ||| a5, (a6 <<< 8) ||| a7,
       (a8 <<< 8) ||| a9, (a10 <<< 8) ||| a11, (a12 <<< 8) ||| a13, (a14 <<< 8) ||| a15] := rfl
  have h0 := hi_lo a0 a1 (hb _ (by simp)) (hb _ (by simp))
  have h1 := hi_lo a2 a3 (hb _ (by simp)) (hb _ (by simp))
  have h2 := hi_lo a4 a5 (hb _ (by simp)) (hb _ (by simp))
  have h3 := hi_lo a6 a7 (hb _ (by simp)) (hb _ (by simp))
  have h4 := hi_lo a8 a9 (hb _ (by simp)) (hb _ (by simp))
  have h5 := hi_lo a10 a11 (hb _ (by simp)) (hb _ (by simp))
  have h6 := hi_lo a12 a13 (hb _ (by simp)) (hb _ (by simp))
  have h7 := hi_lo a14 a15 (hb _ (by simp)) (hb _ (by simp))
  rw [e]
  refine ⟨?_, rfl, ?_⟩
  · simp only [word_bytes, List.flatMap_cons, List.flatMap_nil, List.cons_append,
      List.nil_append, h0.2.1, h0.2.2.1, h1.2.1, h1.2.2.1, h2.2.1, h2.2.2.1, h3.2.1, h3.2.2.1,
      h4.2.1, h4.2.2.1, h5.2.1, h5.2.2.1, h6.2.1, h6.2.2.1, h7.2.1, h7.2.2.1]
  · intro w hw
    simp only [List.mem_cons, List.mem_singleton, List.not_mem_nil, or_false] at hw
    rcases hw with h | h | h | h | h | h | h | h <;> subst h
    · exact h0.1
    · exact h1.1
    · exact h2.1
    · exact h3.1
    · exact h4.1
    · exact h5.1
    · exact h6.1
    · exact h7.1

theorem fmt_x_length_word (w : Nat) (h : w < 65536) : (fmt_x w).length ≤ 4 :=
  fmt_x_length_le 3 w (by omega)

theorem groups_length : ∀ ws : List Nat, (∀ w ∈ ws, w < 65536) →
    (groups ws).length ≤ 5 * ws.length := by
  intro ws
  induction ws with
  | nil => intro _; simp [groups]
  | cons w ws ih =>
    intro h
    have hw := fmt_x_length_word w (h w (by simp))
    cases ws with
    | nil => simp only [groups, List.length_cons, List.length_nil]; omega
    | cons w2 ws =>
      have := ih (fun x hx => h x (List.mem_cons_of_mem _ hx))
      simp only [groups, List.length_append, List.length_cons] at this ⊢
      omega

/-- The text of sixteen bytes: what `inet_ntop6` writes when it has room, a
text of at most 45 characters that `inet_pton6` reads back as the same bytes. -/
theorem inet_ntop6_text (a : List Nat) (hl : a.length = 16) (hb : ∀ b ∈ a, b < 256) :
    ∃ T : List Char, (∀ size, inet_ntop6 a size = if T.length ≥ size then none else some T) ∧
      inet_pton6 T = some a ∧ T.length ≤ 45 := by
  obtain ⟨hwb, hwl, hwlt⟩ := word_bytes_words16 a hl hb
  obtain ⟨a0, a1, a2, a3, a4, a5, a6, a7, a8, a9, a10, a11, a12, a13, a14, a15, rfl⟩ :=
    list_length_16 a hl
  have e : words16 [a0, a1, a2, a3, a4, a5, a6, a7, a8, a9, a10, a11, a12, a13, a14, a15] =
      [(a0 <<< 8) ||| a1, (a2 <<< 8) ||| a3, (a4 <<< 8) ||| a5, (a6 <<< 8) ||| a7,
       (a8 <<< 8) ||| a9, (a10 <<< 8) ||| a11, (a12 <<< 8) ||| a13, (a14 <<< 8) ||| a15] := rfl
  cases hbest : best_of
      (words16 [a0, a1, a2, a3, a4, a5, a6, a7, a8, a9, a10, a11, a12, a13, a14, a15]) with
  | none =>
    refine ⟨groups (words16
      [a0, a1, a2, a3, a4, a5, a6, a7, a8, a9, a10, a11, a12, a13, a14, a15]), ?_, ?_, ?_⟩
    · intro size
      unfold inet_ntop6
      simp only [hbest]
      rw [e, inet_ntop6_loop_plain]
      simp
    · rw [inet_pton6_groups_full _ hwlt hwl, hwb]
    · have := groups_length _ hwlt
      rw [hwl] at this
      omega
  | some r =>
    obtain ⟨b, n⟩ := r
    obtain ⟨hzr, hn2⟩ := best_of_zero _ _ hbest
    simp only at hn2
    have hbn : b + n ≤ 8 := by have := hzr.1; rw [hwl] at this; exact this
    have hz := hzr.2
    by_cases hemb : b = 0 ∧ (n = 6 ∨ (n = 5 ∧ ((a10 <<< 8) ||| a11) = 0xffff))
    · obtain ⟨hb0, hn⟩ := hemb
      subst hb0
      have hz0 := (hi_lo a0 a1 (hb _ (by simp)) (hb _ (by simp))).2.2.2.1
        (by have := hz 0 (by omega) (by omega); rw [e] at this; simpa using this)
      have hz1 := (hi_lo a2 a3 (hb _ (by simp)) (hb _ (by simp))).2.2.2.1
        (by have := hz 1 (by omega) (by omega); rw [e] at this; simpa using this)
      have hz2 := (hi_lo a4 a5 (hb _ (by simp)) (hb _ (by simp))).2.2.2.1
        (by have := hz 2 (by omega) (by omega); rw [e] at this; simpa using this)
      have hz3 := (hi_lo a6 a7 (hb _ (by simp)) (hb _ (by simp))).2.2.2.1
        (by have := hz 3 (by omega) (by omega); rw [e] at this; simpa using this)
      have hz4 := (hi_lo a8 a9 (hb _ (by simp)) (hb _ (by simp))).2.2.2.1
        (by have := hz 4 (by omega) (by omega); rw [e] at this; simpa using this)
      have h12 : a12 ≤ 255 := by have := hb a12 (by simp); omega
      have h13 : a13 ≤ 255 := by have := hb a13 (by simp); omega
      have h14 : a14 ≤ 255 := by have := hb a14 (by simp); omega
      have h15 : a15 ≤ 255 := by have := hb a15 (by simp); omega
      have hdl := dotted_length a12 a13 a14 a15 h12 h13 h14 h15
      have hsrc : [a0, a1, a2, a3, a4, a5, a6, a7, a8, a9, a10, a11, a12, a13, a14, a15] =
          [a0, a1, a2, a3, a4, a5, a6, a7, a8, a9, a10, a11] ++ [a12, a13, a14, a15] := rfl
      rcases hn with hn | ⟨hn, hw5⟩
      · subst hn
        have hz5 := (hi_lo a10 a11 (hb _ (by simp)) (hb _ (by simp))).2.2.2.1
          (by have := hz 5 (by omega) (by omega); rw [e] at this; simpa using this)
        refine ⟨':' :: ':' :: dotted a12 a13 a14 a15, ?_, ?_, ?_⟩
        · intro size
          unfold inet_ntop6
          simp only [hbest]
          rw [e, hsrc, inet_ntop6_loop_compat a12 a13 a14 a15
            [a0, a1, a2, a3, a4, a5, a6, a7, a8, a9, a10, a11] _ _ _ _ _ _ _ _ rfl
            h12 h13 h14 h15]
          simp
        · rw [inet_pton6_compat a12 a13 a14 a15 h12 h13 h14 h15]
          rw [hz0.1, hz0.2, hz1.1, hz1.2, hz2.1, hz2.2, hz3.1, hz3.2, hz4.1, hz4.2,
            hz5.1, hz5.2]
          rfl
        · simp only [List.length_cons]; omega
      · subst hn
        have hf := (hi_lo a10 a11 (hb _ (by simp)) (hb _ (by simp))).2.2.2.2 hw5
        refine ⟨':' :: ':' :: (fmt_x ((a10 <<< 8) ||| a11) ++ ':' :: dotted a12 a13 a14 a15),
          ?_, ?_, ?_⟩
        · intro size
          unfold inet_ntop6
          simp only [hbest]
          rw [e, hsrc, inet_ntop6_loop_mapped a12 a13 a14 a15
            [a0, a1, a2, a3, a4, a5, a6, a7, a8, a9, a10, a11] _ _ _ _ _ _ _ _ rfl hw5
            h12 h13 h14 h15]
          simp
        · rw [hw5, inet_pton6_mapped a12 a13 a14 a15 h12 h13 h14 h15]
          rw [hz0.1, hz0.2, hz1.1, hz1.2, hz2.1, hz2.2, hz3.1, hz3.2, hz4.1, hz4.2,
            hf.1, hf.2]
          rfl
        · have := fmt_x_length_word ((a10 <<< 8) ||| a11) (by omega)
          simp only [List.length_cons, List.length_append]; omega
    · have htext := inet_ntop6_loop_gap
        [a0, a1, a2, a3, a4, a5, a6, a7, a8, a9, a10, a11, a12, a13, a14, a15]
        ((a0 <<< 8) ||| a1) ((a2 <<< 8) ||| a3) ((a4 <<< 8) ||| a5) ((a6 <<< 8) ||| a7)
        ((a8 <<< 8) ||| a9) ((a10 <<< 8) ||| a11) ((a12 <<< 8) ||| a13) ((a14 <<< 8) ||| a15)
        b n hbn hn2 hemb
      rw [← e] at htext
      have hpre : ∀ w ∈ List.take b (words16
          [a0, a1, a2, a3, a4, a5, a6, a7, a8, a9, a10, a11, a12, a13, a14, a15]),
          w < 65536 := fun w hw => hwlt w (List.mem_of_mem_take hw)
      have hpost : ∀ w ∈ List.drop (b + n) (words16
          [a0, a1, a2, a3, a4, a5, a6, a7, a8, a9, a10, a11, a12, a13, a14, a15]),
          w < 65536 := fun w hw => hwlt w (List.mem_of_mem_drop hw)
      refine ⟨groups (List.take b (words16
          [a0, a1, a2, a3, a4, a5, a6, a7, a8, a9, a10, a11, a12, a13, a14, a15])) ++
        ':' :: ':' :: groups (List.drop (b + n) (words16
          [a0, a1, a2, a3, a4, a5, a6, a7, a8, a9, a10, a11, a12, a13, a14, a15])), ?_, ?_, ?_⟩
      · intro size
        unfold inet_ntop6
        simp only [hbest]
        cases hloop : inet_ntop6_loop
            [a0, a1, a2, a3, a4, a5, a6, a7, a8, a9, a10, a11, a12, a13, a14, a15]
            (words16 [a0, a1, a2, a3, a4, a5, a6, a7, a8, a9, a10, a11, a12, a13, a14, a15])
            (some (b, n)) 8 0 [] with
        | none => rw [hloop] at htext; simp at htext
        | some tp =>
          rw [hloop] at htext
          simp only [Option.map_some', Option.some.injEq] at htext
          simp only [Option.isSome_some, Option.getD_some, true_and]
          rw [htext]
      · rw [inet_pton6_groups_gap _ _ hpre hpost
          (by simp only [List.length_take, List.length_drop, hwl]; omega)]
        have hsplit := zero_run_split _ b n hzr
        have hlen : 16 - 2 * (List.take b (words16
            [a0, a1, a2, a3, a4, a5, a6, a7, a8, a9, a10, a11, a12, a13, a14, a15])).length -
            2 * (List.drop (b + n) (words16
            [a0, a1, a2, a3, a4, a5, a6, a7, a8, a9, a10, a11, a12, a13, a14, a15])).length
            = 2 * n := by
          simp only [List.length_take, List.length_drop, hwl]; omega
        rw [hlen, ← word_bytes_zeros, ← word_bytes_append, ← word_bytes_append, ← hsplit, hwb]
      · have l1 := groups_length _ hpre
        have l2 := groups_length _ hpost
        simp only [List.length_take, List.length_drop, hwl] at l1 l2
        simp only [List.length_append, List.length_cons]
        omega

/-- Reading back what `inet_ntop6` writes: for sixteen bytes `a`, when
`inet_ntop6` yields the text `x`, `inet_pton6` accepts `x` and yields `a`. -/
theorem inet_pton6_ntop6 (a : List Nat) (size : Nat) (x : List Char) (hl : a.length = 16)
    (hb : ∀ b ∈ a, b < 256) (h : inet_ntop6 a size = some x) : inet_pton6 x = some a := by
  obtain ⟨T, h1, h2, _⟩ := inet_ntop6_text a hl hb
  rw [h1 size] at h
  split_ifs at h
  simp only [Option.some.injEq] at h
  subst h
  exact h2

/-- With room for `INET6_ADDRSTRLEN` characters `inet_ntop6` renders every
sixteen bytes. -/
theorem inet_ntop6_total (a : List Nat) (size : Nat) (hl : a.length = 16)
    (hb : ∀ b ∈ a, b < 256) (hs : INET6_ADDRSTRLEN ≤ size) :
    ∃ x, inet_ntop6 a size = some x ∧ x.length ≤ 45 ∧ inet_pton6 x = some a := by
  obtain ⟨T, h1, h2, h3⟩ := inet_ntop6_text a hl hb
  refine ⟨T, ?_, h3, h2⟩
  rw [h1 size, if_neg]
  unfold INET6_ADDRSTRLEN at hs
  omega

/-! ### `sockaddr2str` on well-formed records -/

theorem dec_value_fmt_u (p : Nat) : dec_value (fmt_u p) = p := by
  have h1 := strtoul_digits_fmt_u p []
  rw [List.append_nil, strtoul_digits_spec, strtoul_digits] at h1
  rw [List.takeWhile_eq_self_iff.2 (fmt_u_isDigit p)] at h1
  exact (Prod.mk.inj h1).1

theorem sockaddr2str_v4 (addr : sockaddr_storage) (a b c d p : Nat) (ha : a ≤ 255)
    (hb : b ≤ 255) (hc : c ≤ 255) (hd : d ≤ 255) (hp : p ≤ 65535) :
    sockaddr2str { addr with sin_addr := [a, b, c, d], sin_port := htons p,
                             ss_family := AF_INET } =
      some (dotted a b c d ++ ':' :: fmt_u p) := by
  have hl := dotted_length a b c d ha hb hc hd
  have hpl := fmt_u_length_u16 p (by omega)
  unfold sockaddr2str
  simp only [if_true, INET6_ADDRSTRLEN]
  rw [inet_ntop4_dotted a b c d _ ha hb hc hd (by omega)]
  simp only [ntohs_htons p (by omega)]
  rw [snprintf_fits _ _ (by simp only [List.length_cons]; omega)]

theorem inet_ntop6_size (a : List Nat) (s s2 : Nat) (x : List Char)
    (h : inet_ntop6 a s = some x) (hs : s ≤ s2) :
    inet_ntop6 a s2 = some x ∧ x.length < s := by
  unfold inet_ntop6 at h ⊢
  simp only at h ⊢
  cases hloop : inet_ntop6_loop a (words16 a) (best_of (words16 a)) 8 0 [] with
  | none => rw [hloop] at h; simp at h
  | some tp =>
    rw [hloop] at h
    simp only at h ⊢
    generalize (if (best_of (words16 a)).isSome = true ∧
        ((best_of (words16 a)).getD (0, 0)).1 + ((best_of (words16 a)).getD (0, 0)).2 = 8
        then tp ++ [':'] else tp) = tmp at h ⊢
    by_cases h1 : tmp.length ≥ s
    · rw [if_pos h1] at h
      exact absurd h (by simp)
    · rw [if_neg h1] at h
      simp only [Option.some.injEq] at h
      subst h
      rw [if_neg (by omega)]
      exact ⟨rfl, by omega⟩

theorem sockaddr2str_v6 (addr : sockaddr_storage) (a : List Nat) (x : List Char) (p : Nat)
    (hx : inet_ntop6 a INET6_ADDRSTRLEN = some x) (hp : p ≤ 65535) :
    sockaddr2str { addr with sin6_addr := a, sin_port := htons p, ss_family := AF_INET6 } =
      some ('[' :: (x ++ ']' :: ':' :: fmt_u p)) := by
  obtain ⟨h54, hlen⟩ := inet_ntop6_size a INET6_ADDRSTRLEN (INET6_ADDRSTRLEN + 7 + 2 - 1) x hx
    (by unfold INET6_ADDRSTRLEN; omega)
  have hpl := fmt_u_length_u16 p (by omega)
  have hne : AF_INET6 ≠ AF_INET := by decide
  unfold sockaddr2str
  simp only [hne, if_false, if_true, h54, ntohs_htons p (by omega)]
  unfold INET6_ADDRSTRLEN at hlen ⊢
  rw [snprintf_fits _ _ (by simp only [List.length_cons]; omega)]
  simp

/-- Parse after format is the identity below port 65535: a well-formed IPv4
or IPv6 record whose port is below 65535 is rendered by `sockaddr2str` as a
text from which `str_to_addr`, with any default port, fills in the same
family, address bytes and port. -/
theorem round_trip_port_below_65535 (a b c d p dp : Nat) (v : List Nat)
    (e addr : sockaddr_storage) (ha : a ≤ 255) (hb : b ≤ 255) (hc : c ≤ 255) (hd : d ≤ 255)
    (hp : p < 65535) (hv : v.length = 16) (hvb : ∀ b ∈ v, b < 256) :
    (∃ t, sockaddr2str { e with sin_addr := [a, b, c, d], sin_port := htons p,
                                 ss_family := AF_INET } = some t ∧
      (str_to_addr (some t) dp addr).ret = true ∧
      (str_to_addr (some t) dp addr).addr =
        { addr with sin_addr := [a, b, c, d], sin_port := htons p, ss_family := AF_INET }) ∧
    (∃ t, sockaddr2str { e with sin6_addr := v, sin_port := htons p,
                                 ss_family := AF_INET6 } = some t ∧
      (str_to_addr (some t) dp addr).ret = true ∧
      (str_to_addr (some t) dp addr).addr =
        { addr with sin6_addr := v, sin_port := htons p, ss_family := AF_INET6 }) := by
  constructor
  · refine ⟨_, sockaddr2str_v4 e a b c d p ha hb hc hd (by omega), ?_⟩
    have h := str_to_addr_explicit_port_v4 [] (fmt_u p) a b c d dp addr (by simp) ha hb hc hd
      (fmt_u_ne_nil p) (fmt_u_isDigit p) (by rw [dec_value_fmt_u]; exact hp)
    rw [List.nil_append, dec_value_fmt_u] at h
    rw [h]
    exact ⟨rfl, rfl⟩
  · obtain ⟨x, hx, _, hback⟩ := inet_ntop6_total v INET6_ADDRSTRLEN hv hvb (Nat.le_refl _)
    refine ⟨_, sockaddr2str_v6 e v x p hx (by omega), ?_⟩
    have h := str_to_addr_explicit_port_v6 [] x (fmt_u p) v dp addr (by simp) hback
      (fmt_u_ne_nil p) (fmt_u_isDigit p) (by rw [dec_value_fmt_u]; exact hp)
    rw [List.nil_append, dec_value_fmt_u] at h
    rw [h]
    exact ⟨rfl, rfl⟩

/-! ### The outcomes of `str_to_addr` -/

theorem str_to_addr_tail_cases (s : List Char) (port : Nat) (addr : sockaddr_storage)
    (buf : List Char) :
    (inet_pton4 s = none ∧ inet_pton6 s = none ∧
      str_to_addr_tail s port addr buf = ⟨false, addr, buf⟩) ∨
    (∃ a, inet_pton4 s = some a ∧ str_to_addr_tail s port addr buf =
      ⟨true, { addr with sin_addr := a, sin_port := htons (port % 65536),
                         ss_family := AF_INET }, buf⟩) ∨
    (∃ a, inet_pton4 s = none ∧ inet_pton6 s = some a ∧ str_to_addr_tail s port addr buf =
      ⟨true, { addr with sin6_addr := a, sin_port := htons (port % 65536),
                         ss_family := AF_INET6 }, buf⟩) := by
  unfold str_to_addr_tail
  cases h4 : inet_pton4 s with
  | some a => exact Or.inr (Or.inl ⟨a, rfl, rfl⟩)
  | none =>
    cases h6 : inet_pton6 s with
    | some a => exact Or.inr (Or.inr ⟨a, rfl, rfl, rfl⟩)
    | none => exact Or.inl ⟨rfl, rfl, rfl⟩

theorem str_to_addr_tail_buf (s : List Char) (port : Nat) (addr : sockaddr_storage)
    (buf buf2 : List Char) :
    (str_to_addr_tail s port addr buf).ret = (str_to_addr_tail s port addr buf2).ret ∧
    (str_to_addr_tail s port addr buf).addr = (str_to_addr_tail s port addr buf2).addr := by
  unfold str_to_addr_tail
  cases inet_pton4 s with
  | some a => exact ⟨rfl, rfl⟩
  | none =>
    cases inet_pton6 s with
    | some a => exact ⟨rfl, rfl⟩
    | none => exact ⟨rfl, rfl⟩

/-- Every outcome of `str_to_addr` is a failure that leaves the record alone
or the outcome of the two `inet_pton` attempts on some text. -/
theorem str_to_addr_shape (str : Option (List Char)) (d : Nat) (addr : sockaddr_storage) :
    (∃ buf, str_to_addr str d addr = ⟨false, addr, buf⟩) ∨
    (∃ s port buf, str_to_addr str d addr = str_to_addr_tail s port addr buf) := by
  unfold str_to_addr
  cases str with
  | none => exact Or.inl ⟨_, rfl⟩
  | some buf =>
    simp only
    by_cases hb : buf = []
    · rw [if_pos hb]; exact Or.inl ⟨_, rfl⟩
    · rw [if_neg hb]
      split_ifs with h1
      · split
        · exact Or.inl ⟨_, rfl⟩
        · split_ifs
          · exact Or.inl ⟨_, rfl⟩
          · exact Or.inr ⟨_, _, _, rfl⟩
          · exact Or.inr ⟨_, _, _, rfl⟩
      · split
        · split_ifs
          · exact Or.inl ⟨_, rfl⟩
          · exact Or.inr ⟨_, _, _, rfl⟩
        · exact Or.inr ⟨_, _, _, rfl⟩

/-- The record after `str_to_addr`: untouched on failure; on success the
address, the port and the family of one address family. -/
theorem str_to_addr_record (str : Option (List Char)) (d : Nat) (addr : sockaddr_storage) :
    ((str_to_addr str d addr).ret = false ∧ (str_to_addr str d addr).addr = addr) ∨
    (∃ a port, (str_to_addr str d addr).ret = true ∧ a.length = 4 ∧ (∀ b ∈ a, b ≤ 255) ∧
      port < 65536 ∧ (str_to_addr str d addr).addr =
        { addr with sin_addr := a, sin_port := htons port, ss_family := AF_INET }) ∨
    (∃ a port, (str_to_addr str d addr).ret = true ∧ a.length = 16 ∧ (∀ b ∈ a, b < 256) ∧
      port < 65536 ∧ (str_to_addr str d addr).addr =
        { addr with sin6_addr := a, sin_port := htons port, ss_family := AF_INET6 }) := by
  rcases str_to_addr_shape str d addr with ⟨buf, h⟩ | ⟨s, port, buf, h⟩
  · rw [h]; exact Or.inl ⟨rfl, rfl⟩
  · rw [h]
    rcases str_to_addr_tail_cases s port addr buf with ⟨_, _, h2⟩ | ⟨a, h4, h2⟩ | ⟨a, _, h6, h2⟩
    · rw [h2]; exact Or.inl ⟨rfl, rfl⟩
    · rw [h2]
      obtain ⟨hl, hb⟩ := inet_pton4_bytes s a h4
      exact Or.inr (Or.inl ⟨a, port % 65536, rfl, hl, hb, Nat.mod_lt _ (by omega), rfl⟩)
    · rw [h2]
      obtain ⟨hl, hb⟩ := inet_pton6_bytes s a h6
      exact Or.inr (Or.inr ⟨a, port % 65536, rfl, hl, hb, Nat.mod_lt _ (by omega), rfl⟩)

/-! ### The separators `str_to_addr` looks for -/

theorem scan_loop_spec : ∀ (s : List Char) (i : Nat) (v4 : Bool) (colon : Option Nat),
    scan_loop s i v4 colon =
      (v4 || (colon.isNone && dot_before_colon s),
        match before_last_colon s with
        | some r => some (i + r.length)
        | none => colon) := by
  intro s
  induction s with
  | nil => intro i v4 colon; simp [scan_loop, dot_before_colon, before_last_colon]
  | cons c cs ih =>
    intro i v4 colon
    rw [scan_loop, ih, dot_before_colon, before_last_colon]
    by_cases hd : c = '.'
    · have hc : c ≠ ':' := by rw [hd]; decide
      cases colon <;> cases hb : before_last_colon cs <;> simp [hd, hc] <;> omega
    · by_cases hc : c = ':'
      · cases colon <;> cases hb : before_last_colon cs <;> simp [hd, hc] <;> omega
      · cases colon <;> cases hb : before_last_colon cs <;> simp [hd, hc] <;> omega

theorem before_last_colon_none : ∀ s : List Char, before_last_colon s = none → ':' ∉ s := by
  intro s
  induction s with
  | nil => intro _; simp
  | cons c cs ih =>
    intro h
    rw [before_last_colon] at h
    cases hb : before_last_colon cs with
    | some r => rw [hb] at h; simp at h
    | none =>
      rw [hb] at h
      simp only at h
      split_ifs at h with hc
      intro hm
      rcases List.mem_cons.1 hm with e | e
      · exact hc e.symm
      · exact ih hb e

theorem before_last_colon_some : ∀ (s r : List Char), before_last_colon s = some r →
    ∃ p, s = r ++ ':' :: p ∧ ':' ∉ p := by
  intro s
  induction s with
  | nil => intro r h; simp [before_last_colon] at h
  | cons c cs ih =>
    intro r h
    rw [before_last_colon] at h
    cases hb : before_last_colon cs with
    | some r2 =>
      rw [hb] at h
      simp only [Option.some.injEq] at h
      obtain ⟨p, hp, hnp⟩ := ih r2 hb
      exact ⟨p, by rw [← h, hp]; rfl, hnp⟩
    | none =>
      rw [hb] at h
      simp only at h
      split_ifs at h with hc
      simp only [Option.some.injEq] at h
      exact ⟨cs, by rw [← h, hc]; rfl, before_last_colon_none cs hb⟩

theorem strstr_bracket_none : ∀ x : List Char, strstr_bracket x = none ↔ ']' ∉ x := by
  intro x
  induction x with
  | nil => simp [strstr_bracket]
  | cons c cs ih =>
    rw [strstr_bracket]
    by_cases hc : c = ']'
    · simp [hc]
    · rw [if_neg hc]
      cases hs : strstr_bracket cs with
      | none =>
        have := ih.1 hs
        simp only [true_iff]
        intro hm
        rcases List.mem_cons.1 hm with e | e
        · exact hc e.symm
        · exact this e
      | some r =>
        simp only [false_iff, not_not, reduceCtorEq]
        have : ¬ ']' ∉ cs := fun hn => by rw [ih.2 hn] at hs; exact Option.noConfusion hs
        exact List.mem_cons_of_mem _ (not_not.1 this)

theorem bracket_split (r : List Char) (h : ']' ∈ r) :
    ∃ x rest, r = x ++ ']' :: rest ∧ ']' ∉ x := by
  induction r with
  | nil => simp at h
  | cons c cs ih =>
    by_cases hc : c = ']'
    · exact ⟨[], cs, by rw [hc]; rfl, by simp⟩
    · rcases List.mem_cons.1 h with e | e
      · exact absurd e.symm hc
      · obtain ⟨x, rest, hx, hn⟩ := ih e
        refine ⟨c :: x, rest, by rw [hx]; rfl, ?_⟩
        intro hm
        rcases List.mem_cons.1 hm with e2 | e2
        · exact hc e2.symm
        · exact hn e2

/-- The forms of a trimmed text, as `str_to_addr` tells them apart. -/
theorem trimmed_cases (t : List Char) :
    t = [] ∨
    (∃ x, t = '[' :: x ∧ ']' ∉ x) ∨
    (∃ x p, t = '[' :: (x ++ ']' :: ':' :: p) ∧ ']' ∉ x) ∨
    (∃ x rest, t = '[' :: (x ++ ']' :: rest) ∧ ']' ∉ x ∧ rest.head? ≠ some ':') ∨
    (t.head? ≠ some '[' ∧ ∃ a p, t = a ++ ':' :: p ∧ ':' ∉ p ∧ dot_before_colon t = true ∧
      before_last_colon t = some a ∧ scan_loop t 0 false none = (true, some a.length)) ∨
    (t ≠ [] ∧ t.head? ≠ some '[' ∧
      (dot_before_colon t = false ∨ before_last_colon t = none) ∧
      ((scan_loop t 0 false none).1 = false ∨ (scan_loop t 0 false none).2 = none)) := by
  cases t with
  | nil => exact Or.inl rfl
  | cons c r =>
    by_cases hc : c = '['
    · subst hc
      by_cases hb : ']' ∈ r
      · obtain ⟨x, rest, hr, hx⟩ := bracket_split r hb
        subst hr
        cases rest with
        | nil => exact Or.inr (Or.inr (Or.inr (Or.inl ⟨x, [], rfl, hx, by simp⟩)))
        | cons c2 p =>
          by_cases h2 : c2 = ':'
          · subst h2
            exact Or.inr (Or.inr (Or.inl ⟨x, p, rfl, hx⟩))
          · exact Or.inr (Or.inr (Or.inr (Or.inl ⟨x, c2 :: p, rfl, hx, by simpa using h2⟩)))
      · exact Or.inr (Or.inl ⟨r, rfl, hb⟩)
    · have hh : (c :: r).head? ≠ some '[' := by simpa using hc
      have hspec := scan_loop_spec (c :: r) 0 false none
      cases hd : dot_before_colon (c :: r) with
      | false =>
        refine Or.inr (Or.inr (Or.inr (Or.inr (Or.inr ⟨by simp, hh, Or.inl rfl, Or.inl ?_⟩))))
        rw [hspec, hd]; rfl
      | true =>
        cases hb : before_last_colon (c :: r) with
        | none =>
          refine Or.inr (Or.inr (Or.inr (Or.inr (Or.inr ⟨by simp, hh, Or.inr rfl, Or.inr ?_⟩))))
          rw [hspec, hb]
        | some a =>
          obtain ⟨p, hp, hnp⟩ := before_last_colon_some _ a hb
          refine Or.inr (Or.inr (Or.inr (Or.inr (Or.inl ⟨hh, a, p, hp, hnp, rfl, rfl, ?_⟩))))
          rw [hspec, hd, hb]
          simp

/-- Bracketed text without a closing bracket. -/
theorem str_to_addr_bracket_open (w x : List Char) (d : Nat) (addr : sockaddr_storage)
    (hw : ∀ c ∈ w, is_blank c = true) (hx : ']' ∉ x) :
    str_to_addr (some (w ++ '[' :: x)) d addr = ⟨false, addr, w ++ '[' :: x⟩ := by
  obtain ⟨h1, h2⟩ := trim_takeWhile w ('[' :: x) hw
    (fun c hc => by simp at hc; subst hc; decide)
  have hbuf : w ++ '[' :: x ≠ [] := by simp
  unfold str_to_addr
  simp only [hbuf, if_false, h1, h2, List.head?_cons, if_true, List.tail_cons,
    (strstr_bracket_none x).2 hx]

/-- Text of white space only. -/
theorem str_to_addr_blank (w : List Char) (d : Nat) (addr : sockaddr_storage)
    (hw : ∀ c ∈ w, is_blank c = true) :
    (str_to_addr (some w) d addr).ret = false ∧ (str_to_addr (some w) d addr).addr = addr ∧
      (str_to_addr (some w) d addr).str = w := by
  by_cases hn : w = []
  · subst hn; exact ⟨rfl, rfl, rfl⟩
  · obtain ⟨h1, h2⟩ := trim_takeWhile w [] hw (fun c hc => by simp at hc)
    rw [List.append_nil] at h1 h2
    unfold str_to_addr
    simp only [hn, if_false, h1, h2]
    exact ⟨rfl, rfl, rfl⟩

/-- Every text is white space followed by a trimmed text. -/
theorem trim_split (buf : List Char) :
    ∃ w t, buf = w ++ t ∧ (∀ c ∈ w, is_blank c = true) ∧
      (∀ c, t.head? = some c → is_blank c = false) ∧ t = buf.dropWhile is_blank := by
  refine ⟨buf.takeWhile is_blank, buf.dropWhile is_blank,
    (List.takeWhile_append_dropWhile _ _).symm, ?_, ?_, rfl⟩
  · intro c hc
    exact List.mem_takeWhile_imp hc
  · intro c hc
    have := List.head?_dropWhile_not is_blank buf
    rw [hc] at this
    simpa using this

theorem trimmed_head (t : List Char) (ht : ∀ c, t.head? = some c → is_blank c = false)
    (hb : t.head? ≠ some '[') :
    ∀ c, t.head? = some c → is_blank c = false ∧ c ≠ '[' := by
  intro c hc
  refine ⟨ht c hc, ?_⟩
  rintro rfl
  exact hb hc

/-- The value returned and the record filled do not depend on the white space
in front of a trimmed text. -/
theorem str_to_addr_prefix (w1 w2 t : List Char) (d : Nat) (addr : sockaddr_storage)
    (h1 : ∀ c ∈ w1, is_blank c = true) (h2 : ∀ c ∈ w2, is_blank c = true)
    (ht : ∀ c, t.head? = some c → is_blank c = false) (hne : t ≠ []) :
    (str_to_addr (some (w1 ++ t)) d addr).ret = (str_to_addr (some (w2 ++ t)) d addr).ret ∧
    (str_to_addr (some (w1 ++ t)) d addr).addr = (str_to_addr (some (w2 ++ t)) d addr).addr := by
  rcases trimmed_cases t with h | ⟨x, rfl, hx⟩ | ⟨x, p, rfl, hx⟩ | ⟨x, rest, rfl, hx, hr⟩ |
    ⟨hb, a, p, hap, hp, _, _, hscan⟩ | ⟨_, hb, _, hscan⟩
  · exact absurd h hne
  · rw [str_to_addr_bracket_open w1 x d addr h1 hx, str_to_addr_bracket_open w2 x d addr h2 hx]
    exact ⟨rfl, rfl⟩
  · rw [str_to_addr_bracket_port w1 x p d addr h1 hx,
      str_to_addr_bracket_port w2 x p d addr h2 hx]
    split_ifs
    · exact ⟨rfl, rfl⟩
    · exact str_to_addr_tail_buf _ _ _ _ _
  · rw [str_to_addr_bracket_no_port w1 x rest d addr h1 hx hr,
      str_to_addr_bracket_no_port w2 x rest d addr h2 hx hr]
    exact str_to_addr_tail_buf _ _ _ _ _
  · subst hap
    have hs := trimmed_head _ ht hb
    rw [str_to_addr_port w1 a p d addr h1 hs hscan, str_to_addr_port w2 a p d addr h2 hs hscan]
    split_ifs
    · exact ⟨rfl, rfl⟩
    · exact str_to_addr_tail_buf _ _ _ _ _
  · have hs := trimmed_head _ ht hb
    rw [str_to_addr_no_port w1 t d addr h1 hne hs hscan,
      str_to_addr_no_port w2 t d addr h2 hne hs hscan]
    exact str_to_addr_tail_buf _ _ _ _ _

theorem takeWhile_bracket (x rest : List Char) (hx : ']' ∉ x) :
    (x ++ ']' :: rest).takeWhile (fun c => c ≠ ']') = x := by
  induction x with
  | nil => simp [List.takeWhile]
  | cons c cs ih =>
    have hc : c ≠ ']' := fun e => hx (by simp [e])
    have := ih (fun e => hx (List.mem_cons_of_mem _ e))
    rw [List.cons_append, List.takeWhile_cons, this]
    simp [hc]

theorem str_to_addr_tail_invalid (s : List Char) (port : Nat) (addr : sockaddr_storage)
    (buf : List Char) (h4 : inet_pton4 s = none) (h6 : inet_pton6 s = none) :
    str_to_addr_tail s port addr buf = ⟨false, addr, buf⟩ := by
  unfold str_to_addr_tail
  rw [h4, h6]

/-- A text whose address part no `inet_pton` accepts makes `str_to_addr`
fail. -/
theorem str_to_addr_invalid (text : List Char) (d : Nat) (addr : sockaddr_storage)
    (h4 : inet_pton4 (address_part text) = none)
    (h6 : inet_pton6 (address_part text) = none) :
    (str_to_addr (some text) d addr).ret = false := by
  obtain ⟨w, t, hbuf, hw, ht, htrim⟩ := trim_split text
  have hpart : address_part text =
      if t.head? = some '[' then t.tail.takeWhile (fun c => c ≠ ']')
      else if dot_before_colon t then (before_last_colon t).getD t else t := by
    unfold address_part
    rw [← htrim]
  rw [hpart] at h4 h6
  rw [hbuf]
  rcases trimmed_cases t with h | ⟨x, rfl, hx⟩ | ⟨x, p, rfl, hx⟩ | ⟨x, rest, rfl, hx, hr⟩ |
    ⟨hb, a, p, hap, hp, hd, hbl, hscan⟩ | ⟨hne, hb, hsep, hscan⟩
  · subst h
    rw [List.append_nil]
    exact (str_to_addr_blank w d addr hw).1
  · rw [str_to_addr_bracket_open w x d addr hw hx]
  · rw [str_to_addr_bracket_port w x p d addr hw hx]
    simp only [List.head?_cons, if_true, List.tail_cons, takeWhile_bracket x _ hx] at h4 h6
    split_ifs
    · rfl
    · rw [str_to_addr_tail_invalid _ _ _ _ h4 h6]
  · rw [str_to_addr_bracket_no_port w x rest d addr hw hx hr,
      str_to_addr_tail_bad _ ']' _ _ _ (by simp) not_v6char_bracket]
  · have hs := trimmed_head _ ht hb
    rw [if_neg hb, hd, hbl] at h4 h6
    simp only [if_true, Option.getD_some] at h4 h6
    subst hap
    rw [str_to_addr_port w a p d addr hw hs hscan]
    split_ifs
    · rfl
    · rw [str_to_addr_tail_invalid _ _ _ _ h4 h6]
  · have hs := trimmed_head _ ht hb
    have hpt : (if dot_before_colon t = true then (before_last_colon t).getD t else t) = t := by
      rcases hsep with h | h
      · simp [h]
      · simp [h]
    rw [if_neg hb, hpt] at h4 h6
    rw [str_to_addr_no_port w t d addr hw hne hs hscan, str_to_addr_tail_invalid _ _ _ _ h4 h6]

/-- The caller's buffer after `str_to_addr`: the text as it was, or the text
with the port separator overwritten by NUL. -/
theorem str_to_addr_buffer (text : List Char) (d : Nat) (addr : sockaddr_storage) :
    (str_to_addr (some text) d addr).str = text ∨
    ∃ pre c post, text = pre ++ c :: post ∧ (c = ':' ∨ c = ']') ∧
      (str_to_addr (some text) d addr).str = pre ++ '\x00' :: post := by
  have tail_str : ∀ (s : List Char) (port : Nat) (buf : List Char),
      (str_to_addr_tail s port addr buf).str = buf := by
    intro s port buf
    unfold str_to_addr_tail
    cases inet_pton4 s with
    | some a => rfl
    | none => cases inet_pton6 s <;> rfl
  obtain ⟨w, t, hbuf, hw, ht, _⟩ := trim_split text
  rw [hbuf]
  rcases trimmed_cases t with h | ⟨x, rfl, hx⟩ | ⟨x, p, rfl, hx⟩ | ⟨x, rest, rfl, hx, hr⟩ |
    ⟨hb, a, p, hap, hp, hd, hbl, hscan⟩ | ⟨hne, hb, hsep, hscan⟩
  · subst h
    rw [List.append_nil]
    exact Or.inl (str_to_addr_blank w d addr hw).2.2
  · rw [str_to_addr_bracket_open w x d addr hw hx]
    exact Or.inl rfl
  · right
    refine ⟨w ++ '[' :: x, ']', ':' :: p, by simp, Or.inr rfl, ?_⟩
    rw [str_to_addr_bracket_port w x p d addr hw hx]
    split_ifs
    · rfl
    · exact tail_str _ _ _
  · rw [str_to_addr_bracket_no_port w x rest d addr hw hx hr]
    exact Or.inl (tail_str _ _ _)
  · right
    have hs := trimmed_head _ ht hb
    subst hap
    refine ⟨w ++ a, ':', p, by simp, Or.inl rfl, ?_⟩
    rw [str_to_addr_port w a p d addr hw hs hscan]
    split_ifs
    · rfl
    · exact tail_str _ _ _
  · have hs := trimmed_head _ ht hb
    rw [str_to_addr_no_port w t d addr hw hne hs hscan]
    exact Or.inl (tail_str _ _ _)

/-- A text with a dot before its first colon is refused by `inet_pton6`. -/
theorem inet_pton6_dot_first (a1 a2 : List Char) (h1 : ':' ∉ a1) :
    inet_pton6 (a1 ++ '.' :: a2) = none := by
  cases h : inet_pton6 (a1 ++ '.' :: a2) with
  | none => rfl
  | some l =>
    exfalso
    have hs := (inet_pton6_first_colon _ l h).2
    rw [scan_loop_append, scan_loop, scan_loop_no_colon a1 0 false none h1] at hs
    simp only [and_self, if_true] at hs
    rw [scan_loop_true] at hs
    exact Bool.noConfusion hs

/-! ### `add_sockets` -/

theorem in_addr_arpa_length (b1 b2 b3 b4 : Nat) (h1 : b1 ≤ 255) (h2 : b2 ≤ 255)
    (h3 : b3 ≤ 255) (h4 : b4 ≤ 255) :
    (fmt_u b4 ++ '.' :: fmt_u b3 ++ '.' :: fmt_u b2 ++ '.' :: fmt_u b1 ++
      ".in-addr.arpa.".toList).length ≤ 29 := by
  have l1 := fmt_u_length_byte b1 (by omega)
  have l2 := fmt_u_length_byte b2 (by omega)
  have l3 := fmt_u_length_byte b3 (by omega)
  have l4 := fmt_u_length_byte b4 (by omega)
  have : (".in-addr.arpa.".toList).length = 14 := by decide
  simp only [List.length_append, List.length_cons, this]
  omega

/-- The reverse name of a text accepted as IPv4: what `ip2ptr` returns, at
most 29 characters. -/
theorem ip2ptr_v4 (s : List Char) (q : List Nat) (h : inet_pton4 s = some q) :
    ∃ b1 b2 b3 b4, q = [b1, b2, b3, b4] ∧ b1 ≤ 255 ∧ b2 ≤ 255 ∧ b3 ≤ 255 ∧ b4 ≤ 255 ∧
      ip2ptr s = some (fmt_u b4 ++ '.' :: fmt_u b3 ++ '.' :: fmt_u b2 ++ '.' :: fmt_u b1 ++
        ".in-addr.arpa.".toList) := by
  obtain ⟨hl, hb⟩ := inet_pton4_bytes s q h
  obtain ⟨b1, b2, b3, b4, rfl⟩ := list_length_4 q hl
  have h1 := hb b1 (by simp)
  have h2 := hb b2 (by simp)
  have h3 := hb b3 (by simp)
  have h4 := hb b4 (by simp)
  refine ⟨b1, b2, b3, b4, rfl, h1, h2, h3, h4, ?_⟩
  have hlen := in_addr_arpa_length b1 b2 b3 b4 h1 h2 h3 h4
  unfold ip2ptr
  rw [h]
  simp only [List.getD_cons_zero, List.getD_cons_succ]
  rw [snprintf_fits _ _ (by omega)]

/-- The reverse name of a text accepted as IPv6: what `ip2ptr` returns, 73
characters. -/
theorem ip2ptr_v6 (x : List Char) (a : List Nat) (h : inet_pton6 x = some a) :
    a.length = 16 ∧ (∀ b ∈ a, b < 256) ∧ ip2ptr x = some (ip6_arpa_labels a) ∧
      (ptr_nibbles a).flatMap (fun n => fmt_x n ++ ['.']) ++ "ip6.arpa.".toList =
        ip6_arpa_labels a := by
  obtain ⟨hl, hb⟩ := inet_pton6_bytes x a h
  refine ⟨hl, hb, ?_, ptr_nibbles_labels a hl hb⟩
  unfold ip2ptr
  rw [inet_pton6_not_pton4 x a h, h]
  simp only
  rw [ptr_nibbles_labels a hl hb, snprintf_fits _ _ (by rw [ip6_arpa_labels_length]; omega)]

theorem inet_ntop4_total (q : List Nat) (size : Nat) (hl : q.length = 4)
    (hb : ∀ b ∈ q, b ≤ 255) (hs : 16 ≤ size) :
    ∃ x, inet_ntop4 q size = some x ∧ x.length ≤ 15 := by
  obtain ⟨b1, b2, b3, b4, rfl⟩ := list_length_4 q hl
  have h1 := hb b1 (by simp)
  have h2 := hb b2 (by simp)
  have h3 := hb b3 (by simp)
  have h4 := hb b4 (by simp)
  exact ⟨dotted b1 b2 b3 b4, inet_ntop4_dotted b1 b2 b3 b4 size h1 h2 h3 h4 hs,
    dotted_length b1 b2 b3 b4 h1 h2 h3 h4⟩

theorem ntohs_lt (b : Nat × Nat) : ntohs b < 65536 := by
  unfold ntohs
  have h1 := Nat.mod_lt b.1 (show 256 > 0 by omega)
  have h2 := Nat.mod_lt b.2 (show 256 > 0 by omega)
  omega

/-! ### Reading a reverse name back -/

theorem read_label_split : ∀ (l rest : List Char), '.' ∉ l →
    read_label (l ++ '.' :: rest) = (l, rest) := by
  intro l
  induction l with
  | nil => intro rest _; simp [read_label]
  | cons c cs ih =>
    intro rest h
    have hc : c ≠ '.' := fun e => h (by simp [e])
    have := ih rest (fun e => h (List.mem_cons_of_mem _ e))
    rw [List.cons_append, read_label, if_neg hc, this]

theorem fmt_u_no_dot (b : Nat) : '.' ∉ fmt_u b := by
  intro h
  have := fmt_u_isDigit b '.' h
  revert this; decide

theorem in_addr_arpa_decode_label (b1 b2 b3 b4 : Nat) :
    in_addr_arpa_decode (fmt_u b4 ++ '.' :: fmt_u b3 ++ '.' :: fmt_u b2 ++ '.' :: fmt_u b1 ++
      ".in-addr.arpa.".toList) = [b1, b2, b3, b4] := by
  have e : fmt_u b4 ++ '.' :: fmt_u b3 ++ '.' :: fmt_u b2 ++ '.' :: fmt_u b1 ++
      ".in-addr.arpa.".toList =
      fmt_u b4 ++ '.' :: (fmt_u b3 ++ '.' :: (fmt_u b2 ++ '.' :: (fmt_u b1 ++ '.' ::
        "in-addr.arpa.".toList))) := by
    have : ".in-addr.arpa.".toList = '.' :: "in-addr.arpa.".toList := by decide
    rw [this]
    simp only [List.append_assoc, List.cons_append]
  rw [e]
  simp only [in_addr_arpa_decode, read_labels, read_label_split _ _ (fmt_u_no_dot _),
    List.map_cons, List.map_nil, dec_value_fmt_u]
  rfl

theorem digitChar_ne_dot : ∀ n : Nat, n < 16 → Nat.digitChar n ≠ '.' := by
  decide

theorem read_label_low (b : Nat) (rest : List Char) :
    read_label (Nat.digitChar (b % 16) :: '.' :: rest) = ([Nat.digitChar (b % 16)], rest) := by
  have h := digitChar_ne_dot (b % 16) (Nat.mod_lt _ (by omega))
  have hd : ('.' : Char) = '.' := rfl
  rw [read_label, if_neg h, read_label, if_pos hd]

theorem read_label_high (b : Nat) (rest : List Char) (hb : b < 256) :
    read_label (Nat.digitChar (b / 16) :: '.' :: rest) = ([Nat.digitChar (b / 16)], rest) := by
  have h := digitChar_ne_dot (b / 16) (by omega)
  have hd : ('.' : Char) = '.' := rfl
  rw [read_label, if_neg h, read_label, if_pos hd]

theorem hex_low (b : Nat) : hex_digit_value (Nat.digitChar (b % 16)) = some (b % 16) :=
  digitChar_hex _ (Nat.mod_lt _ (by omega))

theorem hex_high (b : Nat) (hb : b < 256) :
    hex_digit_value (Nat.digitChar (b / 16)) = some (b / 16) :=
  digitChar_hex _ (by omega)

theorem ip6_arpa_decode_label (a : List Nat) (hl : a.length = 16) (hb : ∀ b ∈ a, b < 256) :
    ip6_arpa_decode (ip6_arpa_labels a) = a := by
  obtain ⟨a0, a1, a2, a3, a4, a5, a6, a7, a8, a9, a10, a11, a12, a13, a14, a15, rfl⟩ :=
    list_length_16 a hl
  have h0 := hb a0 (by simp)
  have h1 := hb a1 (by simp)
  have h2 := hb a2 (by simp)
  have h3 := hb a3 (by simp)
  have h4 := hb a4 (by simp)
  have h5 := hb a5 (by simp)
  have h6 := hb a6 (by simp)
  have h7 := hb a7 (by simp)
  have h8 := hb a8 (by simp)
  have h9 := hb a9 (by simp)
  have h10 := hb a10 (by simp)
  have h11 := hb a11 (by simp)
  have h12 := hb a12 (by simp)
  have h13 := hb a13 (by simp)
  have h14 := hb a14 (by simp)
  have h15 := hb a15 (by simp)
  have e : ip6_arpa_labels [a0, a1, a2, a3, a4, a5, a6, a7, a8, a9, a10, a11, a12, a13, a14, a15]
      = Nat.digitChar (a15 % 16) :: '.' :: Nat.digitChar (a15 / 16) :: '.' ::
        Nat.digitChar (a14 % 16) :: '.' :: Nat.digitChar (a14 / 16) :: '.' ::
        Nat.digitChar (a13 % 16) :: '.' :: Nat.digitChar (a13 / 16) :: '.' ::
        Nat.digitChar (a12 % 16) :: '.' :: Nat.digitChar (a12 / 16) :: '.' ::
        Nat.digitChar (a11 % 16) :: '.' :: Nat.digitChar (a11 / 16) :: '.' ::
        Nat.digitChar (a10 % 16) :: '.' :: Nat.digitChar (a10 / 16) :: '.' ::
        Nat.digitChar (a9 % 16) :: '.' :: Nat.digitChar (a9 / 16) :: '.' ::
        Nat.digitChar (a8 % 16) :: '.' :: Nat.digitChar (a8 / 16) :: '.' ::
        Nat.digitChar (a7 % 16) :: '.' :: Nat.digitChar (a7 / 16) :: '.' ::
        Nat.digitChar (a6 % 16) :: '.' :: Nat.digitChar (a6 / 16) :: '.' ::
        Nat.digitChar (a5 % 16) :: '.' :: Nat.digitChar (a5 / 16) :: '.' ::
        Nat.digitChar (a4 % 16) :: '.' :: Nat.digitChar (a4 / 16) :: '.' ::
        Nat.digitChar (a3 % 16) :: '.' :: Nat.digitChar (a3 / 16) :: '.' ::
        Nat.digitChar (a2 % 16) :: '.' :: Nat.digitChar (a2 / 16) :: '.' ::
        Nat.digitChar (a1 % 16) :: '.' :: Nat.digitChar (a1 / 16) :: '.' ::
        Nat.digitChar (a0 % 16) :: '.' :: Nat.digitChar (a0 / 16) :: '.' ::
        "ip6.arpa.".toList := rfl
  have hr : List.range 16 = [0, 1, 2, 3, 4, 5, 6, 7, 8, 9, 10, 11, 12, 13, 14, 15] := by decide
  rw [e]
  simp only [ip6_arpa_decode, read_labels, read_label_low,
    read_label_high _ _ h0, read_label_high _ _ h1, read_label_high _ _ h2,
    read_label_high _ _ h3, read_label_high _ _ h4, read_label_high _ _ h5,
    read_label_high _ _ h6, read_label_high _ _ h7, read_label_high _ _ h8,
    read_label_high _ _ h9, read_label_high _ _ h10, read_label_high _ _ h11,
    read_label_high _ _ h12, read_label_high _ _ h13, read_label_high _ _ h14,
    read_label_high _ _ h15, List.map_cons, List.map_nil, List.head?_cons, Option.bind_some,
    Option.some_bind, hex_low,
    hex_high _ h0, hex_high _ h1, hex_high _ h2, hex_high _ h3, hex_high _ h4, hex_high _ h5,
    hex_high _ h6, hex_high _ h7, hex_high _ h8, hex_high _ h9, hex_high _ h10,
    hex_high _ h11, hex_high _ h12, hex_high _ h13, hex_high _ h14, hex_high _ h15,
    Option.getD_some, hr]
  simp only [List.reverse_cons, List.reverse_nil, List.nil_append, List.cons_append,
    List.map_cons, List.map_nil, Nat.mul_zero, List.getD_cons_zero, List.getD_cons_succ,
    Nat.div_add_mod']

/-! ### The port text and the buffer after `str_to_addr` -/

/-- When `strtoul` reads a text to its end: the text is empty, or what is left
of it after the white space and the sign is a non-empty run of decimal
digits. -/
theorem strtoul_reads_all_iff (p : List Char) :
    (strtoul p).2 = [] ↔
      p = [] ∨ (strtoul_skip p ≠ [] ∧ ∀ c ∈ strtoul_skip p, c.isDigit = true) := by
  unfold strtoul
  cases hu : strtoul_skip p with
  | nil => simp
  | cons c cs =>
    have hp : p ≠ [] := strtoul_skip_nil p (by rw [hu]; simp)
    by_cases hc : c.isDigit = true
    · have hd : (strtoul_digits (c :: cs) 0).2 = (c :: cs).dropWhile Char.isDigit := by
        rw [strtoul_digits_spec]
      simp only [hc, if_true]
      have key : (strtoul_digits (c :: cs) 0).2 = [] ↔
          (p = [] ∨ (c :: cs ≠ [] ∧ ∀ c2 ∈ c :: cs, c2.isDigit = true)) := by
        rw [hd, List.dropWhile_eq_nil_iff]
        simp [hp]
      split_ifs <;> exact key
    · simp only [hc]
      simp [hp, hc]

theorem set_at_length (pre post : List Char) (c z : Char) :
    (pre ++ c :: post).set pre.length z = pre ++ z :: post := by
  induction pre with
  | nil => rfl
  | cons a as ih => simp [List.set, ih]

theorem get_at_length (pre post : List Char) (c : Char) :
    (pre ++ c :: post)[pre.length]? = some c := by
  induction pre with
  | nil => simp
  | cons a as ih => simpa using ih

theorem str_to_addr_tail_str (s : List Char) (port : Nat) (addr : sockaddr_storage)
    (buf : List Char) : (str_to_addr_tail s port addr buf).str = buf := by
  unfold str_to_addr_tail
  cases inet_pton4 s with
  | some a => rfl
  | none => cases inet_pton6 s <;> rfl

theorem port_separator_trim (w t : List Char) (hw : ∀ c ∈ w, is_blank c = true)
    (ht : ∀ c, t.head? = some c → is_blank c = false) :
    port_separator (w ++ t) =
      if t.head? = some '[' then
        if (t.tail.drop (t.tail.takeWhile (fun c => c ≠ ']')).length).take 2 = [']', ':'] then
          some (w.length + 1 + (t.tail.takeWhile (fun c => c ≠ ']')).length)
        else none
      else if dot_before_colon t then
        match before_last_colon t with
        | some a => some (w.length + a.length)
        | none => none
      else none := by
  obtain ⟨h1, h2⟩ := trim_takeWhile w t hw ht
  have e : is_blank = fun c => (c = ' ' || c = '\t') := rfl
  unfold port_separator
  rw [e, h1, h2]

/-- The place of the port separator, form by form. -/
theorem port_separator_cases (w t : List Char) (hw : ∀ c ∈ w, is_blank c = true)
    (ht : ∀ c, t.head? = some c → is_blank c = false) :
    (t = [] → port_separator (w ++ t) = none) ∧
    (∀ x, t = '[' :: x → ']' ∉ x → port_separator (w ++ t) = none) ∧
    (∀ x p, t = '[' :: (x ++ ']' :: ':' :: p) → ']' ∉ x →
      port_separator (w ++ t) = some ((w ++ '[' :: x).length)) ∧
    (∀ x rest, t = '[' :: (x ++ ']' :: rest) → ']' ∉ x → rest.head? ≠ some ':' →
      port_separator (w ++ t) = none) ∧
    (∀ a, t.head? ≠ some '[' → dot_before_colon t = true → before_last_colon t = some a →
      port_separator (w ++ t) = some ((w ++ a).length)) ∧
    (t.head? ≠ some '[' → (dot_before_colon t = false ∨ before_last_colon t = none) →
      port_separator (w ++ t) = none) := by
  rw [port_separator_trim w t hw ht]
  refine ⟨?_, ?_, ?_, ?_, ?_, ?_⟩
  · rintro rfl; rfl
  · rintro x rfl hx
    have h : x.takeWhile (fun c => c ≠ ']') = x := by
      rw [List.takeWhile_eq_self_iff]
      intro c hc
      simp only [ne_eq, decide_not, Bool.not_eq_eq_eq_not, Bool.not_true, decide_eq_false_iff_not]
      rintro rfl
      exact hx hc
    simp only [List.head?_cons, if_true, List.tail_cons, h, List.drop_length, List.take_nil]
    simp
  · rintro x p rfl hx
    simp only [List.head?_cons, if_true, List.tail_cons, takeWhile_bracket x _ hx,
      List.drop_left]
    simp
    omega
  · rintro x rest rfl hx hr
    simp only [List.head?_cons, if_true, List.tail_cons, takeWhile_bracket x _ hx,
      List.drop_left]
    cases rest with
    | nil => simp
    | cons c cs =>
      have : c ≠ ':' := by simpa using hr
      simp [this]
  · intro a hb hd hbl
    rw [if_neg hb, hd, hbl]
    simp
  · intro hb h
    rw [if_neg hb]
    rcases h with h | h
    · rw [h]; simp
    · rw [h]; split_ifs <;> rfl

/-- The caller's buffer after `str_to_addr`, for every text. -/
theorem str_to_addr_buffer_exact (text : List Char) (d : Nat) (addr : sockaddr_storage) :
    (str_to_addr (some text) d addr).str =
      (match port_separator text with
       | none => text
       | some i => text.set i '\x00') ∧
    (∀ i, port_separator text = some i → text[i]? = some ':' ∨ text[i]? = some ']') := by
  obtain ⟨w, t, hbuf, hw, ht, _⟩ := trim_split text
  rw [hbuf]
  obtain ⟨c1, c2, c3, c4, c5, c6⟩ := port_separator_cases w t hw ht
  rcases trimmed_cases t with h | ⟨x, h, hx⟩ | ⟨x, p, h, hx⟩ | ⟨x, rest, h, hx, hr⟩ |
    ⟨hb, a, p, hap, hp, hd, hbl, hscan⟩ | ⟨hne, hb, hsep, hscan⟩
  · rw [c1 h]
    subst h
    rw [List.append_nil]
    exact ⟨(str_to_addr_blank w d addr hw).2.2, by simp⟩
  · rw [c2 x h hx]
    subst h
    rw [str_to_addr_bracket_open w x d addr hw hx]
    exact ⟨rfl, by simp⟩
  · rw [c3 x p h hx]
    subst h
    have e : w ++ '[' :: (x ++ ']' :: ':' :: p) = (w ++ '[' :: x) ++ ']' :: ':' :: p := by simp
    constructor
    · rw [str_to_addr_bracket_port w x p d addr hw hx]
      simp only [e, set_at_length]
      split_ifs
      · rfl
      · exact str_to_addr_tail_str _ _ _ _
    · intro i hi
      cases hi
      right
      rw [e]
      exact get_at_length _ _ _
  · rw [c4 x rest h hx hr]
    subst h
    rw [str_to_addr_bracket_no_port w x rest d addr hw hx hr]
    exact ⟨str_to_addr_tail_str _ _ _ _, by simp⟩
  · rw [c5 a hb hd hbl]
    have hs := trimmed_head _ ht hb
    subst hap
    have e : w ++ (a ++ ':' :: p) = (w ++ a) ++ ':' :: p := by simp
    constructor
    · rw [str_to_addr_port w a p d addr hw hs hscan]
      simp only [e, set_at_length]
      split_ifs
      · rfl
      · exact str_to_addr_tail_str _ _ _ _
    · intro i hi
      cases hi
      left
      rw [e]
      exact get_at_length _ _ _
  · rw [c6 hb hsep]
    have hs := trimmed_head _ ht hb
    rw [str_to_addr_no_port w t d addr hw hne hs hscan]
    exact ⟨str_to_addr_tail_str _ _ _ _, by simp⟩

/-! # The claims -/

/-- C1 (round trip parse after format), code at the failing input: the IPv4
endpoint 1.2.3.4 with port 65535, which `str_to_addr` itself builds from
"1.2.3.4" with default port 65535, is rendered as "1.2.3.4:65535" by
`sockaddr2str`, and `str_to_addr` refuses that text for every default port:
the round trip fails at port 65535. -/
theorem C1_round_trip_fails_at_65535 (d : Nat) (addr : sockaddr_storage) :
    (str_to_addr (some "1.2.3.4".toList) 65535 ⟨0, (0, 0), [], []⟩).addr =
      ⟨AF_INET, htons 65535, [1, 2, 3, 4], []⟩ ∧
    ntohs (htons 65535) = 65535 ∧
    sockaddr2str ⟨AF_INET, htons 65535, [1, 2, 3, 4], []⟩ = some "1.2.3.4:65535".toList ∧
    (str_to_addr (some "1.2.3.4:65535".toList) d addr).ret = false ∧
    (str_to_addr (some "1.2.3.4:65535".toList) d addr).addr = addr := by
  refine ⟨by decide, by decide, by decide, ?_⟩
  have h := str_to_addr_port [] "1.2.3.4".toList "65535".toList d addr (by simp)
    (by intro c hc; simp at hc; subst hc; decide) (by decide)
  have hs : strtoul "65535".toList = (65535, []) := by decide
  rw [hs] at h
  have he : ([] : List Char) ++ ("1.2.3.4".toList ++ ':' :: "65535".toList)
      = "1.2.3.4:65535".toList := by decide
  rw [he] at h
  rw [h]
  simp [UINT16_MAX]

/-- C2 (bracket form without a port), what the code does: for every valid
IPv6 literal `x` and every default port, `str_to_addr` on `[x]` returns
failure and leaves the record alone, because the closing bracket is only cut
off when a port follows it. -/
theorem C2_bracket_without_port_fails (x : List Char) (a : List Nat) (d : Nat)
    (addr : sockaddr_storage) (hx : inet_pton6 x = some a) :
    str_to_addr (some ('[' :: (x ++ [']']))) d addr =
      ⟨false, addr, '[' :: (x ++ [']'])⟩ := by
  have h := str_to_addr_bracket_no_port [] x [] d addr (by simp) (v6_no_bracket x a hx)
    (by simp)
  simp only [List.nil_append] at h
  rw [h]
  exact str_to_addr_tail_bad _ ']' _ _ _ (by simp) not_v6char_bracket

/-- Witness of C2 at `[::1]` with default port 53. -/
theorem C2_bracket_without_port_fails_witness :
    inet_pton6 "::1".toList = some [0, 0, 0, 0, 0, 0, 0, 0, 0, 0, 0, 0, 0, 0, 0, 1] ∧
    str_to_addr (some "[::1]".toList) 53 ⟨0, (0, 0), [], []⟩ =
      ⟨false, ⟨0, (0, 0), [], []⟩, "[::1]".toList⟩ :=
  ⟨by decide, C2_bracket_without_port_fails "::1".toList
    [0, 0, 0, 0, 0, 0, 0, 0, 0, 0, 0, 0, 0, 0, 0, 1] 53 _ (by decide)⟩

/-- C3 (every in-range explicit port is accepted), code at the failing input:
the explicit port 65535 is refused, after an IPv4 literal and after a
bracketed IPv6 literal, for every default port. -/
theorem C3_port_65535_refused (d : Nat) (addr : sockaddr_storage) :
    (dec_value "65535".toList < 65536) ∧
    (str_to_addr (some "1.2.3.4:65535".toList) d addr).ret = false ∧
    (str_to_addr (some "[::1]:65535".toList) d addr).ret = false := by
  have hs : strtoul "65535".toList = (65535, []) := by decide
  refine ⟨by decide, ?_, ?_⟩
  · have h := str_to_addr_port [] "1.2.3.4".toList "65535".toList d addr (by simp)
      (by intro c hc; simp at hc; subst hc; decide) (by decide)
    rw [hs] at h
    have he : ([] : List Char) ++ ("1.2.3.4".toList ++ ':' :: "65535".toList)
        = "1.2.3.4:65535".toList := by decide
    rw [he] at h
    rw [h]
    simp [UINT16_MAX]
  · have h := str_to_addr_bracket_port [] "::1".toList "65535".toList d addr (by simp)
      (by decide)
    rw [hs] at h
    have he : ([] : List Char) ++ '[' :: ("::1".toList ++ ']' :: ':' :: "65535".toList)
        = "[::1]:65535".toList := by decide
    rw [he] at h
    rw [h]
    simp [UINT16_MAX]

/-- C4 as stated fails: in "1.2.3.4:+53" the text after the separator is not
made of decimal digits only, yet `str_to_addr` succeeds, with port 53. -/
theorem C4_sign_accepted :
    (∃ c ∈ "+53".toList, c.isDigit = false) ∧
    str_to_addr (some "1.2.3.4:+53".toList) 0 ⟨0, (0, 0), [], []⟩ =
      ⟨true, ⟨AF_INET, (0, 53), [1, 2, 3, 4], []⟩,
        "1.2.3.4".toList ++ '\x00' :: "+53".toList⟩ := by
  decide

/-- C4 (amended): a bad port fails the whole parse. For a text with a port
separator (`]:` after the first `]` of a bracketed text, or the last `:` of
an unbracketed text in which a `.` comes before any `:`), let `p` be the text
after the separator. If `strtoul` stops before the end of `p` (that is, by
`strtoul_reads_all_iff`, `p` is not empty and is not white space, at most one
sign and then one or more decimal digits up to its end), or if the value
`strtoul` reads from `p` is 65536 or more (a run of digits that large, or a
negated value such as that of `-1`), then `str_to_addr` returns failure and
leaves the record alone. -/
theorem C4_bad_port_fails (w x a1 a2 p : List Char) (d : Nat) (addr : sockaddr_storage)
    (hw : ∀ c ∈ w, is_blank c = true)
    (hbad : (strtoul p).2 ≠ [] ∨ 65536 ≤ (strtoul p).1) :
    (']' ∉ x →
      (str_to_addr (some (w ++ '[' :: (x ++ ']' :: ':' :: p))) d addr).ret = false ∧
      (str_to_addr (some (w ++ '[' :: (x ++ ']' :: ':' :: p))) d addr).addr = addr) ∧
    (':' ∉ a1 → ':' ∉ p →
      (∀ c, (a1 ++ '.' :: a2).head? = some c → is_blank c = false ∧ c ≠ '[') →
      (str_to_addr (some (w ++ (a1 ++ '.' :: a2 ++ ':' :: p))) d addr).ret = false ∧
      (str_to_addr (some (w ++ (a1 ++ '.' :: a2 ++ ':' :: p))) d addr).addr = addr) := by
  have hcond : (strtoul p).2 ≠ [] ∨ (strtoul p).1 ≥ UINT16_MAX := by
    rcases hbad with h | h
    · exact Or.inl h
    · right
      simp only [UINT16_MAX, ge_iff_le]
      omega
  constructor
  · intro hx
    rw [str_to_addr_bracket_port w x p d addr hw hx, if_pos hcond]
    exact ⟨rfl, rfl⟩
  · intro h1 hp hs
    have hscan := scan_loop_port a1 a2 p h1 hp
    have hs2 : ∀ c, (a1 ++ '.' :: a2 ++ ':' :: p).head? = some c →
        is_blank c = false ∧ c ≠ '[' := by
      intro c hc
      apply hs c
      cases a1 with
      | nil => simpa using hc
      | cons c1 cs => simpa using hc
    rw [str_to_addr_port w (a1 ++ '.' :: a2) p d addr hw hs2 hscan, if_pos hcond]
    exact ⟨rfl, rfl⟩

/-- Witness of C4 (amended), default port 53: the port texts `99999`,
`+70000`, ` 70000`, `-1`, `+`, ` ` after `1.2.3.4:` and `+65536` after
`[::1]:` all fail the parse. -/
theorem C4_bad_port_fails_witness :
    (str_to_addr (some "10.0.0.1:99999".toList) 53 ⟨0, (0, 0), [], []⟩).ret = false ∧
    (str_to_addr (some "1.2.3.4:+70000".toList) 53 ⟨0, (0, 0), [], []⟩).ret = false ∧
    (str_to_addr (some "1.2.3.4: 70000".toList) 53 ⟨0, (0, 0), [], []⟩).ret = false ∧
    (str_to_addr (some "1.2.3.4:-1".toList) 53 ⟨0, (0, 0), [], []⟩).ret = false ∧
    (str_to_addr (some "1.2.3.4:+".toList) 53 ⟨0, (0, 0), [], []⟩).ret = false ∧
    (str_to_addr (some "1.2.3.4: ".toList) 53 ⟨0, (0, 0), [], []⟩).ret = false ∧
    (str_to_addr (some "[::1]:+65536".toList) 53 ⟨0, (0, 0), [], []⟩).ret = false :=
  ⟨((C4_bad_port_fails [] [] "10".toList "0.0.1".toList "99999".toList 53 ⟨0, (0, 0), [], []⟩
      (by simp) (by decide)).2 (by decide) (by decide) (by decide)).1,
   ((C4_bad_port_fails [] [] "1".toList "2.3.4".toList "+70000".toList 53 ⟨0, (0, 0), [], []⟩
      (by simp) (by decide)).2 (by decide) (by decide) (by decide)).1,
   ((C4_bad_port_fails [] [] "1".toList "2.3.4".toList " 70000".toList 53 ⟨0, (0, 0), [], []⟩
      (by simp) (by decide)).2 (by decide) (by decide) (by decide)).1,
   ((C4_bad_port_fails [] [] "1".toList "2.3.4".toList "-1".toList 53 ⟨0, (0, 0), [], []⟩
      (by simp) (by decide)).2 (by decide) (by decide) (by decide)).1,
   ((C4_bad_port_fails [] [] "1".toList "2.3.4".toList "+".toList 53 ⟨0, (0, 0), [], []⟩
      (by simp) (by decide)).2 (by decide) (by decide) (by decide)).1,
   ((C4_bad_port_fails [] [] "1".toList "2.3.4".toList " ".toList 53 ⟨0, (0, 0), [], []⟩
      (by simp) (by decide)).2 (by decide) (by decide) (by decide)).1,
   ((C4_bad_port_fails [] "::1".toList [] [] "+65536".toList 53 ⟨0, (0, 0), [], []⟩
      (by simp) (by decide)).1 (by decide)).1⟩

/-- C5 (default port for IPv4): for octets `a b c d` in 0..255 and a default
port `dp` in 0..65535, `str_to_addr` on the text `a.b.c.d` succeeds with
family `AF_INET`, address bytes `a, b, c, d` and port `dp` (in network order),
leaves the text alone, and `sockaddr2str` renders that record as `a.b.c.d:dp`;
and every text that `inet_pton` accepts as IPv4 with these bytes is parsed to
the same record. -/
theorem C5_ipv4_default_port (a b c d dp : Nat) (addr : sockaddr_storage)
    (ha : a ≤ 255) (hb : b ≤ 255) (hc : c ≤ 255) (hd : d ≤ 255) (hdp : dp ≤ 65535) :
    str_to_addr (some (dotted a b c d)) dp addr =
      ⟨true, { addr with sin_addr := [a, b, c, d], sin_port := htons dp,
                         ss_family := AF_INET }, dotted a b c d⟩ ∧
    ntohs (htons dp) = dp ∧
    sockaddr2str { addr with sin_addr := [a, b, c, d], sin_port := htons dp,
                             ss_family := AF_INET } =
      some (dotted a b c d ++ ':' :: fmt_u dp) ∧
    ∀ s : List Char, inet_pton4 s = some [a, b, c, d] →
      str_to_addr (some s) dp addr =
        ⟨true, { addr with sin_addr := [a, b, c, d], sin_port := htons dp,
                           ss_family := AF_INET }, s⟩ := by
  have key : ∀ s : List Char, inet_pton4 s = some [a, b, c, d] →
      str_to_addr (some s) dp addr =
        ⟨true, { addr with sin_addr := [a, b, c, d], sin_port := htons dp,
                           ss_family := AF_INET }, s⟩ := by
    intro s hs
    rw [str_to_addr_v4_default s _ dp addr hs, Nat.mod_eq_of_lt (by omega)]
  exact ⟨key _ (inet_pton4_dotted a b c d ha hb hc hd), ntohs_htons dp (by omega),
    sockaddr2str_v4 addr a b c d dp ha hb hc hd hdp, key⟩

/-- Witness of C5 at "93.184.216.34" with default port 53. -/
theorem C5_ipv4_default_port_witness :
    dotted 93 184 216 34 = "93.184.216.34".toList ∧
    (str_to_addr (some (dotted 93 184 216 34)) 53 ⟨0, (0, 0), [], []⟩).addr =
      ⟨AF_INET, (0, 53), [93, 184, 216, 34], []⟩ ∧
    sockaddr2str ⟨AF_INET, htons 53, [93, 184, 216, 34], []⟩ =
      some (dotted 93 184 216 34 ++ ':' :: fmt_u 53) ∧
    dotted 93 184 216 34 ++ ':' :: fmt_u 53 = "93.184.216.34:53".toList := by
  have h := C5_ipv4_default_port 93 184 216 34 53 ⟨0, (0, 0), [], []⟩ (by decide) (by decide)
    (by decide) (by decide) (by decide)
  refine ⟨by decide, ?_, h.2.2.1, by decide⟩
  rw [h.1]
  rfl

/-- C6 (format after parse is the identity on canonical explicit-port text).
For octets `a b c d` in 0..255 the text `a.b.c.d:p`, and for sixteen bytes
`v` rendered by `inet_ntop` as `x` the text `[x]:p`, with `p` below 65535
written in decimal without leading zeros (the ports `str_to_addr` accepts):
`str_to_addr` succeeds for every default port and `sockaddr2str` of the record
it fills is the text again, IPv4 bare and IPv6 in brackets. -/
theorem C6_format_after_parse (a b c d p dp : Nat) (v : List Nat) (x : List Char)
    (addr : sockaddr_storage) (ha : a ≤ 255) (hb : b ≤ 255) (hc : c ≤ 255) (hd : d ≤ 255)
    (hp : p < 65535) (hv : v.length = 16) (hvb : ∀ b ∈ v, b < 256)
    (hx : inet_ntop6 v INET6_ADDRSTRLEN = some x) :
    ((str_to_addr (some (dotted a b c d ++ ':' :: fmt_u p)) dp addr).ret = true ∧
      sockaddr2str (str_to_addr (some (dotted a b c d ++ ':' :: fmt_u p)) dp addr).addr =
        some (dotted a b c d ++ ':' :: fmt_u p)) ∧
    ((str_to_addr (some ('[' :: (x ++ ']' :: ':' :: fmt_u p))) dp addr).ret = true ∧
      sockaddr2str (str_to_addr (some ('[' :: (x ++ ']' :: ':' :: fmt_u p))) dp addr).addr =
        some ('[' :: (x ++ ']' :: ':' :: fmt_u p))) := by
  constructor
  · have h := str_to_addr_explicit_port_v4 [] (fmt_u p) a b c d dp addr (by simp) ha hb hc hd
      (fmt_u_ne_nil p) (fmt_u_isDigit p) (by rw [dec_value_fmt_u]; exact hp)
    rw [List.nil_append, dec_value_fmt_u] at h
    rw [h]
    exact ⟨rfl, sockaddr2str_v4 addr a b c d p ha hb hc hd (by omega)⟩
  · have h := str_to_addr_explicit_port_v6 [] x (fmt_u p) v dp addr (by simp)
      (inet_pton6_ntop6 v _ x hv hvb hx)
      (fmt_u_ne_nil p) (fmt_u_isDigit p) (by rw [dec_value_fmt_u]; exact hp)
    rw [List.nil_append, dec_value_fmt_u] at h
    rw [h]
    exact ⟨rfl, sockaddr2str_v6 addr v x p hx (by omega)⟩

/-- Witness of C6 at "93.184.216.34:853" and "[2001:db8::1]:853". -/
theorem C6_format_after_parse_witness :
    (dotted 93 184 216 34 ++ ':' :: fmt_u 853 = "93.184.216.34:853".toList ∧
      '[' :: ("2001:db8::1".toList ++ ']' :: ':' :: fmt_u 853) = "[2001:db8::1]:853".toList) ∧
    ((str_to_addr (some (dotted 93 184 216 34 ++ ':' :: fmt_u 853)) 53
        ⟨0, (0, 0), [], []⟩).ret = true ∧
      sockaddr2str (str_to_addr (some (dotted 93 184 216 34 ++ ':' :: fmt_u 853)) 53
        ⟨0, (0, 0), [], []⟩).addr = some (dotted 93 184 216 34 ++ ':' :: fmt_u 853)) ∧
    ((str_to_addr (some ('[' :: ("2001:db8::1".toList ++ ']' :: ':' :: fmt_u 853))) 53
        ⟨0, (0, 0), [], []⟩).ret = true ∧
      sockaddr2str (str_to_addr (some ('[' :: ("2001:db8::1".toList ++ ']' :: ':' :: fmt_u 853)))
        53 ⟨0, (0, 0), [], []⟩).addr =
        some ('[' :: ("2001:db8::1".toList ++ ']' :: ':' :: fmt_u 853))) :=
  ⟨⟨by decide, by decide⟩,
    C6_format_after_parse 93 184 216 34 853 53
      [0x20, 0x01, 0x0d, 0xb8, 0, 0, 0, 0, 0, 0, 0, 0, 0, 0, 0, 1] "2001:db8::1".toList
      ⟨0, (0, 0), [], []⟩ (by decide) (by decide) (by decide) (by decide) (by decide)
      (by decide) (by decide) (by decide)⟩

/-- C7 (a bare IPv6 literal gets the default port): for every text `x` that
`inet_pton` accepts as IPv6 with bytes `a`, and every default port `d` in
0..65535, `str_to_addr` on `x` succeeds with family `AF_INET6`, address `a`
and port `d`, and leaves the text whole: no suffix of `x` is cut off as a
port. -/
theorem C7_bare_ipv6_default_port (x : List Char) (a : List Nat) (d : Nat)
    (addr : sockaddr_storage) (hx : inet_pton6 x = some a) (hd : d ≤ 65535) :
    str_to_addr (some x) d addr =
      ⟨true, { addr with sin6_addr := a, sin_port := htons d, ss_family := AF_INET6 }, x⟩ ∧
    ntohs (htons d) = d := by
  refine ⟨?_, ntohs_htons d (by omega)⟩
  have hne : x ≠ [] := by
    rintro rfl
    simp [inet_pton6] at hx
  have h := str_to_addr_no_port [] x d addr (by simp) hne
    (v6char_head x (inet_pton6_chars x a hx)) (Or.inl (inet_pton6_first_colon x a hx).2)
  simp only [List.nil_append] at h
  rw [h, str_to_addr_tail_v6 _ _ _ _ _ hx]
  rw [Nat.mod_eq_of_lt (by omega), Nat.mod_eq_of_lt (by omega)]

/-- Witness of C7 at "::ffff:1.2.3.4" with default port 53. -/
theorem C7_bare_ipv6_default_port_witness :
    str_to_addr (some "::ffff:1.2.3.4".toList) 53 ⟨0, (0, 0), [], []⟩ =
      ⟨true, ⟨AF_INET6, (0, 53), [], [0, 0, 0, 0, 0, 0, 0, 0, 0, 0, 255, 255, 1, 2, 3, 4]⟩,
        "::ffff:1.2.3.4".toList⟩ :=
  (C7_bare_ipv6_default_port "::ffff:1.2.3.4".toList
    [0, 0, 0, 0, 0, 0, 0, 0, 0, 0, 255, 255, 1, 2, 3, 4] 53 ⟨0, (0, 0), [], []⟩
    (by decide) (by decide)).1

/-- C8 (reverse name for IPv4): for octets `b1 b2 b3 b4` in 0..255, on the
text `b1.b2.b3.b4` `ip2ptr` returns exactly `b4.b3.b2.b1.in-addr.arpa.`, each
octet in decimal; and so it does on every text that `inet_pton` accepts as
IPv4 with these bytes. -/
theorem C8_ip2ptr_ipv4 (b1 b2 b3 b4 : Nat) (h1 : b1 ≤ 255) (h2 : b2 ≤ 255) (h3 : b3 ≤ 255)
    (h4 : b4 ≤ 255) :
    ip2ptr (dotted b1 b2 b3 b4) =
      some (fmt_u b4 ++ '.' :: fmt_u b3 ++ '.' :: fmt_u b2 ++ '.' :: fmt_u b1 ++
        ".in-addr.arpa.".toList) ∧
    ∀ s : List Char, inet_pton4 s = some [b1, b2, b3, b4] →
      ip2ptr s =
        some (fmt_u b4 ++ '.' :: fmt_u b3 ++ '.' :: fmt_u b2 ++ '.' :: fmt_u b1 ++
          ".in-addr.arpa.".toList) := by
  have key : ∀ s : List Char, inet_pton4 s = some [b1, b2, b3, b4] →
      ip2ptr s =
        some (fmt_u b4 ++ '.' :: fmt_u b3 ++ '.' :: fmt_u b2 ++ '.' :: fmt_u b1 ++
          ".in-addr.arpa.".toList) := by
    intro s hs
    have l1 := fmt_u_length_byte b1 (by omega)
    have l2 := fmt_u_length_byte b2 (by omega)
    have l3 := fmt_u_length_byte b3 (by omega)
    have l4 := fmt_u_length_byte b4 (by omega)
    unfold ip2ptr
    rw [hs]
    simp only [List.getD_cons_zero, List.getD_cons_succ]
    rw [snprintf_fits]
    have : (".in-addr.arpa.".toList).length = 14 := by decide
    simp only [List.length_append, List.length_cons, this]
    omega
  exact ⟨key _ (inet_pton4_dotted b1 b2 b3 b4 h1 h2 h3 h4), key⟩

/-- Witness of C8 at "1.2.3.4". -/
theorem C8_ip2ptr_ipv4_witness :
    dotted 1 2 3 4 = "1.2.3.4".toList ∧
    ip2ptr (dotted 1 2 3 4) =
      some (fmt_u 4 ++ '.' :: fmt_u 3 ++ '.' :: fmt_u 2 ++ '.' :: fmt_u 1 ++
        ".in-addr.arpa.".toList) ∧
    fmt_u 4 ++ '.' :: fmt_u 3 ++ '.' :: fmt_u 2 ++ '.' :: fmt_u 1 ++ ".in-addr.arpa.".toList =
      "4.3.2.1.in-addr.arpa.".toList :=
  ⟨by decide, (C8_ip2ptr_ipv4 1 2 3 4 (by decide) (by decide) (by decide) (by decide)).1,
    by decide⟩

/-- C9 (reverse name for IPv6): for every text `x` that `inet_pton` accepts as
IPv6 with bytes `a` (sixteen of them, each below 256), `ip2ptr` returns the
thirty-two one-digit labels of `ip6_arpa_labels a` (low nibble, then high
nibble, of the bytes from the last to the first) followed by `ip6.arpa.`, 73
characters in all. -/
theorem C9_ip2ptr_ipv6 (x : List Char) (a : List Nat) (hx : inet_pton6 x = some a) :
    ip2ptr x = some (ip6_arpa_labels a) ∧ (ip6_arpa_labels a).length = 73 ∧
      a.length = 16 ∧ ∀ b ∈ a, b < 256 := by
  obtain ⟨hl, hb⟩ := inet_pton6_bytes x a hx
  refine ⟨?_, ip6_arpa_labels_length a, hl, hb⟩
  unfold ip2ptr
  rw [inet_pton6_not_pton4 x a hx, hx]
  simp only
  rw [ptr_nibbles_labels a hl hb, snprintf_fits _ _ (by rw [ip6_arpa_labels_length]; omega)]

/-- Witness of C9 at "2001:db8::1". -/
theorem C9_ip2ptr_ipv6_witness :
    ip2ptr "2001:db8::1".toList = some (ip6_arpa_labels
      [0x20, 0x01, 0x0d, 0xb8, 0, 0, 0, 0, 0, 0, 0, 0, 0, 0, 0, 1]) ∧
    ip6_arpa_labels [0x20, 0x01, 0x0d, 0xb8, 0, 0, 0, 0, 0, 0, 0, 0, 0, 0, 0, 1] =
      "1.0.0.0.0.0.0.0.0.0.0.0.0.0.0.0.0.0.0.0.0.0.0.0.8.b.d.0.1.0.0.2.ip6.arpa.".toList :=
  ⟨(C9_ip2ptr_ipv6 "2001:db8::1".toList
      [0x20, 0x01, 0x0d, 0xb8, 0, 0, 0, 0, 0, 0, 0, 0, 0, 0, 0, 1] (by decide)).1,
    by decide⟩

/-- C10 (no label exactly on invalid input): `ip2ptr` returns `NULL` exactly
when `inet_pton` accepts the text neither as IPv4 nor as IPv6; in particular
it returns `NULL` on every text that holds a bracket, and on every valid IPv4
literal followed by `:` and a port. -/
theorem C10_ip2ptr_null_iff_invalid (s : List Char) :
    (ip2ptr s = none ↔ inet_pton4 s = none ∧ inet_pton6 s = none) ∧
    (('[' ∈ s ∨ ']' ∈ s) → ip2ptr s = none) ∧
    (∀ (q : List Nat) (p : List Char), inet_pton4 s = some q →
      ip2ptr (s ++ ':' :: p) = none) := by
  have hiff : ∀ t : List Char,
      (ip2ptr t = none ↔ inet_pton4 t = none ∧ inet_pton6 t = none) := by
    intro t
    unfold ip2ptr
    cases h4 : inet_pton4 t with
    | some q => simp
    | none =>
      cases h6 : inet_pton6 t with
      | some q => simp
      | none => simp
  refine ⟨hiff s, ?_, ?_⟩
  · intro h
    rw [hiff]
    rcases h with h | h
    · exact inet_pton_bad_char s '[' h (fun hv => (v6char_ne _ hv).2.1 rfl)
    · exact inet_pton_bad_char s ']' h (fun hv => (v6char_ne _ hv).1 rfl)
  · intro q p hq
    rw [hiff]
    refine ⟨inet_pton4_colon _ (by simp), ?_⟩
    cases h6 : inet_pton6 (s ++ ':' :: p) with
    | none => rfl
    | some l =>
      exfalso
      have hscan := (inet_pton6_first_colon _ l h6).2
      have hdot : '.' ∈ s := by
        by_contra hnd
        have hdig : ∀ c ∈ s, c.isDigit = true := by
          intro c hc
          rcases inet_pton4_chars s q hq c hc with h | h
          · exact h
          · exact absurd (h ▸ hc) hnd
        exact inet_pton4_no_dot s q hdig hq
      have hnc : ':' ∉ s := by
        intro hc
        rw [inet_pton4_colon s hc] at hq
        exact Option.noConfusion hq
      rw [scan_loop_append, scan_loop_dotted s hnc hdot] at hscan
      rw [scan_loop_true] at hscan
      exact Bool.noConfusion hscan

/-- C11 (`sockaddr_storage_size`): the size is one constant for every record
of family `AF_INET`, a strictly larger constant for every record of family
`AF_INET6`, and zero exactly when the family is neither; in particular it is
not zero for the record `str_to_addr` fills on success. -/
theorem C11_sockaddr_storage_size (storage : sockaddr_storage) (str : Option (List Char))
    (d : Nat) (addr : sockaddr_storage) :
    (storage.ss_family = AF_INET → sockaddr_storage_size storage = sizeof_sockaddr_in) ∧
    (storage.ss_family = AF_INET6 → sockaddr_storage_size storage = sizeof_sockaddr_in6) ∧
    sizeof_sockaddr_in < sizeof_sockaddr_in6 ∧
    (sockaddr_storage_size storage = 0 ↔
      storage.ss_family ≠ AF_INET ∧ storage.ss_family ≠ AF_INET6) ∧
    ((str_to_addr str d addr).ret = true →
      sockaddr_storage_size (str_to_addr str d addr).addr ≠ 0) := by
  have hne : AF_INET6 ≠ AF_INET := by decide
  refine ⟨?_, ?_, by decide, ?_, ?_⟩
  · intro h
    simp [sockaddr_storage_size, h]
  · intro h
    simp [sockaddr_storage_size, h, hne]
  · unfold sockaddr_storage_size
    by_cases h4 : storage.ss_family = AF_INET
    · simp [h4, sizeof_sockaddr_in]
    · by_cases h6 : storage.ss_family = AF_INET6
      · simp [h6, hne, sizeof_sockaddr_in6]
      · simp [h4, h6]
  · intro hret
    rcases str_to_addr_record str d addr with ⟨h, _⟩ | ⟨a, port, _, _, _, _, h⟩ |
      ⟨a, port, _, _, _, _, h⟩
    · rw [h] at hret; exact Bool.noConfusion hret
    · rw [h]; simp [sockaddr_storage_size, sizeof_sockaddr_in]
    · rw [h]; simp [sockaddr_storage_size, hne, sizeof_sockaddr_in6]

/-- Witness of C11 at the record parsed from "1.2.3.4" and from "::1". -/
theorem C11_sockaddr_storage_size_witness :
    sockaddr_storage_size (str_to_addr (some "1.2.3.4".toList) 53 ⟨0, (0, 0), [], []⟩).addr
      = 16 ∧
    sockaddr_storage_size (str_to_addr (some "::1".toList) 53 ⟨0, (0, 0), [], []⟩).addr
      = 28 ∧
    sockaddr_storage_size (str_to_addr (some "1.2.3.4".toList) 53 ⟨0, (0, 0), [], []⟩).addr
      ≠ 0 :=
  ⟨by decide, by decide,
    (C11_sockaddr_storage_size ⟨0, (0, 0), [], []⟩ (some "1.2.3.4".toList) 53
      ⟨0, (0, 0), [], []⟩).2.2.2.2 (by decide)⟩

/-- C12 (`str_to_addr` fails on absent, empty and unparsable text): a null
text and the empty text return failure, a text of spaces and tabs only
returns failure, and so does every text whose address part (the text
trimmed, without brackets and port) neither `inet_pton` accepts. -/
theorem C12_fails_on_unparsable (text : List Char) (d : Nat) (addr : sockaddr_storage) :
    (str_to_addr none d addr).ret = false ∧
    (str_to_addr (some []) d addr).ret = false ∧
    ((∀ c ∈ text, is_blank c = true) → (str_to_addr (some text) d addr).ret = false) ∧
    (inet_pton4 (address_part text) = none → inet_pton6 (address_part text) = none →
      (str_to_addr (some text) d addr).ret = false) :=
  ⟨rfl, rfl, fun h => (str_to_addr_blank text d addr h).1,
    fun h4 h6 => str_to_addr_invalid text d addr h4 h6⟩

/-- Witness of C12 at " \t " and at "[2001:db8::zz]:53". -/
theorem C12_fails_on_unparsable_witness :
    (str_to_addr (some " \t ".toList) 53 ⟨0, (0, 0), [], []⟩).ret = false ∧
    address_part "[2001:db8::zz]:53".toList = "2001:db8::zz".toList ∧
    (str_to_addr (some "[2001:db8::zz]:53".toList) 53 ⟨0, (0, 0), [], []⟩).ret = false :=
  ⟨(C12_fails_on_unparsable " \t ".toList 53 ⟨0, (0, 0), [], []⟩).2.2.1 (by decide),
    by decide,
    (C12_fails_on_unparsable "[2001:db8::zz]:53".toList 53 ⟨0, (0, 0), [], []⟩).2.2.2
      (by decide) (by decide)⟩

/-- C13 (no partial endpoint on failure): when `str_to_addr` returns failure
the caller's record is exactly what it was; when it returns success the
address, the port and the family have all been written and agree: family
`AF_INET` with four address bytes, or family `AF_INET6` with sixteen. -/
theorem C13_no_partial_endpoint (str : Option (List Char)) (d : Nat)
    (addr : sockaddr_storage) :
    ((str_to_addr str d addr).ret = false → (str_to_addr str d addr).addr = addr) ∧
    ((str_to_addr str d addr).ret = true →
      (∃ a port, a.length = 4 ∧ (∀ b ∈ a, b ≤ 255) ∧ port < 65536 ∧
        (str_to_addr str d addr).addr =
          { addr with sin_addr := a, sin_port := htons port, ss_family := AF_INET }) ∨
      (∃ a port, a.length = 16 ∧ (∀ b ∈ a, b < 256) ∧ port < 65536 ∧
        (str_to_addr str d addr).addr =
          { addr with sin6_addr := a, sin_port := htons port, ss_family := AF_INET6 })) := by
  rcases str_to_addr_record str d addr with ⟨h1, h2⟩ | ⟨a, port, h1, h2, h3, h4, h5⟩ |
    ⟨a, port, h1, h2, h3, h4, h5⟩
  · refine ⟨fun _ => h2, fun h => ?_⟩
    rw [h1] at h; exact Bool.noConfusion h
  · refine ⟨fun h => ?_, fun _ => Or.inl ⟨a, port, h2, h3, h4, h5⟩⟩
    rw [h1] at h; exact Bool.noConfusion h
  · refine ⟨fun h => ?_, fun _ => Or.inr ⟨a, port, h2, h3, h4, h5⟩⟩
    rw [h1] at h; exact Bool.noConfusion h

/-- Witness of C13: "10.0.0.1:99999" fails and leaves the record alone,
"[2001:db8::1]:853" succeeds and writes all three fields. -/
theorem C13_no_partial_endpoint_witness :
    (str_to_addr (some "10.0.0.1:99999".toList) 53 ⟨7, (1, 2), [9], [8]⟩).addr =
      ⟨7, (1, 2), [9], [8]⟩ ∧
    (str_to_addr (some "[2001:db8::1]:853".toList) 53 ⟨7, (1, 2), [9], [8]⟩).addr =
      ⟨AF_INET6, (3, 85), [9], [0x20, 0x01, 0x0d, 0xb8, 0, 0, 0, 0, 0, 0, 0, 0, 0, 0, 0, 1]⟩ :=
  ⟨(C13_no_partial_endpoint (some "10.0.0.1:99999".toList) 53 ⟨7, (1, 2), [9], [8]⟩).1
    (by decide), by decide⟩

/-- C14 as stated fails: "10.0.0.1:99999" is refused, and the caller's buffer
then holds NUL in place of the colon. -/
theorem C14_buffer_changed :
    (str_to_addr (some "10.0.0.1:99999".toList) 53 ⟨0, (0, 0), [], []⟩).ret = false ∧
    (str_to_addr (some "10.0.0.1:99999".toList) 53 ⟨0, (0, 0), [], []⟩).str =
      "10.0.0.1".toList ++ '\x00' :: "99999".toList ∧
    (str_to_addr (some "10.0.0.1:99999".toList) 53 ⟨0, (0, 0), [], []⟩).str ≠
      "10.0.0.1:99999".toList := by
  decide

/-- C14 (amended): the text survives a parse except for its port separator.
After a call of `str_to_addr` on any text, failed or not, the caller's buffer
holds the text with the port separator overwritten by NUL when the text has a
port separator, and the text as it was when it has none. The separator, if
any, is a `:` or a `]` of the text; it is the `]` of `[x]:p`, and the last
colon of an unbracketed text with a dot before its first colon. -/
theorem C14_buffer_after_failure (text w x a1 a2 p : List Char) (d : Nat)
    (addr : sockaddr_storage) (hw : ∀ c ∈ w, is_blank c = true) :
    ((str_to_addr (some text) d addr).str =
      match port_separator text with
      | none => text
      | some i => text.set i '\x00') ∧
    (port_separator text = none → (str_to_addr (some text) d addr).str = text) ∧
    (∀ i, port_separator text = some i → text[i]? = some ':' ∨ text[i]? = some ']') ∧
    (']' ∉ x →
      port_separator (w ++ '[' :: (x ++ ']' :: ':' :: p)) = some (w.length + 1 + x.length) ∧
      (str_to_addr (some (w ++ '[' :: (x ++ ']' :: ':' :: p))) d addr).str =
        w ++ '[' :: x ++ '\x00' :: ':' :: p) ∧
    (':' ∉ a1 → ':' ∉ p →
      (∀ c, (a1 ++ '.' :: a2).head? = some c → is_blank c = false ∧ c ≠ '[') →
      port_separator (w ++ (a1 ++ '.' :: a2 ++ ':' :: p)) =
        some (w.length + (a1 ++ '.' :: a2).length) ∧
      (str_to_addr (some (w ++ (a1 ++ '.' :: a2 ++ ':' :: p))) d addr).str =
        w ++ (a1 ++ '.' :: a2) ++ '\x00' :: p) := by
  refine ⟨(str_to_addr_buffer_exact text d addr).1, ?_,
    (str_to_addr_buffer_exact text d addr).2, ?_, ?_⟩
  · intro h
    rw [(str_to_addr_buffer_exact text d addr).1, h]
  · intro hx
    have ht : ∀ c, ('[' :: (x ++ ']' :: ':' :: p)).head? = some c → is_blank c = false := by
      intro c hc
      simp at hc
      subst hc
      decide
    constructor
    · rw [(port_separator_cases w _ hw ht).2.2.1 x p rfl hx]
      simp
      omega
    · rw [str_to_addr_bracket_port w x p d addr hw hx]
      split_ifs
      · rfl
      · exact str_to_addr_tail_str _ _ _ _
  · intro h1 hp hs
    have hscan := scan_loop_port a1 a2 p h1 hp
    have hs2 : ∀ c, (a1 ++ '.' :: a2 ++ ':' :: p).head? = some c →
        is_blank c = false ∧ c ≠ '[' := by
      intro c hc
      apply hs c
      cases a1 with
      | nil => simpa using hc
      | cons c1 cs => simpa using hc
    constructor
    · have hspec := scan_loop_spec (a1 ++ '.' :: a2 ++ ':' :: p) 0 false none
      rw [hscan] at hspec
      have hd : dot_before_colon (a1 ++ '.' :: a2 ++ ':' :: p) = true := by
        have := congrArg Prod.fst hspec
        simpa using this.symm
      have hb : before_last_colon (a1 ++ '.' :: a2 ++ ':' :: p) = some (a1 ++ '.' :: a2) := by
        cases hbl : before_last_colon (a1 ++ '.' :: a2 ++ ':' :: p) with
        | none =>
          exact absurd (before_last_colon_none _ hbl) (by simp)
        | some r =>
          obtain ⟨p2, he, hp2⟩ := before_last_colon_some _ r hbl
          have := congrArg Prod.snd hspec
          rw [hbl] at this
          simp only [Option.some.injEq, Nat.zero_add] at this
          have hl : (a1 ++ '.' :: a2) = r := by
            have h3 := List.append_inj he this
            exact h3.1
          rw [hl]
      have hh : (a1 ++ '.' :: a2 ++ ':' :: p).head? ≠ some '[' := fun e => (hs2 _ e).2 rfl
      rw [(port_separator_cases w _ hw (fun c hc => (hs2 c hc).1)).2.2.2.2.1 _ hh hd hb]
      simp
    · rw [str_to_addr_port w (a1 ++ '.' :: a2) p d addr hw hs2 hscan]
      split_ifs
      · rfl
      · exact str_to_addr_tail_str _ _ _ _

/-- Witness of C14 (amended), default port 53: in "10.0.0.1:99999" the last
colon is overwritten; "::1", "[::1]" and "1.2.3.4" have no port separator
and are left as they were. -/
theorem C14_buffer_after_failure_witness :
    (str_to_addr (some "10.0.0.1:99999".toList) 53 ⟨0, (0, 0), [], []⟩).str =
      "10.0.0.1".toList ++ '\x00' :: "99999".toList ∧
    (str_to_addr (some "::1".toList) 53 ⟨0, (0, 0), [], []⟩).str = "::1".toList ∧
    (str_to_addr (some "[::1]".toList) 53 ⟨0, (0, 0), [], []⟩).str = "[::1]".toList ∧
    (str_to_addr (some "1.2.3.4".toList) 53 ⟨0, (0, 0), [], []⟩).str = "1.2.3.4".toList :=
  ⟨((C14_buffer_after_failure [] [] [] "10".toList "0.0.1".toList
      "99999".toList 53 ⟨0, (0, 0), [], []⟩ (by simp)).2.2.2.2 (by decide) (by decide)
      (by decide)).2,
   (C14_buffer_after_failure "::1".toList [] [] [] [] [] 53 ⟨0, (0, 0), [], []⟩
      (by simp)).2.1 (by decide),
   (C14_buffer_after_failure "[::1]".toList [] [] [] [] [] 53 ⟨0, (0, 0), [], []⟩
      (by simp)).2.1 (by decide),
   (C14_buffer_after_failure "1.2.3.4".toList [] [] [] [] [] 53 ⟨0, (0, 0), [], []⟩
      (by simp)).2.1 (by decide)⟩

/-- C15 (leading white space is trimmed): for spaces and tabs `w` in front of
any text `s`, `str_to_addr` returns the same value and fills the same record
on `w ++ s` as on `s`. -/
theorem C15_leading_blanks (w s : List Char) (d : Nat) (addr : sockaddr_storage)
    (hw : ∀ c ∈ w, is_blank c = true) :
    (str_to_addr (some (w ++ s)) d addr).ret = (str_to_addr (some s) d addr).ret ∧
    (str_to_addr (some (w ++ s)) d addr).addr = (str_to_addr (some s) d addr).addr := by
  obtain ⟨w0, t, hs, hw0, ht, _⟩ := trim_split s
  subst hs
  by_cases hne : t = []
  · subst hne
    rw [List.append_nil]
    have hall : ∀ c ∈ w ++ w0, is_blank c = true := by
      intro c hc
      rcases List.mem_append.1 hc with h | h
      · exact hw c h
      · exact hw0 c h
    obtain ⟨r1, a1, _⟩ := str_to_addr_blank (w ++ w0) d addr hall
    obtain ⟨r2, a2, _⟩ := str_to_addr_blank w0 d addr hw0
    rw [r1, r2, a1, a2]
    exact ⟨rfl, rfl⟩
  · have hall : ∀ c ∈ w ++ w0, is_blank c = true := by
      intro c hc
      rcases List.mem_append.1 hc with h | h
      · exact hw c h
      · exact hw0 c h
    rw [← List.append_assoc]
    exact str_to_addr_prefix (w ++ w0) w0 t d addr hall hw0 ht hne

/-- Witness of C15 at " \t" in front of "[2001:db8::1]:853" and of "". -/
theorem C15_leading_blanks_witness :
    ((str_to_addr (some (" \t".toList ++ "[2001:db8::1]:853".toList)) 53
        ⟨0, (0, 0), [], []⟩).ret =
      (str_to_addr (some "[2001:db8::1]:853".toList) 53 ⟨0, (0, 0), [], []⟩).ret ∧
    (str_to_addr (some (" \t".toList ++ "[2001:db8::1]:853".toList)) 53
        ⟨0, (0, 0), [], []⟩).addr =
      (str_to_addr (some "[2001:db8::1]:853".toList) 53 ⟨0, (0, 0), [], []⟩).addr) ∧
    (str_to_addr (some "[2001:db8::1]:853".toList) 53 ⟨0, (0, 0), [], []⟩).ret = true :=
  ⟨C15_leading_blanks " \t".toList "[2001:db8::1]:853".toList 53 ⟨0, (0, 0), [], []⟩
    (by decide), by decide⟩

/-- C17 (the last colon is the port separator for IPv4-classified text): for
an unbracketed text with a dot before its first colon, split at its last
colon into `a` and `p`, the outcome of `str_to_addr` is that of the port text
`p` and the address text `a` alone, whatever the default port; and when `a`
still holds a colon the call fails and leaves the record alone. -/
theorem C17_last_colon_separates (w a1 a2 p : List Char) (d : Nat) (addr : sockaddr_storage)
    (hw : ∀ c ∈ w, is_blank c = true) (h1 : ':' ∉ a1) (hp : ':' ∉ p)
    (hs : ∀ c, (a1 ++ '.' :: a2).head? = some c → is_blank c = false ∧ c ≠ '[') :
    str_to_addr (some (w ++ (a1 ++ '.' :: a2 ++ ':' :: p))) d addr =
      (if (strtoul p).2 ≠ [] ∨ (strtoul p).1 ≥ UINT16_MAX then
        ⟨false, addr, w ++ (a1 ++ '.' :: a2) ++ '\x00' :: p⟩
      else str_to_addr_tail (a1 ++ '.' :: a2) (strtoul p).1 addr
        (w ++ (a1 ++ '.' :: a2) ++ '\x00' :: p)) ∧
    (':' ∈ a2 →
      (str_to_addr (some (w ++ (a1 ++ '.' :: a2 ++ ':' :: p))) d addr).ret = false ∧
      (str_to_addr (some (w ++ (a1 ++ '.' :: a2 ++ ':' :: p))) d addr).addr = addr) := by
  have hscan := scan_loop_port a1 a2 p h1 hp
  have hs2 : ∀ c, (a1 ++ '.' :: a2 ++ ':' :: p).head? = some c →
      is_blank c = false ∧ c ≠ '[' := by
    intro c hc
    apply hs c
    cases a1 with
    | nil => simpa using hc
    | cons c1 cs => simpa using hc
  have key := str_to_addr_port w (a1 ++ '.' :: a2) p d addr hw hs2 hscan
  refine ⟨key, fun hc => ?_⟩
  rw [key]
  split_ifs
  · exact ⟨rfl, rfl⟩
  · rw [str_to_addr_tail_invalid _ _ _ _ (inet_pton4_colon _ (by simp [hc]))
      (inet_pton6_dot_first a1 a2 h1)]
    exact ⟨rfl, rfl⟩

/-- Witness of C17 at "1.2.3.4:5:6" with default port 53. -/
theorem C17_last_colon_separates_witness :
    (str_to_addr (some "1.2.3.4:5:6".toList) 53 ⟨0, (0, 0), [], []⟩).ret = false :=
  ((C17_last_colon_separates [] "1".toList "2.3.4:5".toList "6".toList 53 ⟨0, (0, 0), [], []⟩
    (by simp) (by decide) (by decide) (by decide)).2 (by decide)).1

/-- C18 (the reverse-name buffer is never too small): for a text accepted as
IPv4 the text `ip2ptr` formats is at most 29 characters long, for a text
accepted as IPv6 it is exactly 73 characters long; `snprintf` with the limit
of 1023 stores either whole, and that is what `ip2ptr` returns. -/
theorem C18_reverse_name_fits (s x : List Char) (q a : List Nat)
    (hs : inet_pton4 s = some q) (hx : inet_pton6 x = some a) :
    ((fmt_u (q.getD 3 0) ++ '.' :: fmt_u (q.getD 2 0) ++ '.' :: fmt_u (q.getD 1 0) ++ '.' ::
        fmt_u (q.getD 0 0) ++ ".in-addr.arpa.".toList).length ≤ 29 ∧
      snprintf 1023 (fmt_u (q.getD 3 0) ++ '.' :: fmt_u (q.getD 2 0) ++ '.' ::
        fmt_u (q.getD 1 0) ++ '.' :: fmt_u (q.getD 0 0) ++ ".in-addr.arpa.".toList) =
        fmt_u (q.getD 3 0) ++ '.' :: fmt_u (q.getD 2 0) ++ '.' :: fmt_u (q.getD 1 0) ++ '.' ::
          fmt_u (q.getD 0 0) ++ ".in-addr.arpa.".toList ∧
      ip2ptr s = some (fmt_u (q.getD 3 0) ++ '.' :: fmt_u (q.getD 2 0) ++ '.' ::
        fmt_u (q.getD 1 0) ++ '.' :: fmt_u (q.getD 0 0) ++ ".in-addr.arpa.".toList)) ∧
    (((ptr_nibbles a).flatMap (fun n => fmt_x n ++ ['.']) ++ "ip6.arpa.".toList).length = 73 ∧
      snprintf 1023 ((ptr_nibbles a).flatMap (fun n => fmt_x n ++ ['.']) ++
        "ip6.arpa.".toList) =
        (ptr_nibbles a).flatMap (fun n => fmt_x n ++ ['.']) ++ "ip6.arpa.".toList ∧
      ip2ptr x = some ((ptr_nibbles a).flatMap (fun n => fmt_x n ++ ['.']) ++
        "ip6.arpa.".toList)) := by
  constructor
  · obtain ⟨b1, b2, b3, b4, rfl, h1, h2, h3, h4, hp⟩ := ip2ptr_v4 s q hs
    simp only [List.getD_cons_zero, List.getD_cons_succ]
    have hlen := in_addr_arpa_length b1 b2 b3 b4 h1 h2 h3 h4
    exact ⟨hlen, snprintf_fits _ _ (by omega), hp⟩
  · obtain ⟨_, _, hp, he⟩ := ip2ptr_v6 x a hx
    rw [he]
    exact ⟨ip6_arpa_labels_length a,
      snprintf_fits _ _ (by rw [ip6_arpa_labels_length]; omega), hp⟩

/-- Witness of C18 at "255.255.255.255" and "2001:db8::1". -/
theorem C18_reverse_name_fits_witness :
    ip2ptr "255.255.255.255".toList = some "255.255.255.255.in-addr.arpa.".toList ∧
    ("255.255.255.255.in-addr.arpa.".toList).length = 29 ∧
    ((ptr_nibbles [0x20, 0x01, 0x0d, 0xb8, 0, 0, 0, 0, 0, 0, 0, 0, 0, 0, 0, 1]).flatMap
      (fun n => fmt_x n ++ ['.']) ++ "ip6.arpa.".toList).length = 73 :=
  ⟨by decide, by decide,
    (C18_reverse_name_fits "255.255.255.255".toList "2001:db8::1".toList
      [255, 255, 255, 255] [0x20, 0x01, 0x0d, 0xb8, 0, 0, 0, 0, 0, 0, 0, 0, 0, 0, 0, 1]
      (by decide) (by decide)).2.1⟩

/-- C19 (`sockaddr2str` never overruns or truncates its buffer): for a record
of family `AF_INET` with four address bytes, or of family `AF_INET6` with
sixteen, whatever its port, the text `sockaddr2str` builds is at most 53
characters long and fits the 55-byte buffer with its terminator; every
offset the function stores to (the brackets, the terminator, the regions
handed to `inet_ntop` and to `snprintf`) lies inside the buffer, and the port
suffix fits the size `snprintf` is given. -/
theorem C19_sockaddr2str_fits (e : sockaddr_storage)
    (hfam : e.ss_family = AF_INET ∨ e.ss_family = AF_INET6)
    (h4 : e.ss_family = AF_INET → e.sin_addr.length = 4 ∧ ∀ b ∈ e.sin_addr, b ≤ 255)
    (h6 : e.ss_family = AF_INET6 → e.sin6_addr.length = 16 ∧ ∀ b ∈ e.sin6_addr, b < 256) :
    ∃ t st, sockaddr2str e = some t ∧ sockaddr2str_stores e = some st ∧
      sizeof_str = 55 ∧ t.length ≤ 53 ∧ t.length + 1 ≤ sizeof_str ∧
      (∀ i, st.open_bracket = some i → i < sizeof_str) ∧
      st.ntop_at + st.ntop_size ≤ sizeof_str ∧
      (∀ i, st.close_bracket = some i → i < sizeof_str) ∧
      (∀ i, st.terminator = some i → i < sizeof_str) ∧
      st.suffix_at + st.suffix_size ≤ sizeof_str ∧
      st.suffix.length + 1 ≤ st.suffix_size ∧ st.suffix.length ≤ 6 ∧
      t.length = st.suffix_at + st.suffix.length := by
  have hport := fmt_u_length_u16 (ntohs e.sin_port) (ntohs_lt _)
  have hne : AF_INET6 ≠ AF_INET := by decide
  rcases hfam with hf | hf
  · obtain ⟨hl, hb⟩ := h4 hf
    obtain ⟨x, hx, hxl⟩ := inet_ntop4_total e.sin_addr sizeof_str hl hb (by decide)
    have hx2 : inet_ntop4 e.sin_addr (INET6_ADDRSTRLEN + 7 + 2) = some x := hx
    refine ⟨x ++ ':' :: fmt_u (ntohs e.sin_port),
      ⟨none, 0, sizeof_str, none, none, x.length,
        (sizeof_str + 18446744073709551616 - x.length) % 18446744073709551616,
        ':' :: fmt_u (ntohs e.sin_port)⟩, ?_, ?_, rfl, ?_⟩
    · unfold sockaddr2str
      simp only [hf, if_true, hx2]
      rw [snprintf_fits _ _ (by unfold INET6_ADDRSTRLEN; simp only [List.length_cons]; omega)]
    · unfold sockaddr2str_stores
      simp only [hf, if_true, hx]
    · refine ⟨?_, ?_, ?_, ?_, ?_, ?_, ?_, ?_, ?_, ?_⟩ <;>
        simp only [sizeof_str, INET6_ADDRSTRLEN, List.length_append, List.length_cons,
          List.length_nil] <;>
        first
        | omega
        | (intro i hi; simp only [reduceCtorEq] at hi)
  · obtain ⟨hl, hb⟩ := h6 hf
    obtain ⟨x, hx, hxl, _⟩ := inet_ntop6_total e.sin6_addr (sizeof_str - 1) hl hb (by decide)
    have hx2 : inet_ntop6 e.sin6_addr (INET6_ADDRSTRLEN + 7 + 2 - 1) = some x := hx
    refine ⟨'[' :: x ++ [']'] ++ ':' :: fmt_u (ntohs e.sin_port),
      ⟨some 0, 1, sizeof_str - 1, some ('[' :: x).length, some (('[' :: x).length + 1),
        ('[' :: x).length + 1,
        (sizeof_str + 18446744073709551616 - (('[' :: x).length + 1)) % 18446744073709551616,
        ':' :: fmt_u (ntohs e.sin_port)⟩, ?_, ?_, rfl, ?_⟩
    · unfold sockaddr2str
      simp only [hf, hne, if_false, if_true, hx2]
      rw [snprintf_fits _ _ (by unfold INET6_ADDRSTRLEN; simp only [List.length_cons]; omega)]
    · unfold sockaddr2str_stores
      simp only [hf, hne, if_false, if_true, hx]
    · refine ⟨?_, ?_, ?_, ?_, ?_, ?_, ?_, ?_, ?_, ?_⟩ <;>
        simp only [sizeof_str, INET6_ADDRSTRLEN, List.length_append, List.length_cons,
          List.length_nil] <;>
        first
        | omega
        | (intro i hi; simp only [Option.some.injEq] at hi; omega)

/-- Witness of C19 at the longest texts: 255.255.255.255 and
ffff:ffff:ffff:ffff:ffff:ffff:ffff:ffff with port 65535. -/
theorem C19_sockaddr2str_fits_witness :
    (∃ t st, sockaddr2str ⟨AF_INET6, (255, 255), [],
        [255, 255, 255, 255, 255, 255, 255, 255, 255, 255, 255, 255, 255, 255, 255, 255]⟩ =
          some t ∧
      sockaddr2str_stores ⟨AF_INET6, (255, 255), [],
        [255, 255, 255, 255, 255, 255, 255, 255, 255, 255, 255, 255, 255, 255, 255, 255]⟩ =
          some st ∧
      sizeof_str = 55 ∧ t.length ≤ 53 ∧ t.length + 1 ≤ sizeof_str ∧
      (∀ i, st.open_bracket = some i → i < sizeof_str) ∧
      st.ntop_at + st.ntop_size ≤ sizeof_str ∧
      (∀ i, st.close_bracket = some i → i < sizeof_str) ∧
      (∀ i, st.terminator = some i → i < sizeof_str) ∧
      st.suffix_at + st.suffix_size ≤ sizeof_str ∧
      st.suffix.length + 1 ≤ st.suffix_size ∧ st.suffix.length ≤ 6 ∧
      t.length = st.suffix_at + st.suffix.length) ∧
    sockaddr2str ⟨AF_INET6, (255, 255), [],
        [255, 255, 255, 255, 255, 255, 255, 255, 255, 255, 255, 255, 255, 255, 255, 255]⟩ =
      some "[ffff:ffff:ffff:ffff:ffff:ffff:ffff:ffff]:65535".toList :=
  ⟨C19_sockaddr2str_fits ⟨AF_INET6, (255, 255), [],
      [255, 255, 255, 255, 255, 255, 255, 255, 255, 255, 255, 255, 255, 255, 255, 255]⟩
      (Or.inr rfl) (by decide) (by decide), by decide⟩

/-- C20 (the reverse name determines the address): for texts accepted as
IPv4 with bytes `q1`, `q2` and texts accepted as IPv6 with bytes `a1`, `a2`,
equal reverse names mean equal addresses within a family; the IPv4 bytes are
read back from the four decimal labels taken from the last to the first, the
IPv6 bytes from the thirty-two hexadecimal labels taken from the last to the
first and paired high nibble then low nibble; and the reverse name of an IPv4
address is never that of an IPv6 address. -/
theorem C20_reverse_name_injective (s1 s2 x1 x2 : List Char) (q1 q2 a1 a2 : List Nat)
    (hs1 : inet_pton4 s1 = some q1) (hs2 : inet_pton4 s2 = some q2)
    (hx1 : inet_pton6 x1 = some a1) (hx2 : inet_pton6 x2 = some a2) :
    (ip2ptr s1 = ip2ptr s2 → q1 = q2) ∧
    (ip2ptr x1 = ip2ptr x2 → a1 = a2) ∧
    (ip2ptr s1).map in_addr_arpa_decode = some q1 ∧
    (ip2ptr x1).map ip6_arpa_decode = some a1 ∧
    ip2ptr s1 ≠ ip2ptr x1 := by
  have d4 : ∀ (s : List Char) (q : List Nat), inet_pton4 s = some q →
      (ip2ptr s).map in_addr_arpa_decode = some q := by
    intro s q h
    obtain ⟨b1, b2, b3, b4, rfl, _, _, _, _, hp⟩ := ip2ptr_v4 s _ h
    rw [hp, Option.map_some', in_addr_arpa_decode_label]
  have d6 : ∀ (x : List Char) (a : List Nat), inet_pton6 x = some a →
      (ip2ptr x).map ip6_arpa_decode = some a := by
    intro x a h
    obtain ⟨hl, hb, hp, _⟩ := ip2ptr_v6 x a h
    rw [hp, Option.map_some', ip6_arpa_decode_label a hl hb]
  refine ⟨?_, ?_, d4 s1 q1 hs1, d6 x1 a1 hx1, ?_⟩
  · intro h
    have e1 := d4 s1 q1 hs1
    have e2 := d4 s2 q2 hs2
    rw [h, e2] at e1
    exact (Option.some.inj e1).symm
  · intro h
    have e1 := d6 x1 a1 hx1
    have e2 := d6 x2 a2 hx2
    rw [h, e2] at e1
    exact (Option.some.inj e1).symm
  · intro h
    obtain ⟨b1, b2, b3, b4, _, h1, h2, h3, h4, hp⟩ := ip2ptr_v4 s1 q1 hs1
    obtain ⟨_, _, hp6, _⟩ := ip2ptr_v6 x1 a1 hx1
    have hlen := in_addr_arpa_length b1 b2 b3 b4 h1 h2 h3 h4
    rw [hp, hp6] at h
    rw [Option.some.inj h, ip6_arpa_labels_length] at hlen
    omega

/-- Witness of C20 at "1.2.3.4", "4.3.2.1", "2001:db8::1" and "::1". -/
theorem C20_reverse_name_injective_witness :
    ip2ptr "1.2.3.4".toList ≠ ip2ptr "2001:db8::1".toList ∧
    (ip2ptr "1.2.3.4".toList).map in_addr_arpa_decode = some [1, 2, 3, 4] ∧
    (ip2ptr "2001:db8::1".toList).map ip6_arpa_decode =
      some [0x20, 0x01, 0x0d, 0xb8, 0, 0, 0, 0, 0, 0, 0, 0, 0, 0, 0, 1] :=
  have h := C20_reverse_name_injective "1.2.3.4".toList "4.3.2.1".toList
    "2001:db8::1".toList "::1".toList [1, 2, 3, 4] [4, 3, 2, 1]
    [0x20, 0x01, 0x0d, 0xb8, 0, 0, 0, 0, 0, 0, 0, 0, 0, 0, 0, 1]
    [0, 0, 0, 0, 0, 0, 0, 0, 0, 0, 0, 0, 0, 0, 0, 1]
    (by decide) (by decide) (by decide) (by decide)
  ⟨h.2.2.2.2, h.2.2.1, h.2.2.2.1⟩

end Massdns
